import Mathlib

/-!
Huffman file compression (`util.h`): embedding and verified properties

The development follows `util.h` function by function.

* `HuffmanNode` is the value of a `HuffmanNode*`: either `nullptr` or an
  allocated node with its four fields.
* `hashmap`, `mymap`, the bit streams and the two reserved symbols live in
  headers that are not part of the sources at hand; they are modelled here
  from their documented contracts.
* `std::priority_queue<HuffmanNode*, vector<HuffmanNode*>, prioritize>` is the
  binary heap kept in a vector by `std::push_heap` / `std::pop_heap`.
* Executions that dereference a null pointer, read an empty queue or look up
  an absent key have no defined result; they are reported as a `Fault`.
* `int` is 32 bits wide. The sums `count+1` of `putFrequency` and
  `leftN->count + rightN->count` of `buildEncodingTree`, and the conversion
  `size = str.size()` of `encode`, are reduced modulo `2^32` into
  `[-2^31, 2^31)` (`wrapInt`), which is what the usual targets compute.
* String positions are `size_t` values below `2^64`, with `npos = 2^64 - 1`; the
  cast `(int)pos` of `decompress` is taken modulo `2^32`.
-/

namespace Huffman

/-! ## Symbols and characters -/

/-- Modelled from the spec: the reserved end-of-stream symbol, a constant of
`bitstream.h`; it is outside the range of every `char` value. -/
def PSEUDO_EOF : Int := 256

/-- Modelled from the spec: the reserved symbol that marks an internal node, a
constant of `bitstream.h`; it is outside the range of every `char` value. -/
def NOT_A_CHAR : Int := 257

/-- A `char` of the input, given by its byte. -/
abbrev CChar := Fin 256

/-- Integral promotion `char -> int` (plain `char` is signed on the usual targets). -/
def charToInt (c : CChar) : Int :=
  if c.val < 128 then (c.val : Int) else (c.val : Int) - 256

/-- Narrowing conversion `int -> char`, as in `decoded += cur->character`. -/
def intToChar (n : Int) : CChar :=
  ⟨(n % 256).toNat, by omega⟩

/-- The value that a 32-bit `int` holds for the mathematical result `n` of an
`int` addition or of a conversion to `int`: `n` reduced modulo `2^32` into
`[-2^31, 2^31)`. -/
def wrapInt (n : Int) : Int :=
  (n + 2 ^ 31) % 2 ^ 32 - 2 ^ 31

/-- Executions without a defined result. -/
inductive Fault where
  | nullDeref
  | emptyQueue
  | missingKey
  | badBit
  | loopBound
  | outOfRange
  deriving DecidableEq, Repr

/-- The value of a `HuffmanNode*`: `nullptr`, or a node with the fields
`character`, `count`, `zero`, `one`. -/
inductive HuffmanNode where
  | nullptr : HuffmanNode
  | node (character : Int) (count : Int) (zero : HuffmanNode) (one : HuffmanNode) : HuffmanNode
  deriving DecidableEq, Repr

/-- Field read `p->count`; the queue only ever holds allocated nodes (`Merged.ne_nullptr`). -/
def HuffmanNode.count : HuffmanNode → Int
  | .nullptr => 0
  | .node _ c _ _ => c

/-- Comparator `prioritize::operator()`: `p1->count > p2->count`. -/
def prioritize (p1 p2 : HuffmanNode) : Bool :=
  decide (p1.count > p2.count)

/-! ## The frequency table (`hashmap`) -/

/-- Modelled from the spec: `hashmap` of `hashmap.h`, a key-unique mapping
`int -> int` with `put`, `get` (fails if absent), `containsKey` and `keys`.
The entries are listed in the order in which `keys()` enumerates them; that
order is not fixed by the contract, so properties are stated for every
rearrangement of the entries. -/
abbrev hashmap := List (Int × Int)

/-- Modelled from the spec: `hashmap::containsKey`. -/
def hashmap.containsKey : hashmap → Int → Bool
  | [], _ => false
  | (k, _) :: rest, key => if k = key then true else hashmap.containsKey rest key

/-- Modelled from the spec: `hashmap::get`, failing on an absent key. -/
def hashmap.get : hashmap → Int → Except Fault Int
  | [], _ => .error .missingKey
  | (k, v) :: rest, key => if k = key then .ok v else hashmap.get rest key

/-- Modelled from the spec: `hashmap::put`, replacing the value of a present
key and adding an entry for an absent one. -/
def hashmap.put : hashmap → Int → Int → hashmap
  | [], key, value => [(key, value)]
  | (k, v) :: rest, key, value =>
    if k = key then (k, value) :: rest else (k, v) :: hashmap.put rest key value

/-- Modelled from the spec: `hashmap::keys`. -/
def hashmap.keys (map : hashmap) : List Int :=
  map.map Prod.fst

/-- Translation of `putFrequency`; `count+1` is an `int` sum. -/
def putFrequency (map : hashmap) (c : Int) : Except Fault hashmap :=
  if map.containsKey c then do
    let count ← map.get c
    pure (map.put c (wrapInt (count + 1)))
  else
    pure (map.put c 1)

/-- The loop `for (char c : filename) putFrequency(map, c)` (and likewise the
loop over `infile.get(c)`). -/
def countChars : List CChar → hashmap → Except Fault hashmap
  | [], map => pure map
  | c :: rest, map => do
    let map ← putFrequency map (charToInt c)
    countChars rest map

/-- Translation of `buildFrequencyMap`; `data` is the content of the file when
`isFile` holds and the string itself otherwise. Both branches run the same loop. -/
def buildFrequencyMap (data : List CChar) (isFile : Bool) (map : hashmap) :
    Except Fault hashmap := do
  let map ← if isFile then countChars data map else countChars data map
  putFrequency map PSEUDO_EOF

/-! ## The priority queue -/

/-- Element access `*(first + i)` on the underlying vector. -/
def vecAt (v : List HuffmanNode) (i : Nat) : HuffmanNode :=
  v.getD i .nullptr

/-- The loop of `std::__push_heap`; `fuel` bounds the number of iterations and
is never exhausted when it is at least `holeIndex`. -/
def pushHeapLoop (value : HuffmanNode) (topIndex : Nat) :
    Nat → List HuffmanNode → Nat → List HuffmanNode
  | 0, first, holeIndex => first.set holeIndex value
  | fuel + 1, first, holeIndex =>
    let parent := (holeIndex - 1) / 2
    if holeIndex > topIndex ∧ prioritize (vecAt first parent) value = true then
      pushHeapLoop value topIndex fuel (first.set holeIndex (vecAt first parent)) parent
    else
      first.set holeIndex value

/-- Translation of `std::__push_heap`. -/
def pushHeapAux (first : List HuffmanNode) (holeIndex topIndex : Nat) (value : HuffmanNode) :
    List HuffmanNode :=
  pushHeapLoop value topIndex holeIndex first holeIndex

/-- Translation of `std::push_heap` on the whole vector. -/
def push_heap (c : List HuffmanNode) : List HuffmanNode :=
  match c.getLast? with
  | none => c
  | some value => pushHeapAux c (c.length - 1) 0 value

/-- The first loop of `std::__adjust_heap`: the hole moves down to the smaller
child. Returns the vector, the hole and `secondChild`. -/
def adjustHeapLoop (len : Nat) :
    Nat → List HuffmanNode → Nat → Nat → List HuffmanNode × Nat × Nat
  | 0, first, holeIndex, secondChild => (first, holeIndex, secondChild)
  | fuel + 1, first, holeIndex, secondChild =>
    if secondChild < (len - 1) / 2 then
      let secondChild := 2 * (secondChild + 1)
      let secondChild :=
        if prioritize (vecAt first secondChild) (vecAt first (secondChild - 1)) = true
        then secondChild - 1 else secondChild
      adjustHeapLoop len fuel (first.set holeIndex (vecAt first secondChild))
        secondChild secondChild
    else
      (first, holeIndex, secondChild)

/-- Translation of `std::__adjust_heap`. -/
def adjustHeap (first : List HuffmanNode) (holeIndex len : Nat) (value : HuffmanNode) :
    List HuffmanNode :=
  let topIndex := holeIndex
  let (first, holeIndex, secondChild) := adjustHeapLoop len len first holeIndex holeIndex
  let (first, holeIndex) :=
    if len % 2 = 0 ∧ secondChild = (len - 2) / 2 then
      let secondChild := 2 * (secondChild + 1)
      (first.set holeIndex (vecAt first (secondChild - 1)), secondChild - 1)
    else (first, holeIndex)
  pushHeapAux first holeIndex topIndex value

/-- Translation of `std::pop_heap` on the whole vector: the top is moved to the
last slot and the remaining prefix is made a heap again. -/
def pop_heap (c : List HuffmanNode) : List HuffmanNode :=
  if c.length > 1 then
    let last := c.length - 1
    let value := vecAt c last
    let c := c.set last (vecAt c 0)
    (adjustHeap (c.take last) 0 last value) ++ c.drop last
  else c

/-- State of the `std::priority_queue`: its vector `c`. -/
abbrev priority_queue := List HuffmanNode

/-- Translation of `priority_queue::push`: `c.push_back(x); push_heap(...)`. -/
def priority_queue.push (pq : priority_queue) (x : HuffmanNode) : priority_queue :=
  push_heap (pq ++ [x])

/-- Translation of `priority_queue::top`: `c.front()`, undefined when empty. -/
def priority_queue.top : priority_queue → Except Fault HuffmanNode
  | [] => .error .emptyQueue
  | x :: _ => .ok x

/-- Translation of `priority_queue::pop`: `pop_heap(...); c.pop_back()`,
undefined when empty. -/
def priority_queue.pop (pq : priority_queue) : Except Fault priority_queue :=
  match pq with
  | [] => .error .emptyQueue
  | _ :: _ => .ok (pop_heap pq).dropLast

/-! ## Building the tree -/

/-- The first loop of `buildEncodingTree`: one leaf per key, pushed in the
order of `keys()`. -/
def pushLeaves (map : hashmap) : List Int → priority_queue → Except Fault priority_queue
  | [], pq => pure pq
  | x :: rest, pq => do
    let count ← map.get x
    pushLeaves map rest (pq.push (.node x count .nullptr .nullptr))

/-- The merge loop of `buildEncodingTree`, `while (pq.size() != 1)`; `fuel`
bounds the number of iterations. The count of the parent is an `int` sum. -/
def mergeLoop : Nat → priority_queue → Except Fault priority_queue
  | 0, _ => .error .loopBound
  | fuel + 1, pq =>
    if pq.length ≠ 1 then do
      let leftN ← pq.top
      let pq ← pq.pop
      let rightN ← pq.top
      let pq ← pq.pop
      let parent :=
        HuffmanNode.node NOT_A_CHAR (wrapInt (leftN.count + rightN.count)) leftN rightN
      mergeLoop fuel (pq.push parent)
    else
      pure pq

/-- The body of the merge loop of `buildEncodingTree`, one iteration: the two
top nodes are removed and their parent is inserted. -/
def mergeStep (pq : priority_queue) : Except Fault priority_queue := do
  let leftN ← pq.top
  let pq ← pq.pop
  let rightN ← pq.top
  let pq ← pq.pop
  let parent :=
    HuffmanNode.node NOT_A_CHAR (wrapInt (leftN.count + rightN.count)) leftN rightN
  pure (pq.push parent)

/-- Translation of `buildEncodingTree`. The merge loop runs at most
`pq.size()` times, which is the bound handed to `mergeLoop`. -/
def buildEncodingTree (map : hashmap) : Except Fault HuffmanNode := do
  let keys := map.keys
  let pq ← pushLeaves map keys []
  let pq ← mergeLoop (pq.length + 1) pq
  let root ← pq.top
  let _ ← pq.pop
  pure root

/-! ## The code table -/

/-- A `std::string`, as its sequence of characters. -/
abbrev string := List Char

/-- Modelled from the spec: `mymap<int, string>` of `mymap.h`, a key-unique
mapping with `put` and `get` (fails if absent). -/
abbrev mymap := List (Int × string)

/-- Modelled from the spec: `mymap::get`, failing on an absent key. -/
def mymap.get : mymap → Int → Except Fault string
  | [], _ => .error .missingKey
  | (k, v) :: rest, key => if k = key then .ok v else mymap.get rest key

/-- Modelled from the spec: `mymap::put`, replacing the value of a present key
and adding an entry for an absent one. -/
def mymap.put : mymap → Int → string → mymap
  | [], key, value => [(key, value)]
  | (k, v) :: rest, key, value =>
    if k = key then (k, value) :: rest else (k, v) :: mymap.put rest key value

/-- Translation of `buildBinary`. -/
def buildBinary (str : string) : HuffmanNode → mymap → Except Fault mymap
  | .nullptr, _ => .error .nullDeref
  | .node character _ zero one, map =>
    if character ≠ NOT_A_CHAR then
      pure (map.put character str)
    else do
      let map ← buildBinary (str ++ ['0']) zero map
      buildBinary (str ++ ['1']) one map

/-- Translation of `buildEncodingMap`. -/
def buildEncodingMap (tree : HuffmanNode) : Except Fault mymap :=
  buildBinary [] tree []

/-! ## Encoding and decoding -/

/-- Modelled from the spec: the bits written so far to an `ofbitstream` of
`bitstream.h`, earliest first. -/
abbrev ofbitstream := List Bool

/-- Modelled from the spec: `ofbitstream::writeBit`, which accepts `0` or `1`. -/
def ofbitstream.writeBit (output : ofbitstream) (bit : Int) : Except Fault ofbitstream :=
  if bit = 0 then .ok (output ++ [false])
  else if bit = 1 then .ok (output ++ [true])
  else .error .badBit

/-- Modelled from the spec: the bits still unread in an `ifbitstream` of
`bitstream.h`. `readBit` yields the next bit, or `-1` at the end of the data, and
`eof()` holds only once a read has failed. -/
abbrev ifbitstream := List Bool

/-- The loop `while (input.get(c)) str += encodingMap.get(c)` of `encode`. -/
def encodeChars (encodingMap : mymap) : List CChar → string → Except Fault string
  | [], str => pure str
  | c :: rest, str => do
    let code ← encodingMap.get (charToInt c)
    encodeChars encodingMap rest (str ++ code)

/-- The loop `for (char x : str) output.writeBit(x - '0')` of `encode`. -/
def writeBits : string → ofbitstream → Except Fault ofbitstream
  | [], output => pure output
  | x :: rest, output => do
    let output ← output.writeBit ((x.toNat : Int) - ('0'.toNat : Int))
    writeBits rest output

/-- Translation of `encode`: returns the string, the bit count `size` and the
state of `output`. `size = str.size()` converts a `size_t` to `int`. -/
def encode (input : List CChar) (encodingMap : mymap) (output : ofbitstream)
    (makeFile : Bool) : Except Fault (string × Int × ofbitstream) := do
  let str ← encodeChars encodingMap input []
  let eofCode ← encodingMap.get PSEUDO_EOF
  let str := str ++ eofCode
  let size : Int := wrapInt str.length
  let output ← if makeFile then writeBits str output else pure output
  pure (str, size, output)

/-- The loop of `decode`. Each iteration tests `cur->character`, emits at a
leaf and restarts from the root, then reads one bit; the iteration whose read
fails leaves `cur` unchanged and is the last one. The pair returned is
`decoded` and the characters put to `output`. -/
def decodeLoop (encodingTree : HuffmanNode) :
    ifbitstream → HuffmanNode → List CChar → List CChar →
      Except Fault (List CChar × List CChar)
  | _, .nullptr, _, _ => .error .nullDeref
  | input, .node character count zero one, decoded, output =>
    if character = PSEUDO_EOF then .ok (decoded, output)
    else
      let leaf : Bool := decide (character ≠ NOT_A_CHAR)
      let decoded := if leaf then decoded ++ [intToChar character] else decoded
      let output := if leaf then output ++ [intToChar character] else output
      let cur := if leaf then encodingTree else .node character count zero one
      match input with
      | [] => .ok (decoded, output)
      | bit :: rest =>
        match cur with
        | .nullptr => .error .nullDeref
        | .node _ _ z o =>
          decodeLoop encodingTree rest (if bit then o else z) decoded output

/-- Translation of `decode`: returns `decoded` and the content of `output`. -/
def decode (input : ifbitstream) (encodingTree : HuffmanNode) (output : List CChar) :
    Except Fault (List CChar × List CChar) :=
  decodeLoop encodingTree input encodingTree [] output

/-- The values that `cur` takes at the head of the iterations of the loop of
`decode`, in order; a null `cur` from which a child would be read is listed as
well. The definition follows `decodeLoop` step by step. -/
def decodeCursors (encodingTree : HuffmanNode) : ifbitstream → HuffmanNode → List HuffmanNode
  | _, .nullptr => [.nullptr]
  | input, .node character count zero one =>
    .node character count zero one ::
      (if character = PSEUDO_EOF then []
      else
        let leaf : Bool := decide (character ≠ NOT_A_CHAR)
        let cur := if leaf then encodingTree else .node character count zero one
        match input with
        | [] => []
        | bit :: rest =>
          match cur with
          | .nullptr => [.nullptr]
          | .node _ _ z o => decodeCursors encodingTree rest (if bit then o else z))

/-- The number of bits that the loop of `decode` reads from the input; the
definition follows `decodeLoop` step by step. -/
def decodeReads (encodingTree : HuffmanNode) : ifbitstream → HuffmanNode → Nat
  | _, .nullptr => 0
  | input, .node character count zero one =>
    if character = PSEUDO_EOF then 0
    else
      let leaf : Bool := decide (character ≠ NOT_A_CHAR)
      let cur := if leaf then encodingTree else .node character count zero one
      match input with
      | [] => 0
      | bit :: rest =>
        match cur with
        | .nullptr => 1
        | .node _ _ z o => 1 + decodeReads encodingTree rest (if bit then o else z)

/-! ## File names -/

/-- The value `std::string::npos` of a 64-bit `size_t`. -/
def npos : Nat := 2 ^ 64 - 1

/-- The search of `std::string::find(pat)`, `i` being the position of the rest
of the string still to be searched; `npos` when `pat` does not occur. -/
def strFindFrom (pat : string) : string → Nat → Nat
  | [], i => if pat.isPrefixOf [] then i else npos
  | c :: rest, i => if pat.isPrefixOf (c :: rest) then i else strFindFrom pat rest (i + 1)

/-- Translation of `s.find(pat)`. -/
def strFind (s pat : string) : Nat :=
  strFindFrom pat s 0

/-- The conversion `(int)pos` of a `size_t` to a 32-bit `int`. -/
def castToInt (pos : Nat) : Int :=
  if pos % 2 ^ 32 < 2 ^ 31 then ((pos % 2 ^ 32 : Nat) : Int)
  else ((pos % 2 ^ 32 : Nat) : Int) - 2 ^ 32

/-- Translation of `s.substr(pos, n)`, which throws `std::out_of_range` when
`pos` exceeds the length. -/
def substr (s : string) (pos n : Nat) : Except Fault string :=
  if pos > s.length then .error .outOfRange else .ok ((s.drop pos).take n)

/-- The file names computed by `decompress`: the file it opens for reading and
the file it creates. -/
def decompressFileNames (filename : string) : Except Fault (string × string) := do
  let pos := strFind filename ['.', 'h', 'u', 'f']
  let filename ← if castToInt pos ≥ 0 then substr filename 0 pos else pure filename
  let pos := strFind filename ['.']
  let ext ← substr filename pos ((filename.length + 2 ^ 64 - pos) % 2 ^ 64)
  let filename ← substr filename 0 pos
  pure (filename ++ ext ++ ['.', 'h', 'u', 'f'], filename ++ ['_', 'u', 'n', 'c'] ++ ext)

/-- The name of the file that `compress` creates. -/
def compressFileName (filename : string) : string :=
  filename ++ ['.', 'h', 'u', 'f']

open List

/-! ## Vocabulary of the properties -/

/-- The count of the node stored at index `i` of the vector. -/
def cntAt (v : List HuffmanNode) (i : Nat) : Int := (vecAt v i).count

/-- Heap order of the vector under `prioritize`: no node has a smaller count
than its parent, the parent of index `i` being `(i - 1) / 2`. -/
def IsHeap (v : List HuffmanNode) : Prop :=
  ∀ i, i < v.length → cntAt v ((i - 1) / 2) ≤ cntAt v i

/-- Invariant of the loop of `std::__push_heap` with `value = x`: apart from the
hole, every node is in heap order with its parent (the hole standing for `x`),
and the children of the hole are in order with the parent of the hole. -/
def PushInv (first : List HuffmanNode) (hole : Nat) (x : HuffmanNode) : Prop :=
  (∀ i, i < first.length → i ≠ hole →
      (if (i - 1) / 2 = hole then x.count else cntAt first ((i - 1) / 2)) ≤ cntAt first i) ∧
  (∀ i, i < first.length → i ≠ hole → (i - 1) / 2 = hole →
      cntAt first ((hole - 1) / 2) ≤ cntAt first i)

/-- The leaf that `buildEncodingTree` allocates for a table entry. -/
def leafOf (e : Int × Int) : HuffmanNode :=
  .node e.1 e.2 .nullptr .nullptr

/-- One run of the greedy merge on a collection of nodes, up to the order in
which the collection is stored: while more than one node is left, two nodes
`a`, `b` of least count are replaced by their parent. -/
inductive Greedy : List HuffmanNode → HuffmanNode → Prop
  | done (t : HuffmanNode) : Greedy [t] t
  | merge (a b : HuffmanNode) (rest pq pq' : List HuffmanNode) (root : HuffmanNode) :
      pq ~ a :: b :: rest →
      (∀ y ∈ b :: rest, a.count ≤ y.count) →
      (∀ y ∈ rest, b.count ≤ y.count) →
      pq' ~ HuffmanNode.node NOT_A_CHAR (wrapInt (a.count + b.count)) a b :: rest →
      Greedy pq' root → Greedy pq root

/-- A proper binary tree: every node is a leaf (no child) or has two children. -/
inductive Full : HuffmanNode → Prop
  | leaf (c n : Int) : Full (.node c n .nullptr .nullptr)
  | internal (c n : Int) (l r : HuffmanNode) : Full l → Full r → Full (.node c n l r)

/-- A tree as the merge loop makes them: leaves of any symbol and count, and
internal nodes marked `NOT_A_CHAR` whose count is the `int` sum of the
children's. -/
inductive Merged : HuffmanNode → Prop
  | leaf (c n : Int) : Merged (.node c n .nullptr .nullptr)
  | internal (l r : HuffmanNode) : Merged l → Merged r →
      Merged (.node NOT_A_CHAR (wrapInt (l.count + r.count)) l r)

/-- The `(symbol, count)` pairs held by the leaves, left to right. -/
def leaves : HuffmanNode → List (Int × Int)
  | .nullptr => []
  | .node c n z o =>
    if z = .nullptr ∧ o = .nullptr then [(c, n)] else leaves z ++ leaves o

/-- The `(count, depth)` pairs of the leaves, the root being at depth `d`. -/
def leafDepths (d : Nat) : HuffmanNode → List (Int × Nat)
  | .nullptr => []
  | .node _ n z o =>
    if z = .nullptr ∧ o = .nullptr then [(n, d)] else leafDepths (d + 1) z ++ leafDepths (d + 1) o

/-- Weighted path length of the leaves below a node placed at depth `d`. -/
def weplFrom (d : Nat) : HuffmanNode → Int
  | .nullptr => 0
  | .node _ n z o =>
    if z = .nullptr ∧ o = .nullptr then n * d else weplFrom (d + 1) z + weplFrom (d + 1) o

/-- Weighted external path length: the sum over the leaves of count times depth. -/
def wepl (t : HuffmanNode) : Int :=
  weplFrom 0 t

/-- Every node is a leaf, or has two children whose counts add up to its own. -/
def WeightInvariant : HuffmanNode → Prop
  | .nullptr => True
  | .node _ n z o =>
    ((z = .nullptr ∧ o = .nullptr) ∨ (z ≠ .nullptr ∧ o ≠ .nullptr ∧ n = z.count + o.count)) ∧
      WeightInvariant z ∧ WeightInvariant o

/-- Cost of an assignment of weights to depths: the sum of weight times depth. -/
def assignCost (A : List (Int × Nat)) : Int :=
  (A.map fun p => p.1 * (p.2 : Int)).sum

/-- Height of a tree: the greatest depth of a leaf. -/
def height : HuffmanNode → Nat
  | .nullptr => 0
  | .node _ _ z o =>
    if z = .nullptr ∧ o = .nullptr then 0 else 1 + max (height z) (height o)

/-- The depths `ds` are, in some order, the leaf depths of a proper binary tree. -/
def Realizable (ds : List Nat) : Prop :=
  ∃ u, Full u ∧ (leafDepths 0 u).map Prod.snd ~ ds

/-- The path from the root to each leaf, with the leaf's symbol: `'0'` for a
step to `zero`, `'1'` for a step to `one`. -/
def codes : HuffmanNode → List (Int × string)
  | .nullptr => []
  | .node c _ z o =>
    if z = .nullptr ∧ o = .nullptr then [(c, [])]
    else (codes z).map (fun e => (e.1, '0' :: e.2)) ++ (codes o).map (fun e => (e.1, '1' :: e.2))

/-- Successive `put`s of a list of entries. -/
def putAll (m : mymap) (kvs : List (Int × string)) : mymap :=
  kvs.foldl (fun m e => m.put e.1 e.2) m

/-- The count recorded for `k`, or `0` when `k` is absent. -/
def countOr0 (map : hashmap) (k : Int) : Int :=
  match map.get k with
  | .ok v => v
  | .error _ => 0

/-- Number of characters of `data` whose symbol is `k`. -/
def occurrences (k : Int) (data : List CChar) : Nat :=
  (data.map charToInt).count k

/-- The bits that `writeBit(x - '0')` writes for the characters of a string of
`'0'` and `'1'`. -/
def bitsOf (str : string) : List Bool :=
  str.map fun x => decide (x = '1')

/-- The node reached from a node by the branch choices of a path: `'0'` goes to
`zero`, `'1'` to `one`; the null pointer when the path leaves the tree. -/
def follow : HuffmanNode → string → HuffmanNode
  | t, [] => t
  | .nullptr, _ :: _ => .nullptr
  | .node _ _ z o, x :: rest =>
    if x = '0' then follow z rest else if x = '1' then follow o rest else .nullptr

/-- The states of the queue at the head of the merge loop of
`buildEncodingTree` run on a table: the queue filled by the first loop, and
every queue that an iteration of the merge loop makes from such a state. -/
inductive LoopState (map : hashmap) : priority_queue → Prop
  | init (pq : priority_queue) : pushLeaves map map.keys [] = .ok pq → LoopState map pq
  | step (pq pq' : priority_queue) : LoopState map pq → pq.length ≠ 1 →
      mergeStep pq = .ok pq' → LoopState map pq'

/-- The number of nodes that have a child. -/
def internalCount : HuffmanNode → Nat
  | .nullptr => 0
  | .node _ _ z o =>
    if z = .nullptr ∧ o = .nullptr then 0 else 1 + internalCount z + internalCount o

/-- The length of the code that a code table holds for a symbol, `0` when it
holds none. -/
def codeLength (m : mymap) (k : Int) : Int :=
  match m.get k with
  | .ok p => (p.length : Int)
  | .error _ => 0

/-- The first node is a node of the tree rooted at the second: the root
itself, or a node of the tree below one of its children. -/
inductive IsNodeOf : HuffmanNode → HuffmanNode → Prop
  | root (c n : Int) (z o : HuffmanNode) : IsNodeOf (.node c n z o) (.node c n z o)
  | zero (s : HuffmanNode) (c n : Int) (z o : HuffmanNode) :
      IsNodeOf s z → IsNodeOf s (.node c n z o)
  | one (s : HuffmanNode) (c n : Int) (z o : HuffmanNode) :
      IsNodeOf s o → IsNodeOf s (.node c n z o)

/-- An allocated node that `decode` can handle: a leaf carrying a symbol, or a
node marked `NOT_A_CHAR` that has both children. -/
def WellBranched : HuffmanNode → Prop
  | .nullptr => False
  | .node c _ z o =>
    (c ≠ NOT_A_CHAR ∧ z = .nullptr ∧ o = .nullptr) ∨
      (c = NOT_A_CHAR ∧ z ≠ .nullptr ∧ o ≠ .nullptr)

/-! ## Supporting lemmas -/

theorem vecAt_set (v : List HuffmanNode) (j i : Nat) (y : HuffmanNode) :
    vecAt (v.set j y) i = if j = i ∧ j < v.length then y else vecAt v i := by
  unfold vecAt
  rw [List.getD_eq_getElem?_getD, List.getD_eq_getElem?_getD, List.getElem?_set]
  by_cases h : j = i
  · subst h
    by_cases h2 : j < v.length
    · simp [h2]
    · have : v.length ≤ j := by omega
      simp [h2, List.getElem?_eq_none this]
  · simp [h]

theorem cntAt_set (v : List HuffmanNode) (j i : Nat) (y : HuffmanNode) :
    cntAt (v.set j y) i = if j = i ∧ j < v.length then y.count else cntAt v i := by
  unfold cntAt
  rw [vecAt_set]
  split <;> rfl

theorem set_vecAt_self (v : List HuffmanNode) (j : Nat) : v.set j (vecAt v j) = v := by
  induction v generalizing j with
  | nil => rfl
  | cons a t ih =>
    cases j with
    | zero => rfl
    | succ j => 
      simp only [List.set_cons_succ]
      have : vecAt (a :: t) (j + 1) = vecAt t j := rfl
      rw [this, ih]

theorem set_perm_cons (v : List HuffmanNode) (i : Nat) (a : HuffmanNode) (h : i < v.length) :
    v.set i a ~ a :: v.eraseIdx i := by
  induction v generalizing i with
  | nil => simp at h
  | cons b t ih =>
    cases i with
    | zero => simp
    | succ i =>
      simp only [List.set_cons_succ, List.eraseIdx_cons_succ]
      have := ih i (by simpa using h)
      exact (List.Perm.cons b this).trans (List.Perm.swap a b _)

theorem set_set_swap_perm (v : List HuffmanNode) (i j : Nat) (a b : HuffmanNode)
    (hij : i ≠ j) (hi : i < v.length) (hj : j < v.length) :
    (v.set i a).set j b ~ (v.set i b).set j a := by
  induction v generalizing i j with
  | nil => simp at hi
  | cons c t ih =>
    cases i with
    | zero =>
      cases j with
      | zero => exact absurd rfl hij
      | succ j =>
        simp only [List.set_cons_zero, List.set_cons_succ]
        have hj' : j < t.length := by simpa using hj
        have h1 := set_perm_cons t j b hj'
        have h2 := set_perm_cons t j a hj'
        exact ((List.Perm.cons a h1).trans (List.Perm.swap b a _)).trans (List.Perm.cons b h2.symm)
    | succ i =>
      cases j with
      | zero =>
        simp only [List.set_cons_zero, List.set_cons_succ]
        have hi' : i < t.length := by simpa using hi
        have h1 := set_perm_cons t i b hi'
        have h2 := set_perm_cons t i a hi'
        exact ((List.Perm.cons b h2).trans (List.Perm.swap a b _)).trans (List.Perm.cons a h1.symm)
      | succ j =>
        simp only [List.set_cons_succ]
        exact List.Perm.cons c (ih i j (by omega) (by simpa using hi) (by simpa using hj))

/-- Moving the element at `j` into slot `i` and then filling slot `j` is a
rearrangement of filling slot `i` directly. -/
theorem set_move_perm (v : List HuffmanNode) (i j : Nat) (b : HuffmanNode)
    (hij : i ≠ j) (hi : i < v.length) (hj : j < v.length) :
    (v.set i (vecAt v j)).set j b ~ v.set i b := by
  have h := set_set_swap_perm v i j (vecAt v j) b hij hi hj
  have h2 : (v.set i b).set j (vecAt v j) = v.set i b := by
    have : vecAt v j = vecAt (v.set i b) j := by
      rw [vecAt_set]; simp [hij]
    rw [this, set_vecAt_self]
  rw [h2] at h
  exact h

theorem push_exit (first : List HuffmanNode) (hole : Nat) (x : HuffmanNode)
    (hlen : hole < first.length) (inv : PushInv first hole x)
    (hx : hole = 0 ∨ cntAt first ((hole - 1) / 2) ≤ x.count) :
    IsHeap (first.set hole x) := by
  intro i hi
  rw [List.length_set] at hi
  rw [cntAt_set, cntAt_set]
  by_cases hih : i = hole
  · subst hih
    rcases hx with h0 | hx
    · subst h0; simp [hlen]
    · by_cases hp : i = (i - 1) / 2
      · simp [hlen, ← hp]
      · simp only [hlen, and_true, if_true, hp, if_false]
        exact hx
  · have h1 := inv.1 i hi hih
    have hne : ¬ (hole = i ∧ hole < first.length) := fun h => hih h.1.symm
    rw [if_neg hne]
    by_cases hp : (i - 1) / 2 = hole
    · rw [if_pos hp] at h1
      rw [if_pos ⟨hp.symm, hlen⟩]
      exact h1
    · rw [if_neg hp] at h1
      rw [if_neg (fun h => hp h.1.symm)]
      exact h1

theorem push_step (first : List HuffmanNode) (hole : Nat) (x : HuffmanNode)
    (hlen : hole < first.length) (inv : PushInv first hole x) (h0 : 0 < hole)
    (hx : x.count < cntAt first ((hole - 1) / 2)) :
    PushInv (first.set hole (vecAt first ((hole - 1) / 2))) ((hole - 1) / 2) x := by
  have hp : (hole - 1) / 2 < hole := by omega
  have hv : (vecAt first ((hole - 1) / 2)).count = cntAt first ((hole - 1) / 2) := rfl
  constructor
  · intro i hi hne
    rw [List.length_set] at hi
    rw [cntAt_set, cntAt_set, hv]
    by_cases hih : i = hole
    · subst hih
      rw [if_pos rfl, if_pos ⟨rfl, hlen⟩]
      exact le_of_lt hx
    · rw [if_neg (show ¬ (hole = i ∧ hole < first.length) from fun h => hih h.1.symm)]
      have h1 := inv.1 i hi hih
      by_cases hpi : (i - 1) / 2 = (hole - 1) / 2
      · rw [if_pos hpi]
        rw [if_neg (show ¬ (i - 1) / 2 = hole by omega)] at h1
        rw [hpi] at h1
        exact le_trans (le_of_lt hx) h1
      · rw [if_neg hpi]
        by_cases hph : (i - 1) / 2 = hole
        · rw [if_pos ⟨hph.symm, hlen⟩]
          exact inv.2 i hi hih hph
        · rw [if_neg (show ¬ (hole = (i - 1) / 2 ∧ hole < first.length) from
            fun h => hph h.1.symm)]
          rw [if_neg hph] at h1
          exact h1
  · intro i hi hne hpi
    rw [List.length_set] at hi
    rw [cntAt_set, cntAt_set, hv]
    have hpp : hole ≠ ((hole - 1) / 2 - 1) / 2 := by omega
    rw [if_neg (show ¬ (hole = ((hole - 1) / 2 - 1) / 2 ∧ hole < first.length) from
      fun h => hpp h.1)]
    have hp1 := inv.1 ((hole - 1) / 2) (by omega) (by omega)
    rw [if_neg (show ¬ ((hole - 1) / 2 - 1) / 2 = hole by omega)] at hp1
    by_cases hih : i = hole
    · subst hih
      rw [if_pos ⟨rfl, hlen⟩]
      exact hp1
    · rw [if_neg (show ¬ (hole = i ∧ hole < first.length) from fun h => hih h.1.symm)]
      have h1 := inv.1 i hi hih
      rw [if_neg (show ¬ (i - 1) / 2 = hole by omega), hpi] at h1
      exact le_trans hp1 h1

theorem pushHeapLoop_spec (x : HuffmanNode) :
    ∀ (fuel : Nat) (first : List HuffmanNode) (hole : Nat), hole ≤ fuel →
      hole < first.length → PushInv first hole x →
      IsHeap (pushHeapLoop x 0 fuel first hole) ∧
        (pushHeapLoop x 0 fuel first hole) ~ first.set hole x := by
  intro fuel
  induction fuel with
  | zero =>
    intro first hole hf hlen inv
    simp only [pushHeapLoop]
    exact ⟨push_exit first hole x hlen inv (Or.inl (by omega)), List.Perm.refl _⟩
  | succ fuel ih =>
    intro first hole hf hlen inv
    simp only [pushHeapLoop]
    by_cases hc : hole > 0 ∧ prioritize (vecAt first ((hole - 1) / 2)) x = true
    · rw [if_pos hc]
      obtain ⟨h0, hx⟩ := hc
      have hx' : x.count < cntAt first ((hole - 1) / 2) := by
        simpa [prioritize, cntAt] using hx
      have hp : (hole - 1) / 2 < hole := by omega
      have inv' := push_step first hole x hlen inv h0 hx'
      have := ih (first.set hole (vecAt first ((hole - 1) / 2))) ((hole - 1) / 2)
        (by omega) (by rw [List.length_set]; omega) inv'
      refine ⟨this.1, this.2.trans ?_⟩
      exact set_move_perm first hole ((hole - 1) / 2) x (by omega) hlen (by omega)
    · rw [if_neg hc]
      refine ⟨push_exit first hole x hlen inv ?_, List.Perm.refl _⟩
      by_cases h0 : hole = 0
      · exact Or.inl h0
      · right
        have : ¬ prioritize (vecAt first ((hole - 1) / 2)) x = true := fun h => hc ⟨by omega, h⟩
        simpa [prioritize, cntAt] using this

theorem heap_pull (first : List HuffmanNode) (h c : Nat) (hheap : IsHeap first)
    (hh : h < first.length) (hc : c < first.length) (hpc : (c - 1) / 2 = h)
    (hmin : ∀ i, i < first.length → (i - 1) / 2 = h → i ≠ h → cntAt first c ≤ cntAt first i) :
    IsHeap (first.set h (vecAt first c)) := by
  have hv : (vecAt first c).count = cntAt first c := rfl
  intro i hi
  rw [List.length_set] at hi
  rw [cntAt_set, cntAt_set, hv]
  have hch : cntAt first h ≤ cntAt first c := by
    have := hheap c hc
    rwa [hpc] at this
  by_cases hih : i = h
  · subst hih
    rw [if_pos (show i = i ∧ i < first.length from ⟨rfl, hh⟩)]
    by_cases hp : i = (i - 1) / 2
    · rw [if_pos (show i = (i - 1) / 2 ∧ i < first.length from ⟨hp, hh⟩)]
    · rw [if_neg (show ¬ (i = (i - 1) / 2 ∧ i < first.length) from fun h => hp h.1)]
      exact le_trans (hheap i hi) hch
  · rw [if_neg (show ¬ (h = i ∧ h < first.length) from fun h => hih h.1.symm)]
    by_cases hp : (i - 1) / 2 = h
    · rw [if_pos ⟨hp.symm, hh⟩]
      exact hmin i hi hp hih
    · rw [if_neg (show ¬ (h = (i - 1) / 2 ∧ h < first.length) from fun h => hp h.1.symm)]
      exact hheap i hi

theorem adjustHeapLoop_spec (len : Nat) :
    ∀ (fuel : Nat) (first : List HuffmanNode) (h : Nat), IsHeap first → first.length = len →
      h < len → (len - 1) / 2 ≤ fuel + h →
      IsHeap (adjustHeapLoop len fuel first h h).1 ∧
      (adjustHeapLoop len fuel first h h).1.length = len ∧
      (adjustHeapLoop len fuel first h h).2.1 = (adjustHeapLoop len fuel first h h).2.2 ∧
      (adjustHeapLoop len fuel first h h).2.1 < len ∧
      (len - 1) / 2 ≤ (adjustHeapLoop len fuel first h h).2.2 ∧
      ∀ y, (adjustHeapLoop len fuel first h h).1.set (adjustHeapLoop len fuel first h h).2.1 y ~
        first.set h y := by
  intro fuel
  induction fuel with
  | zero =>
    intro first h hheap hlen hh hf
    have e : adjustHeapLoop len 0 first h h = (first, h, h) := rfl
    rw [e]
    refine ⟨hheap, hlen, rfl, hh, ?_, fun y => List.Perm.refl _⟩
    show (len - 1) / 2 ≤ h
    omega
  | succ fuel ih =>
    intro first h hheap hlen hh hf
    simp only [adjustHeapLoop]
    by_cases hc : h < (len - 1) / 2
    · rw [if_pos hc]
      by_cases hp : prioritize (vecAt first (2 * (h + 1))) (vecAt first (2 * (h + 1) - 1)) = true
      · simp only [hp, if_true]
        have hlt : cntAt first (2 * (h + 1) - 1) < cntAt first (2 * (h + 1)) := by
          simpa [prioritize, cntAt] using hp
        have hheap' : IsHeap (first.set h (vecAt first (2 * (h + 1) - 1))) := by
          apply heap_pull first h _ hheap (by omega) (by omega) (by omega)
          intro i hi hpi hne
          have : i = 2 * (h + 1) - 1 ∨ i = 2 * (h + 1) := by omega
          rcases this with h1 | h1
          · rw [h1]
          · rw [h1]; exact le_of_lt hlt
        have := ih (first.set h (vecAt first (2 * (h + 1) - 1))) (2 * (h + 1) - 1) hheap'
          (by rw [List.length_set]; exact hlen) (by omega) (by omega)
        refine ⟨this.1, this.2.1, this.2.2.1, this.2.2.2.1, this.2.2.2.2.1, fun y => ?_⟩
        refine (this.2.2.2.2.2 y).trans ?_
        exact set_move_perm first h _ y (by omega) (by omega) (by omega)
      · simp only [hp]
        have hle : cntAt first (2 * (h + 1)) ≤ cntAt first (2 * (h + 1) - 1) := by
          simpa [prioritize, cntAt] using hp
        have hheap' : IsHeap (first.set h (vecAt first (2 * (h + 1)))) := by
          apply heap_pull first h _ hheap (by omega) (by omega) (by omega)
          intro i hi hpi hne
          have : i = 2 * (h + 1) - 1 ∨ i = 2 * (h + 1) := by omega
          rcases this with h1 | h1
          · rw [h1]; exact hle
          · rw [h1]
        have := ih (first.set h (vecAt first (2 * (h + 1)))) (2 * (h + 1)) hheap'
          (by rw [List.length_set]; exact hlen) (by omega) (by omega)
        refine ⟨this.1, this.2.1, this.2.2.1, this.2.2.2.1, this.2.2.2.2.1, fun y => ?_⟩
        refine (this.2.2.2.2.2 y).trans ?_
        exact set_move_perm first h _ y (by omega) (by omega) (by omega)
    · rw [if_neg hc]
      refine ⟨hheap, hlen, rfl, hh, ?_, fun y => List.Perm.refl _⟩
      show (len - 1) / 2 ≤ h
      omega

theorem pushInv_of_leaf (first : List HuffmanNode) (hole : Nat) (x : HuffmanNode)
    (hheap : IsHeap first) (hleaf : first.length ≤ 2 * hole + 1) : PushInv first hole x := by
  constructor
  · intro i hi hne
    rw [if_neg (by omega)]
    exact hheap i hi
  · intro i hi hne hp
    omega

theorem adjustHeap_spec (first : List HuffmanNode) (value : HuffmanNode)
    (hheap : IsHeap first) (hpos : 0 < first.length) :
    IsHeap (adjustHeap first 0 first.length value) ∧
      adjustHeap first 0 first.length value ~ first.set 0 value := by
  obtain ⟨h1, h2, h3, h4, h5, h6⟩ :=
    adjustHeapLoop_spec first.length first.length first 0 hheap rfl hpos (by omega)
  unfold adjustHeap
  generalize adjustHeapLoop first.length first.length first 0 0 = r at h1 h2 h3 h4 h5 h6
  obtain ⟨f, hole, sc⟩ := r
  simp only at h1 h2 h3 h4 h5 h6
  subst h3
  have hsc : (first.length - 1) / 2 ≤ hole := h5
  have hfl : f.length = first.length := h2
  have hhl : hole < first.length := h4
  have hperm : ∀ y, f.set hole y ~ first.set 0 y := h6
  have hfh : IsHeap f := h1
  clear h1 h2 h4 h5 h6
  by_cases hc : first.length % 2 = 0 ∧ hole = (first.length - 2) / 2
  · dsimp only
    rw [if_pos hc]
    dsimp only
    unfold pushHeapAux
    have hheap' : IsHeap (f.set hole (vecAt f (2 * (hole + 1) - 1))) := by
      apply heap_pull f hole _ hfh (by omega) (by omega) (by omega)
      intro i hi hpi hne
      have : i = 2 * (hole + 1) - 1 := by omega
      rw [this]
    have inv := pushInv_of_leaf (f.set hole (vecAt f (2 * (hole + 1) - 1)))
      (2 * (hole + 1) - 1) value hheap' (by rw [List.length_set]; omega)
    have := pushHeapLoop_spec value (2 * (hole + 1) - 1) _ (2 * (hole + 1) - 1) (le_refl _)
      (by rw [List.length_set]; omega) inv
    refine ⟨this.1, this.2.trans ?_⟩
    refine (set_move_perm f hole _ value (by omega) (by omega) (by omega)).trans (hperm value)
  · dsimp only
    rw [if_neg hc]
    dsimp only
    unfold pushHeapAux
    have inv := pushInv_of_leaf f hole value hfh (by omega)
    have := pushHeapLoop_spec value hole f hole (le_refl _) (by omega) inv
    exact ⟨this.1, this.2.trans (hperm value)⟩

theorem isHeap_nil : IsHeap [] := by
  intro i hi
  simp at hi

theorem cntAt_append_left (a b : List HuffmanNode) (i : Nat) (h : i < a.length) :
    cntAt (a ++ b) i = cntAt a i := by
  unfold cntAt vecAt
  rw [List.getD_eq_getElem?_getD, List.getD_eq_getElem?_getD, List.getElem?_append_left h]

theorem vecAt_append_length (a : List HuffmanNode) (x : HuffmanNode) :
    vecAt (a ++ [x]) a.length = x := by
  unfold vecAt
  rw [List.getD_eq_getElem?_getD]
  simp

theorem isHeap_prefix (a b : List HuffmanNode) (h : IsHeap (a ++ b)) : IsHeap a := by
  intro i hi
  have := h i (by rw [List.length_append]; omega)
  rwa [cntAt_append_left a b i hi, cntAt_append_left a b _ (by omega)] at this

theorem push_spec (pq : priority_queue) (x : HuffmanNode) (h : IsHeap pq) :
    IsHeap (priority_queue.push pq x) ∧ priority_queue.push pq x ~ x :: pq := by
  unfold priority_queue.push push_heap
  rw [List.getLast?_concat]
  simp only [pushHeapAux, List.length_append, List.length_singleton, Nat.add_sub_cancel]
  have inv : PushInv (pq ++ [x]) pq.length x := by
    constructor
    · intro i hi hne
      rw [List.length_append, List.length_singleton] at hi
      rw [if_neg (by omega), cntAt_append_left _ _ _ (by omega),
        cntAt_append_left _ _ _ (by omega)]
      exact h i (by omega)
    · intro i hi hne hp
      rw [List.length_append, List.length_singleton] at hi
      omega
  have := pushHeapLoop_spec x pq.length (pq ++ [x]) pq.length (le_refl _)
    (by rw [List.length_append, List.length_singleton]; omega) inv
  refine ⟨this.1, this.2.trans ?_⟩
  have e : (pq ++ [x]).set pq.length x = pq ++ [x] := by
    conv => lhs; arg 3; rw [← vecAt_append_length pq x]
    exact set_vecAt_self _ _
  rw [e]
  exact List.perm_append_singleton x pq

theorem pop_concat (t z : HuffmanNode) (init : List HuffmanNode)
    (h : IsHeap (t :: (init ++ [z]))) :
    ∃ q, priority_queue.pop (t :: (init ++ [z])) = .ok q ∧ IsHeap q ∧ q ~ init ++ [z] := by
  have hlen : (t :: (init ++ [z])).length = init.length + 2 := by simp
  have hc : t :: (init ++ [z]) = (t :: init) ++ [z] := rfl
  have hval : vecAt (t :: (init ++ [z])) (init.length + 1) = z := by
    rw [hc]
    exact vecAt_append_length (t :: init) z
  have hset : (t :: (init ++ [z])).set (init.length + 1) t = (t :: init) ++ [t] := by
    rw [hc, List.set_append_right _ _ (by simp)]
    simp
  have hpop : pop_heap (t :: (init ++ [z])) =
      adjustHeap (t :: init) 0 (t :: init).length z ++ [t] := by
    unfold pop_heap
    rw [if_pos (by rw [hlen]; omega)]
    simp only [hlen, Nat.add_sub_cancel, show init.length + 2 - 1 = init.length + 1 from rfl, hval]
    have h0 : vecAt (t :: (init ++ [z])) 0 = t := rfl
    rw [h0, hset]
    have e1 : List.take (init.length + 1) ((t :: init) ++ [t]) = t :: init := by
      rw [List.take_append_of_le_length (by simp)]
      exact List.take_of_length_le (by simp)
    have e2 : List.drop (init.length + 1) ((t :: init) ++ [t]) = [t] := by
      rw [List.drop_append_of_le_length (by simp)]
      rw [List.drop_of_length_le (by simp)]
      rfl
    rw [e1, e2]
    rfl
  have hheap : IsHeap (t :: init) := isHeap_prefix (t :: init) [z] (by rw [← hc]; exact h)
  have hs := adjustHeap_spec (t :: init) z hheap (by simp)
  refine ⟨adjustHeap (t :: init) 0 (t :: init).length z, ?_, hs.1, ?_⟩
  · show Except.ok (pop_heap (t :: (init ++ [z]))).dropLast = _
    rw [hpop, List.dropLast_concat]
  · refine hs.2.trans ?_
    simp only [List.set_cons_zero]
    exact (List.perm_append_singleton z init).symm

theorem pop_spec (t : HuffmanNode) (rest : List HuffmanNode) (h : IsHeap (t :: rest)) :
    ∃ q, priority_queue.pop (t :: rest) = .ok q ∧ IsHeap q ∧ q ~ rest := by
  rcases List.eq_nil_or_concat rest with hr | ⟨init, z, hr⟩
  · subst hr
    exact ⟨[], rfl, isHeap_nil, List.Perm.refl _⟩
  · rw [List.concat_eq_append] at hr
    subst hr
    exact pop_concat t z init h

theorem heap_root_le (v : List HuffmanNode) (h : IsHeap v) :
    ∀ i, i < v.length → cntAt v 0 ≤ cntAt v i := by
  intro i
  induction i using Nat.strong_induction_on with
  | _ i ih =>
    intro hi
    by_cases h0 : i = 0
    · subst h0; exact le_refl _
    · exact le_trans (ih ((i - 1) / 2) (by omega) (by omega)) (h i hi)

theorem heap_top_min (t : HuffmanNode) (rest : List HuffmanNode) (h : IsHeap (t :: rest)) :
    ∀ y ∈ rest, t.count ≤ y.count := by
  intro y hy
  obtain ⟨i, hi, rfl⟩ := List.getElem_of_mem hy
  have := heap_root_le (t :: rest) h (i + 1) (by simp; omega)
  have e : cntAt (t :: rest) (i + 1) = rest[i].count := by
    unfold cntAt vecAt
    simp [List.getD_eq_getElem?_getD, hi]
  rw [e] at this
  exact this

theorem Greedy.of_perm {pq pq' : List HuffmanNode} {root : HuffmanNode}
    (h : Greedy pq root) (hp : pq ~ pq') : Greedy pq' root := by
  cases h with
  | done t =>
    have := List.perm_singleton.mp hp.symm
    subst this
    exact Greedy.done _
  | merge a b rest _ pq2 _ h1 h2 h3 h4 h5 =>
    exact Greedy.merge a b rest pq' pq2 root (hp.symm.trans h1) h2 h3 h4 h5

theorem mergeLoop_spec :
    ∀ (fuel : Nat) (pq : priority_queue), IsHeap pq → pq ≠ [] → pq.length ≤ fuel →
      ∃ root, mergeLoop fuel pq = .ok [root] ∧ Greedy pq root := by
  intro fuel
  induction fuel with
  | zero =>
    intro pq _ hne hlen
    cases pq with
    | nil => exact absurd rfl hne
    | cons a t => simp at hlen
  | succ fuel ih =>
    intro pq hheap hne hlen
    cases pq with
    | nil => exact absurd rfl hne
    | cons a rest1 =>
      cases rest1 with
      | nil => exact ⟨a, rfl, Greedy.done a⟩
      | cons x rest1' =>
        obtain ⟨q1, hq1, hh1, hp1⟩ := pop_spec a (x :: rest1') hheap
        cases q1 with
        | nil => exact absurd hp1.length_eq (by simp)
        | cons b rest2 =>
          obtain ⟨q2, hq2, hh2, hp2⟩ := pop_spec b rest2 hh1
          have hpush := push_spec q2 (.node NOT_A_CHAR (wrapInt (a.count + b.count)) a b) hh2
          have hl1 : rest2.length = rest1'.length := by
            have := hp1.length_eq
            simpa using this
          have hl2 : q2.length = rest2.length := hp2.length_eq
          have hl3 := hpush.2.length_eq
          obtain ⟨root, hr, hg⟩ := ih _ hpush.1
            (by intro h; rw [h] at hl3; simp at hl3)
            (by rw [hl3]; simp at hlen ⊢; omega)
          refine ⟨root, ?_, ?_⟩
          · rw [mergeLoop]
            rw [if_pos (by simp)]
            simp only [priority_queue.top, hq1, hq2, Bind.bind, Except.bind]
            exact hr
          · have hperm : a :: x :: rest1' ~ a :: b :: q2 :=
              List.Perm.cons a (hp1.symm.trans (List.Perm.cons b hp2.symm))
            refine Greedy.merge a b q2 _ _ root hperm ?_ ?_ hpush.2 hg
            · intro y hy
              have : y ∈ x :: rest1' :=
                (hp1.symm.trans (List.Perm.cons b hp2.symm)).mem_iff.mpr hy
              exact heap_top_min a _ hheap y this
            · intro y hy
              exact heap_top_min b _ hh1 y (hp2.mem_iff.mp hy)

theorem hashmap_get_of_mem : ∀ (map : hashmap) (k v : Int),
    (map.map Prod.fst).Nodup → (k, v) ∈ map → map.get k = .ok v := by
  intro map
  induction map with
  | nil => intro k v _ h; simp at h
  | cons e t ih =>
    intro k v hnd hmem
    obtain ⟨k', v'⟩ := e
    simp only [List.map_cons, List.nodup_cons] at hnd
    simp only [hashmap.get]
    rcases List.mem_cons.mp hmem with h | h
    · cases h
      simp
    · have hne : k' ≠ k := by
        intro heq
        subst heq
        exact hnd.1 (List.mem_map.mpr ⟨(k', v), h, rfl⟩)
      rw [if_neg hne]
      exact ih k v hnd.2 h

theorem pushLeaves_spec (map : hashmap) :
    ∀ (es : List (Int × Int)) (pq : priority_queue), IsHeap pq →
      (∀ e ∈ es, map.get e.1 = .ok e.2) →
      ∃ pq', pushLeaves map (es.map Prod.fst) pq = .ok pq' ∧ IsHeap pq' ∧
        pq' ~ pq ++ es.map leafOf := by
  intro es
  induction es with
  | nil =>
    intro pq h _
    exact ⟨pq, rfl, h, by simp⟩
  | cons e t ih =>
    intro pq h hget
    have hp := push_spec pq (leafOf e) h
    obtain ⟨pq', h1, h2, h3⟩ := ih (pq.push (leafOf e)) hp.1
      (fun e' he' => hget e' (List.mem_cons_of_mem _ he'))
    refine ⟨pq', ?_, h2, ?_⟩
    · simp only [List.map_cons, pushLeaves, hget e (List.mem_cons_self _ _), Bind.bind, Except.bind]
      exact h1
    · refine h3.trans ?_
      simp only [List.map_cons]
      refine (List.Perm.append_right _ hp.2).trans ?_
      simp only [List.cons_append]
      exact List.perm_middle.symm

theorem buildEncodingTree_spec (map : hashmap) (hnd : map.keys.Nodup) (hne : map ≠ []) :
    ∃ root, buildEncodingTree map = .ok root ∧ Greedy (map.map leafOf) root := by
  obtain ⟨pq, h1, h2, h3⟩ := pushLeaves_spec map map [] isHeap_nil
    (fun e he => hashmap_get_of_mem map e.1 e.2 hnd he)
  simp only [List.nil_append] at h3
  have hpne : pq ≠ [] := by
    intro h
    rw [h] at h3
    have := h3.length_eq
    simp at this
    exact hne (List.length_eq_zero.mp this.symm)
  obtain ⟨root, h4, h5⟩ := mergeLoop_spec (pq.length + 1) pq h2 hpne (by omega)
  refine ⟨root, ?_, h5.of_perm h3⟩
  unfold buildEncodingTree
  simp only [hashmap.keys, h1, h4, Bind.bind, Except.bind, priority_queue.top, priority_queue.pop,
    Pure.pure, Except.pure]

theorem wrapInt_of_fits (n : Int) (h1 : -2 ^ 31 ≤ n) (h2 : n < 2 ^ 31) : wrapInt n = n := by
  unfold wrapInt
  omega

theorem wrapInt_wrapInt_add (a b : Int) : wrapInt (wrapInt a + b) = wrapInt (a + b) := by
  unfold wrapInt
  omega

theorem wrapInt_range (n : Int) : -2 ^ 31 ≤ wrapInt n ∧ wrapInt n < 2 ^ 31 := by
  unfold wrapInt
  omega

theorem sum_snd_nonneg (es : List (Int × Int)) (h : ∀ e ∈ es, 0 ≤ e.2) :
    0 ≤ (es.map Prod.snd).sum := by
  apply List.sum_nonneg
  intro x hx
  obtain ⟨e, he, rfl⟩ := List.mem_map.mp hx
  exact h e he

theorem Full.ne_null {t : HuffmanNode} (h : Full t) : t ≠ .nullptr := by
  cases h <;> simp

theorem Merged.full {t : HuffmanNode} (h : Merged t) : Full t := by
  induction h with
  | leaf c n => exact Full.leaf c n
  | internal l r _ _ ih1 ih2 => exact Full.internal _ _ l r ih1 ih2

theorem Merged.ne_nullptr {t : HuffmanNode} (h : Merged t) : t ≠ .nullptr :=
  h.full.ne_null

theorem leaves_leaf (c n : Int) : leaves (.node c n .nullptr .nullptr) = [(c, n)] := by
  simp [leaves]

theorem leaves_internal (c n : Int) (l r : HuffmanNode) (hl : l ≠ .nullptr) :
    leaves (.node c n l r) = leaves l ++ leaves r := by
  simp [leaves, hl]

theorem leafDepths_leaf (d : Nat) (c n : Int) :
    leafDepths d (.node c n .nullptr .nullptr) = [(n, d)] := by
  simp [leafDepths]

theorem leafDepths_internal (d : Nat) (c n : Int) (l r : HuffmanNode) (hl : l ≠ .nullptr) :
    leafDepths d (.node c n l r) = leafDepths (d + 1) l ++ leafDepths (d + 1) r := by
  simp [leafDepths, hl]

theorem weplFrom_leaf (d : Nat) (c n : Int) :
    weplFrom d (.node c n .nullptr .nullptr) = n * d := by
  simp [weplFrom]

theorem weplFrom_internal (d : Nat) (c n : Int) (l r : HuffmanNode) (hl : l ≠ .nullptr) :
    weplFrom d (.node c n l r) = weplFrom (d + 1) l + weplFrom (d + 1) r := by
  simp [weplFrom, hl]

/-- While no `int` sum overflows, the count of a merged tree is the sum of the
counts of its leaves. -/
theorem Merged.count_eq {t : HuffmanNode} (h : Merged t) :
    (∀ e ∈ leaves t, 0 ≤ e.2) → ((leaves t).map Prod.snd).sum < 2 ^ 31 →
      t.count = ((leaves t).map Prod.snd).sum := by
  induction h with
  | leaf c n => intro _ _; simp [leaves_leaf, HuffmanNode.count]
  | internal l r hl hr ih1 ih2 =>
    rw [leaves_internal _ _ l r hl.ne_nullptr]
    simp only [List.map_append, List.sum_append]
    intro hpos hsum
    have hpl : ∀ e ∈ leaves l, 0 ≤ e.2 := fun e he => hpos e (List.mem_append_left _ he)
    have hpr : ∀ e ∈ leaves r, 0 ≤ e.2 := fun e he => hpos e (List.mem_append_right _ he)
    have h0l := sum_snd_nonneg _ hpl
    have h0r := sum_snd_nonneg _ hpr
    have e1 := ih1 hpl (by omega)
    have e2 := ih2 hpr (by omega)
    show wrapInt (l.count + r.count) = _
    rw [e1, e2]
    exact wrapInt_of_fits _ (by omega) hsum

theorem Merged.weightInvariant {t : HuffmanNode} (h : Merged t) :
    (∀ e ∈ leaves t, 0 ≤ e.2) → ((leaves t).map Prod.snd).sum < 2 ^ 31 →
      WeightInvariant t := by
  induction h with
  | leaf c n => intro _ _; simp [WeightInvariant]
  | internal l r hl hr ih1 ih2 =>
    rw [leaves_internal _ _ l r hl.ne_nullptr]
    simp only [List.map_append, List.sum_append]
    intro hpos hsum
    have hpl : ∀ e ∈ leaves l, 0 ≤ e.2 := fun e he => hpos e (List.mem_append_left _ he)
    have hpr : ∀ e ∈ leaves r, 0 ≤ e.2 := fun e he => hpos e (List.mem_append_right _ he)
    have h0l := sum_snd_nonneg _ hpl
    have h0r := sum_snd_nonneg _ hpr
    have e1 := hl.count_eq hpl (by omega)
    have e2 := hr.count_eq hpr (by omega)
    refine ⟨Or.inr ⟨hl.ne_nullptr, hr.ne_nullptr, ?_⟩, ih1 hpl (by omega), ih2 hpr (by omega)⟩
    rw [e1, e2]
    exact wrapInt_of_fits _ (by omega) hsum

theorem Greedy.merged {pq : List HuffmanNode} {root : HuffmanNode} (h : Greedy pq root) :
    (∀ t ∈ pq, Merged t) → Merged root := by
  induction h with
  | done t => intro hm; exact hm t (List.mem_singleton.mpr rfl)
  | merge a b rest pq pq' root h1 _ _ h4 _ ih =>
    intro hm
    apply ih
    intro t ht
    have hm' : ∀ t ∈ a :: b :: rest, Merged t := fun t ht => hm t (h1.mem_iff.mpr ht)
    rcases List.mem_cons.mp (h4.mem_iff.mp ht) with h | h
    · subst h
      exact Merged.internal a b (hm' a (by simp)) (hm' b (by simp))
    · exact hm' t (by simp [h])

theorem Greedy.leaves_perm {pq : List HuffmanNode} {root : HuffmanNode} (h : Greedy pq root) :
    (∀ t ∈ pq, Merged t) → leaves root ~ pq.flatMap leaves := by
  induction h with
  | done t => intro _; simp
  | merge a b rest pq pq' root h1 _ _ h4 _ ih =>
    intro hm
    have hm' : ∀ t ∈ a :: b :: rest, Merged t := fun t ht => hm t (h1.mem_iff.mpr ht)
    have hm2 : ∀ t ∈ pq', Merged t := by
      intro t ht
      rcases List.mem_cons.mp (h4.mem_iff.mp ht) with h | h
      · subst h
        exact Merged.internal a b (hm' a (by simp)) (hm' b (by simp))
      · exact hm' t (by simp [h])
    refine (ih hm2).trans ?_
    refine (List.Perm.flatMap_right leaves h4).trans ?_
    refine List.Perm.trans ?_ (List.Perm.flatMap_right leaves h1).symm
    simp only [List.flatMap_cons]
    rw [leaves_internal _ _ a b (hm' a (by simp)).ne_nullptr, List.append_assoc]

theorem merged_leafOf (es : List (Int × Int)) : ∀ t ∈ es.map leafOf, Merged t := by
  intro t ht
  obtain ⟨e, _, rfl⟩ := List.mem_map.mp ht
  exact Merged.leaf e.1 e.2

theorem flatMap_leaves_leafOf (es : List (Int × Int)) :
    (es.map leafOf).flatMap leaves = es := by
  induction es with
  | nil => rfl
  | cons e t ih =>
    simp only [List.map_cons, List.flatMap_cons, ih, leafOf, leaves_leaf]
    rfl

theorem map_count_leafOf (es : List (Int × Int)) :
    (es.map leafOf).map HuffmanNode.count = es.map Prod.snd := by
  induction es with
  | nil => rfl
  | cons e t ih =>
    simp only [List.map_cons, ih, leafOf, HuffmanNode.count]

/-- What `buildEncodingTree` returns on a non-empty table with distinct keys: a
merged tree whose leaves are the entries of the table; while no `int` sum
overflows the count of its root is the sum of the counts of the table. -/
theorem buildEncodingTree_merged (map : hashmap) (hnd : map.keys.Nodup) (hne : map ≠ []) :
    ∃ root, buildEncodingTree map = .ok root ∧ Merged root ∧ leaves root ~ map ∧
      ((∀ e ∈ map, 0 ≤ e.2) → (map.map Prod.snd).sum < 2 ^ 31 →
        root.count = (map.map Prod.snd).sum) := by
  obtain ⟨root, h1, h2⟩ := buildEncodingTree_spec map hnd hne
  have hm := h2.merged (merged_leafOf map)
  have hlv : leaves root ~ map := by
    have := h2.leaves_perm (merged_leafOf map)
    rwa [flatMap_leaves_leafOf] at this
  refine ⟨root, h1, hm, hlv, ?_⟩
  intro hpos hsum
  have e := (hlv.map Prod.snd).sum_eq
  rw [← e]
  exact hm.count_eq (fun x hx => hpos x (hlv.mem_iff.mp hx)) (by rw [e]; exact hsum)

theorem weplFrom_eq_assignCost (t : HuffmanNode) :
    ∀ d, weplFrom d t = assignCost (leafDepths d t) := by
  induction t with
  | nullptr => intro d; rfl
  | node c n z o ih1 ih2 =>
    intro d
    unfold weplFrom leafDepths
    by_cases h : z = .nullptr ∧ o = .nullptr
    · rw [if_pos h, if_pos h]
      simp [assignCost]
    · rw [if_neg h, if_neg h, ih1, ih2]
      simp [assignCost]

theorem leafDepths_fst (t : HuffmanNode) :
    ∀ d, (leafDepths d t).map Prod.fst = (leaves t).map Prod.snd := by
  induction t with
  | nullptr => intro d; rfl
  | node c n z o ih1 ih2 =>
    intro d
    unfold leafDepths leaves
    by_cases h : z = .nullptr ∧ o = .nullptr
    · rw [if_pos h, if_pos h]
      rfl
    · rw [if_neg h, if_neg h, List.map_append, List.map_append, ih1, ih2]

theorem weplFrom_succ (t : HuffmanNode) :
    ∀ d, weplFrom (d + 1) t = weplFrom d t + ((leaves t).map Prod.snd).sum := by
  induction t with
  | nullptr => intro d; simp [weplFrom, leaves]
  | node c n z o ih1 ih2 =>
    intro d
    unfold weplFrom leaves
    by_cases h : z = .nullptr ∧ o = .nullptr
    · rw [if_pos h, if_pos h, if_pos h]
      simp
      ring
    · rw [if_neg h, if_neg h, if_neg h, ih1 (d + 1), ih2 (d + 1), List.map_append,
        List.sum_append]
      ring

theorem Full.leafDepths_ne_nil {u : HuffmanNode} (h : Full u) :
    ∀ k, 1 ≤ (leafDepths k u).length := by
  induction h with
  | leaf c n => intro k; simp [leafDepths_leaf]
  | internal c n l r hl hr ih1 ih2 =>
    intro k
    rw [leafDepths_internal k c n l r hl.ne_null, List.length_append]
    have := ih1 (k + 1)
    omega

theorem height_internal (c n : Int) (l r : HuffmanNode) (hl : l ≠ .nullptr) :
    height (.node c n l r) = 1 + max (height l) (height r) := by
  simp [height, hl]

theorem Full.leaf_of_height_zero {u : HuffmanNode} (h : Full u) (h0 : height u = 0) :
    ∃ c n, u = .node c n .nullptr .nullptr := by
  cases h with
  | leaf c n => exact ⟨c, n, rfl⟩
  | internal c n l r hl hr =>
    rw [height_internal c n l r hl.ne_null] at h0
    omega

theorem Full.depth_le_height {u : HuffmanNode} (h : Full u) :
    ∀ k, ∀ p ∈ leafDepths k u, p.2 ≤ k + height u := by
  induction h with
  | leaf c n =>
    intro k p hp
    rw [leafDepths_leaf] at hp
    simp at hp
    subst hp
    simp
  | internal c n l r hl hr ih1 ih2 =>
    intro k p hp
    rw [leafDepths_internal k c n l r hl.ne_null] at hp
    rw [height_internal c n l r hl.ne_null]
    rcases List.mem_append.mp hp with h | h
    · have := ih1 (k + 1) p h
      omega
    · have := ih2 (k + 1) p h
      omega

/-- A proper binary tree with at least two leaves has two leaves at its
greatest depth that can be contracted into one leaf a level higher. -/
theorem Full.contract {u : HuffmanNode} (h : Full u) :
    ∀ k, 2 ≤ (leafDepths k u).length →
      ∃ u' rd, Full u' ∧
        (leafDepths k u).map Prod.snd ~ (k + height u) :: (k + height u) :: rd ∧
        (leafDepths k u').map Prod.snd ~ (k + height u - 1) :: rd := by
  induction h with
  | leaf c n =>
    intro k hk
    simp [leafDepths_leaf] at hk
  | internal c n l r hl hr ih1 ih2 =>
    intro k _
    rw [leafDepths_internal k c n l r hl.ne_null, height_internal c n l r hl.ne_null]
    by_cases hcmp : height r ≤ height l
    · have hmax : max (height l) (height r) = height l := max_eq_left hcmp
      rw [hmax]
      by_cases hl0 : height l = 0
      · obtain ⟨cl, nl, rfl⟩ := hl.leaf_of_height_zero hl0
        obtain ⟨cr, nr, rfl⟩ := hr.leaf_of_height_zero (by omega)
        refine ⟨.node c n .nullptr .nullptr, [], Full.leaf c n, ?_, ?_⟩
        · simp [leafDepths_leaf, hl0]
        · simp [leafDepths_leaf, hl0]
      · have hlen : 2 ≤ (leafDepths (k + 1) l).length := by
          cases hl with
          | leaf cl nl => simp [height] at hl0
          | internal cl nl l1 l2 h1 h2 =>
            rw [leafDepths_internal _ cl nl l1 l2 h1.ne_null, List.length_append]
            have := h1.leafDepths_ne_nil (k + 1 + 1)
            have := h2.leafDepths_ne_nil (k + 1 + 1)
            omega
        obtain ⟨l', rd, hf, hp1, hp2⟩ := ih1 (k + 1) hlen
        refine ⟨.node c n l' r, rd ++ (leafDepths (k + 1) r).map Prod.snd,
          Full.internal c n l' r hf hr, ?_, ?_⟩
        · rw [List.map_append]
          have e : k + (1 + height l) = k + 1 + height l := by omega
          rw [e]
          exact List.Perm.append_right _ hp1
        · rw [leafDepths_internal k c n l' r hf.ne_null, List.map_append]
          have e : k + (1 + height l) - 1 = k + 1 + height l - 1 := by omega
          rw [e]
          exact List.Perm.append_right _ hp2
    · have hmax : max (height l) (height r) = height r := max_eq_right (by omega)
      rw [hmax]
      have hlen : 2 ≤ (leafDepths (k + 1) r).length := by
        cases hr with
        | leaf cr nr => simp [height] at hcmp
        | internal cr nr r1 r2 h1 h2 =>
          rw [leafDepths_internal _ cr nr r1 r2 h1.ne_null, List.length_append]
          have := h1.leafDepths_ne_nil (k + 1 + 1)
          have := h2.leafDepths_ne_nil (k + 1 + 1)
          omega
      obtain ⟨r', rd, hf, hp1, hp2⟩ := ih2 (k + 1) hlen
      refine ⟨.node c n l r', (leafDepths (k + 1) l).map Prod.snd ++ rd,
        Full.internal c n l r' hl hf, ?_, ?_⟩
      · rw [List.map_append]
        have e : k + (1 + height r) = k + 1 + height r := by omega
        rw [e]
        refine (List.Perm.append_left _ hp1).trans ?_
        refine List.perm_middle.trans (List.Perm.cons _ ?_)
        exact List.perm_middle
      · rw [leafDepths_internal k c n l r' hl.ne_null, List.map_append]
        have e : k + (1 + height r) - 1 = k + 1 + height r - 1 := by omega
        rw [e]
        refine (List.Perm.append_left _ hp2).trans ?_
        exact List.perm_middle

theorem assignCost_perm {P Q : List (Int × Nat)} (h : P ~ Q) : assignCost P = assignCost Q :=
  (h.map _).sum_eq

theorem assignCost_cons (p : Int × Nat) (P : List (Int × Nat)) :
    assignCost (p :: P) = p.1 * (p.2 : Int) + assignCost P := by
  simp [assignCost]

theorem exists_perm_cons_of_mem {α : Type} {a : α} {l : List α} (h : a ∈ l) :
    ∃ l', l ~ a :: l' := by
  obtain ⟨s, t, rfl⟩ := List.append_of_mem h
  exact ⟨s ++ t, List.perm_middle⟩

/-- Exchange step: a least weight can be moved to a deepest position without
raising the cost. -/
theorem exchange_one (P : List (Int × Nat)) (D : Nat) (Dr : List Nat) (a : Int)
    (Wr : List Int) (hd : P.map Prod.snd ~ D :: Dr) (hmax : ∀ p ∈ P, p.2 ≤ D)
    (hw : P.map Prod.fst ~ a :: Wr) (hmin : ∀ w ∈ Wr, a ≤ w) :
    ∃ Q, Q.map Prod.snd ~ Dr ∧ Q.map Prod.fst ~ Wr ∧ assignCost Q + a * (D : Int) ≤ assignCost P := by
  have hD : D ∈ P.map Prod.snd := hd.mem_iff.mpr (List.mem_cons_self _ _)
  obtain ⟨p, hpP, hpD⟩ := List.mem_map.mp hD
  obtain ⟨x, D'⟩ := p
  simp only at hpD
  subst hpD
  obtain ⟨P0, hP⟩ := exists_perm_cons_of_mem hpP
  have hd' : P0.map Prod.snd ~ Dr :=
    List.Perm.cons_inv ((hP.map Prod.snd).symm.trans hd)
  have hw' : x :: P0.map Prod.fst ~ a :: Wr :=
    (hP.map Prod.fst).symm.trans hw
  have hcP : assignCost P = x * (D' : Int) + assignCost P0 := by
    rw [assignCost_perm hP, assignCost_cons]
  by_cases hxa : x = a
  · subst hxa
    exact ⟨P0, hd', List.Perm.cons_inv hw', by rw [hcP]; omega⟩
  · have hax : a ≤ x := by
      have : x ∈ a :: Wr := hw'.mem_iff.mp (List.mem_cons_self _ _)
      rcases List.mem_cons.mp this with h | h
      · exact absurd h hxa
      · exact hmin x h
    have ha : a ∈ P0.map Prod.fst := by
      have : a ∈ x :: P0.map Prod.fst := hw'.mem_iff.mpr (List.mem_cons_self _ _)
      rcases List.mem_cons.mp this with h | h
      · exact absurd h.symm hxa
      · exact h
    obtain ⟨q, hq0, hqa⟩ := List.mem_map.mp ha
    obtain ⟨a', d⟩ := q
    simp only at hqa
    subst hqa
    obtain ⟨P1, hP0⟩ := exists_perm_cons_of_mem hq0
    have hdD : d ≤ D' :=
      hmax (a', d) (hP.mem_iff.mpr (List.mem_cons_of_mem _ hq0))
    refine ⟨(x, d) :: P1, ?_, ?_, ?_⟩
    · exact (hP0.map Prod.snd).symm.trans hd'
    · have h1 : x :: a' :: P1.map Prod.fst ~ a' :: Wr :=
        (List.Perm.cons x (hP0.map Prod.fst)).symm.trans hw'
      exact List.Perm.cons_inv ((List.Perm.swap x a' _).trans h1)
    · rw [hcP, assignCost_perm hP0, assignCost_cons, assignCost_cons]
      simp only
      have h1 : (0 : Int) ≤ (x - a') * ((D' : Int) - (d : Int)) :=
        mul_nonneg (by omega) (by omega)
      nlinarith [h1]

/-- Key step of the optimality argument: from any assignment for the weights
`a :: b :: W` with `a`, `b` least, one for `(a + b) :: W` that costs at least
`a + b` less can be made. -/
theorem merge_assignment (A : List (Int × Nat)) (a b : Int) (W : List Int)
    (hr : Realizable (A.map Prod.snd)) (hw : A.map Prod.fst ~ a :: b :: W)
    (ha : ∀ w ∈ b :: W, a ≤ w) (hb : ∀ w ∈ W, b ≤ w) :
    ∃ A', Realizable (A'.map Prod.snd) ∧ A'.map Prod.fst ~ (a + b) :: W ∧
      assignCost A' + a + b ≤ assignCost A := by
  obtain ⟨u, hu, hud⟩ := hr
  have hlen : 2 ≤ (leafDepths 0 u).length := by
    have h1 := hud.length_eq
    have h2 := hw.length_eq
    simp only [List.length_map, List.length_cons] at h1 h2
    omega
  obtain ⟨u', rd, hu', hp1, hp2⟩ := hu.contract 0 hlen
  simp only [Nat.zero_add] at hp1 hp2
  have hh : 1 ≤ height u := by
    by_contra hc
    obtain ⟨c, n, rfl⟩ := hu.leaf_of_height_zero (by omega)
    simp [leafDepths_leaf] at hlen
  have hAd : A.map Prod.snd ~ height u :: height u :: rd := hud.symm.trans hp1
  have hmaxA : ∀ p ∈ A, p.2 ≤ height u := by
    intro p hp
    have : p.2 ∈ (leafDepths 0 u).map Prod.snd :=
      hud.mem_iff.mpr (List.mem_map.mpr ⟨p, hp, rfl⟩)
    obtain ⟨q, hq, hq2⟩ := List.mem_map.mp this
    have := hu.depth_le_height 0 q hq
    omega
  obtain ⟨Q1, hQ1d, hQ1w, hQ1c⟩ := exchange_one A (height u) (height u :: rd) a (b :: W)
    hAd hmaxA hw ha
  have hmaxQ : ∀ p ∈ Q1, p.2 ≤ height u := by
    intro p hp
    have : p.2 ∈ height u :: rd := hQ1d.mem_iff.mp (List.mem_map.mpr ⟨p, hp, rfl⟩)
    rcases List.mem_cons.mp this with h | h
    · omega
    · have h2 : p.2 ∈ A.map Prod.snd :=
        hAd.mem_iff.mpr (List.mem_cons_of_mem _ (List.mem_cons_of_mem _ h))
      obtain ⟨q, hq, hq2⟩ := List.mem_map.mp h2
      have := hmaxA q hq
      omega
  obtain ⟨Q2, hQ2d, hQ2w, hQ2c⟩ := exchange_one Q1 (height u) rd b W hQ1d hmaxQ hQ1w hb
  refine ⟨(a + b, height u - 1) :: Q2, ⟨u', hu', ?_⟩, ?_, ?_⟩
  · exact hp2.trans (List.Perm.cons _ hQ2d.symm)
  · exact List.Perm.cons _ hQ2w
  · rw [assignCost_cons]
    simp only
    have e : ((height u - 1 : Nat) : Int) = (height u : Int) - 1 := by omega
    rw [e]
    nlinarith [hQ1c, hQ2c]

/-- The greedy merge is optimal while no `int` sum overflows (no leaf count is
negative and the leaf counts add up to less than `2^31`): the weighted path
length of its result is at most the cost of any assignment of the roots'
counts to the leaf depths of a proper binary tree, plus the path lengths inside
the given trees. -/
theorem Greedy.optimal {pq : List HuffmanNode} {root : HuffmanNode} (h : Greedy pq root) :
    (∀ t ∈ pq, Merged t) → (∀ e ∈ pq.flatMap leaves, 0 ≤ e.2) →
      ((pq.flatMap leaves).map Prod.snd).sum < 2 ^ 31 →
      ∀ A : List (Int × Nat), Realizable (A.map Prod.snd) →
      A.map Prod.fst ~ pq.map HuffmanNode.count →
      wepl root ≤ assignCost A + (pq.map wepl).sum := by
  induction h with
  | done t =>
    intro _ _ _ A hr hw
    simp only [List.map_cons, List.map_nil, List.sum_cons, List.sum_nil, add_zero]
    obtain ⟨u, hu, hud⟩ := hr
    have hl : (leafDepths 0 u).length = 1 := by
      have h1 := hud.length_eq
      have h2 := hw.length_eq
      simp only [List.length_map, List.length_cons, List.length_nil] at h1 h2
      omega
    have hh : height u = 0 := by
      by_contra hc
      cases hu with
      | leaf c n => simp [height] at hc
      | internal c n l r h1 h2 =>
        rw [leafDepths_internal 0 c n l r h1.ne_null, List.length_append] at hl
        simp only [Nat.zero_add] at hl
        have := h1.leafDepths_ne_nil 1
        have := h2.leafDepths_ne_nil 1
        omega
    have hA0 : assignCost A = 0 := by
      unfold assignCost
      apply List.sum_eq_zero
      intro x hx
      obtain ⟨p, hp, rfl⟩ := List.mem_map.mp hx
      have : p.2 ∈ (leafDepths 0 u).map Prod.snd :=
        hud.mem_iff.mpr (List.mem_map.mpr ⟨p, hp, rfl⟩)
      obtain ⟨q, hq, hq2⟩ := List.mem_map.mp this
      have := hu.depth_le_height 0 q hq
      have : p.2 = 0 := by omega
      simp [this]
    omega
  | merge a b rest pq pq' root h1 h2 h3 h4 _ ih =>
    intro hm hpos hsum A hr hw
    have hm' : ∀ t ∈ a :: b :: rest, Merged t := fun t ht => hm t (h1.mem_iff.mpr ht)
    have hma := hm' a (by simp)
    have hmb := hm' b (by simp)
    have hm2 : ∀ t ∈ pq', Merged t := by
      intro t ht
      rcases List.mem_cons.mp (h4.mem_iff.mp ht) with h | h
      · subst h
        exact Merged.internal a b hma hmb
      · exact hm' t (by simp [h])
    have hfl : pq.flatMap leaves ~ leaves a ++ (leaves b ++ rest.flatMap leaves) := by
      have := List.Perm.flatMap_right leaves h1
      simpa only [List.flatMap_cons] using this
    have hfl' : pq'.flatMap leaves ~ leaves a ++ (leaves b ++ rest.flatMap leaves) := by
      have := List.Perm.flatMap_right leaves h4
      simp only [List.flatMap_cons] at this
      rwa [leaves_internal _ _ a b hma.ne_nullptr, List.append_assoc] at this
    have hposa : ∀ e ∈ leaves a, 0 ≤ e.2 :=
      fun e he => hpos e (hfl.mem_iff.mpr (List.mem_append_left _ he))
    have hposb : ∀ e ∈ leaves b, 0 ≤ e.2 :=
      fun e he => hpos e (hfl.mem_iff.mpr
        (List.mem_append_right _ (List.mem_append_left _ he)))
    have hposr : ∀ e ∈ rest.flatMap leaves, 0 ≤ e.2 :=
      fun e he => hpos e (hfl.mem_iff.mpr
        (List.mem_append_right _ (List.mem_append_right _ he)))
    have hs := (hfl.map Prod.snd).sum_eq
    simp only [List.map_append, List.sum_append] at hs
    have h0a := sum_snd_nonneg _ hposa
    have h0b := sum_snd_nonneg _ hposb
    have h0r := sum_snd_nonneg _ hposr
    have ea := hma.count_eq hposa (by omega)
    have eb := hmb.count_eq hposb (by omega)
    have hwr : wrapInt (a.count + b.count) = a.count + b.count :=
      wrapInt_of_fits _ (by omega) (by omega)
    have hpos2 : ∀ e ∈ pq'.flatMap leaves, 0 ≤ e.2 :=
      fun e he => hpos e (hfl.mem_iff.mpr (hfl'.mem_iff.mp he))
    have hsum2 : ((pq'.flatMap leaves).map Prod.snd).sum < 2 ^ 31 := by
      rw [((hfl'.trans hfl.symm).map Prod.snd).sum_eq]
      exact hsum
    have hw' : A.map Prod.fst ~ a.count :: b.count :: rest.map HuffmanNode.count :=
      hw.trans (h1.map HuffmanNode.count)
    obtain ⟨A', hr', hw2, hc⟩ := merge_assignment A a.count b.count
      (rest.map HuffmanNode.count) hr hw'
      (by
        intro w hw
        rcases List.mem_cons.mp hw with h | h
        · subst h; exact h2 b (by simp)
        · obtain ⟨y, hy, rfl⟩ := List.mem_map.mp h
          exact h2 y (by simp [hy]))
      (by
        intro w hw
        obtain ⟨y, hy, rfl⟩ := List.mem_map.mp hw
        exact h3 y hy)
    have hw3 : A'.map Prod.fst ~
        (HuffmanNode.node NOT_A_CHAR (wrapInt (a.count + b.count)) a b :: rest).map
          HuffmanNode.count := by
      show _ ~ wrapInt (a.count + b.count) :: rest.map HuffmanNode.count
      rw [hwr]
      exact hw2
    have := ih hm2 hpos2 hsum2 A' hr' (hw3.trans (h4.map HuffmanNode.count).symm)
    rw [(h4.map wepl).sum_eq] at this
    rw [(h1.map wepl).sum_eq]
    simp only [List.map_cons, List.sum_cons] at this ⊢
    have e : wepl (.node NOT_A_CHAR (wrapInt (a.count + b.count)) a b) =
        wepl a + wepl b + a.count + b.count := by
      unfold wepl
      rw [weplFrom_internal 0 _ _ a b hma.ne_nullptr, weplFrom_succ a 0, weplFrom_succ b 0,
        ← ea, ← eb]
      ring
    rw [e] at this
    omega

theorem codes_leaf (c n : Int) : codes (.node c n .nullptr .nullptr) = [(c, [])] := by
  simp [codes]

theorem codes_internal (c n : Int) (l r : HuffmanNode) (hl : l ≠ .nullptr) :
    codes (.node c n l r) =
      (codes l).map (fun e => (e.1, '0' :: e.2)) ++ (codes r).map (fun e => (e.1, '1' :: e.2)) := by
  simp [codes, hl]

theorem codes_fst (t : HuffmanNode) : (codes t).map Prod.fst = (leaves t).map Prod.fst := by
  induction t with
  | nullptr => rfl
  | node c n z o ih1 ih2 =>
    unfold codes leaves
    by_cases h : z = .nullptr ∧ o = .nullptr
    · rw [if_pos h, if_pos h]; rfl
    · rw [if_neg h, if_neg h]
      simp only [List.map_append, List.map_map]
      rw [← ih1, ← ih2]
      rfl

theorem mymap_get_put (m : mymap) (k : Int) (v : string) (k' : Int) :
    (m.put k v).get k' = if k = k' then .ok v else m.get k' := by
  induction m with
  | nil => simp [mymap.put, mymap.get]
  | cons e t ih =>
    obtain ⟨k0, v0⟩ := e
    simp only [mymap.put]
    by_cases h : k0 = k
    · subst h
      simp only [if_true, mymap.get]
      by_cases h2 : k0 = k' <;> simp [h2]
    · rw [if_neg h]
      simp only [mymap.get, ih]
      by_cases h2 : k0 = k'
      · subst h2
        simp [Ne.symm h]
      · simp [h2]

theorem get_putAll_not_mem (kvs : List (Int × string)) :
    ∀ (m : mymap) (k : Int), k ∉ kvs.map Prod.fst → (putAll m kvs).get k = m.get k := by
  induction kvs with
  | nil => intro m k _; rfl
  | cons e t ih =>
    intro m k hk
    simp only [List.map_cons, List.mem_cons, not_or] at hk
    show (putAll (m.put e.1 e.2) t).get k = _
    rw [ih _ k hk.2, mymap_get_put, if_neg (Ne.symm hk.1)]

theorem get_putAll_of_mem (kvs : List (Int × string)) :
    ∀ (m : mymap) (k : Int) (v : string), (kvs.map Prod.fst).Nodup → (k, v) ∈ kvs →
      (putAll m kvs).get k = .ok v := by
  induction kvs with
  | nil => intro m k v _ h; simp at h
  | cons e t ih =>
    intro m k v hnd hmem
    simp only [List.map_cons, List.nodup_cons] at hnd
    show (putAll (m.put e.1 e.2) t).get k = _
    rcases List.mem_cons.mp hmem with h | h
    · subst h
      rw [get_putAll_not_mem t _ _ hnd.1, mymap_get_put, if_pos rfl]
    · exact ih _ k v hnd.2 h

/-- On a merged tree whose leaves carry no `NOT_A_CHAR`, `buildBinary` puts the
path of every leaf, prefixed by `str`. -/
theorem buildBinary_eq {t : HuffmanNode} (h : Merged t) :
    (∀ e ∈ leaves t, e.1 ≠ NOT_A_CHAR) → ∀ (str : string) (m : mymap),
      buildBinary str t m = .ok (putAll m ((codes t).map fun e => (e.1, str ++ e.2))) := by
  induction h with
  | leaf c n =>
    intro hc str m
    have : c ≠ NOT_A_CHAR := hc (c, n) (by simp [leaves_leaf])
    simp [buildBinary, this, codes_leaf, putAll, Pure.pure, Except.pure]
  | internal l r hl hr ih1 ih2 =>
    intro hc str m
    rw [leaves_internal _ _ l r hl.ne_nullptr] at hc
    have h1 := ih1 (fun e he => hc e (List.mem_append_left _ he)) (str ++ ['0']) m
    have h2 := ih2 (fun e he => hc e (List.mem_append_right _ he)) (str ++ ['1'])
    simp only [buildBinary, ne_eq, not_true_eq_false, if_false, h1, h2, Bind.bind, Except.bind]
    rw [codes_internal _ _ l r hl.ne_nullptr]
    simp only [putAll, List.map_append, List.foldl_append, List.map_map, Function.comp_def,
      List.append_assoc, List.singleton_append]

/-- Conversely `buildBinary` only succeeds when no leaf carries `NOT_A_CHAR`. -/
theorem buildBinary_ok_leaves {t : HuffmanNode} (h : Merged t) :
    ∀ (str : string) (m m' : mymap), buildBinary str t m = .ok m' →
      ∀ e ∈ leaves t, e.1 ≠ NOT_A_CHAR := by
  induction h with
  | leaf c n =>
    intro str m m' hb e he
    rw [leaves_leaf] at he
    simp only [List.mem_singleton] at he
    subst he
    intro hc
    simp only at hc
    subst hc
    simp [buildBinary, Bind.bind, Except.bind] at hb
  | internal l r hl hr ih1 ih2 =>
    intro str m m' hb e he
    rw [leaves_internal _ _ l r hl.ne_nullptr] at he
    simp only [buildBinary, ne_eq, not_true_eq_false, if_false, Bind.bind, Except.bind] at hb
    cases h1 : buildBinary (str ++ ['0']) l m with
    | error err => rw [h1] at hb; simp at hb
    | ok m1 =>
      rw [h1] at hb
      simp only at hb
      rcases List.mem_append.mp he with h | h
      · exact ih1 _ _ _ h1 e h
      · exact ih2 _ _ _ hb e h

/-- No code is a prefix of the code of another leaf. -/
theorem codes_prefix_free {t : HuffmanNode} (h : Full t) :
    (codes t).Pairwise (fun e1 e2 => ¬ e1.2 <+: e2.2 ∧ ¬ e2.2 <+: e1.2) := by
  induction h with
  | leaf c n => simp [codes_leaf]
  | internal c n l r hl hr ih1 ih2 =>
    rw [codes_internal c n l r hl.ne_null, List.pairwise_append]
    refine ⟨?_, ?_, ?_⟩
    · rw [List.pairwise_map]
      refine ih1.imp ?_
      intro e1 e2 h
      simpa [List.cons_prefix_cons] using h
    · rw [List.pairwise_map]
      refine ih2.imp ?_
      intro e1 e2 h
      simpa [List.cons_prefix_cons] using h
    · intro e1 h1 e2 h2
      obtain ⟨a, _, rfl⟩ := List.mem_map.mp h1
      obtain ⟨b, _, rfl⟩ := List.mem_map.mp h2
      simp [List.cons_prefix_cons]

theorem codes_nonempty_of_internal (c n : Int) (l r : HuffmanNode) (hl : l ≠ .nullptr) :
    ∀ e ∈ codes (.node c n l r), e.2 ≠ [] := by
  intro e he
  rw [codes_internal c n l r hl] at he
  rcases List.mem_append.mp he with h | h
  · obtain ⟨a, _, rfl⟩ := List.mem_map.mp h
    simp
  · obtain ⟨a, _, rfl⟩ := List.mem_map.mp h
    simp

theorem codes_bits (t : HuffmanNode) : ∀ e ∈ codes t, ∀ x ∈ e.2, x = '0' ∨ x = '1' := by
  induction t with
  | nullptr => intro e he; simp [codes] at he
  | node c n z o ih1 ih2 =>
    intro e he x hx
    unfold codes at he
    by_cases h : z = .nullptr ∧ o = .nullptr
    · rw [if_pos h] at he
      simp only [List.mem_singleton] at he
      subst he
      simp at hx
    · rw [if_neg h] at he
      rcases List.mem_append.mp he with h1 | h1
      · obtain ⟨a, ha, rfl⟩ := List.mem_map.mp h1
        rcases List.mem_cons.mp hx with h2 | h2
        · exact Or.inl h2
        · exact ih1 a ha x h2
      · obtain ⟨a, ha, rfl⟩ := List.mem_map.mp h1
        rcases List.mem_cons.mp hx with h2 | h2
        · exact Or.inr h2
        · exact ih2 a ha x h2

theorem charToInt_injective : Function.Injective charToInt := by
  intro a b h
  unfold charToInt at h
  apply Fin.ext
  have := a.isLt
  have := b.isLt
  split at h <;> split at h <;> omega

theorem charToInt_ne_eof (c : CChar) : charToInt c ≠ PSEUDO_EOF := by
  unfold charToInt PSEUDO_EOF
  have := c.isLt
  split <;> omega

theorem charToInt_ne_nac (c : CChar) : charToInt c ≠ NOT_A_CHAR := by
  unfold charToInt NOT_A_CHAR
  have := c.isLt
  split <;> omega

theorem intToChar_charToInt (c : CChar) : intToChar (charToInt c) = c := by
  unfold charToInt intToChar
  apply Fin.ext
  have := c.isLt
  simp only
  split <;> omega

theorem hashmap_get_put (m : hashmap) (k v k' : Int) :
    (m.put k v).get k' = if k = k' then .ok v else m.get k' := by
  induction m with
  | nil => simp [hashmap.put, hashmap.get]
  | cons e t ih =>
    obtain ⟨k0, v0⟩ := e
    simp only [hashmap.put]
    by_cases h : k0 = k
    · subst h
      simp only [if_true, hashmap.get]
      by_cases h2 : k0 = k' <;> simp [h2]
    · rw [if_neg h]
      simp only [hashmap.get, ih]
      by_cases h2 : k0 = k'
      · subst h2
        simp [Ne.symm h]
      · simp [h2]

theorem hashmap_containsKey_iff (m : hashmap) (k : Int) :
    m.containsKey k = true ↔ k ∈ m.keys := by
  induction m with
  | nil => simp [hashmap.containsKey, hashmap.keys]
  | cons e t ih =>
    obtain ⟨k0, v0⟩ := e
    simp only [hashmap.containsKey, hashmap.keys, List.map_cons, List.mem_cons]
    by_cases h : k0 = k
    · simp [h]
    · rw [if_neg h, ih]
      simp [hashmap.keys, Ne.symm h]

theorem hashmap_get_of_not_mem (m : hashmap) (k : Int) (h : k ∉ m.keys) :
    m.get k = .error .missingKey := by
  induction m with
  | nil => rfl
  | cons e t ih =>
    obtain ⟨k0, v0⟩ := e
    simp only [hashmap.keys, List.map_cons, List.mem_cons, not_or] at h
    simp only [hashmap.get]
    rw [if_neg (Ne.symm h.1)]
    exact ih h.2

theorem hashmap_mem_of_get (m : hashmap) (k v : Int) (h : m.get k = .ok v) : (k, v) ∈ m := by
  induction m with
  | nil => simp [hashmap.get] at h
  | cons e t ih =>
    obtain ⟨k0, v0⟩ := e
    simp only [hashmap.get] at h
    by_cases h2 : k0 = k
    · rw [if_pos h2] at h
      cases h
      subst h2
      exact List.mem_cons_self _ _
    · rw [if_neg h2] at h
      exact List.mem_cons_of_mem _ (ih h)

theorem hashmap_keys_put (m : hashmap) (k v : Int) :
    (m.put k v).keys = if k ∈ m.keys then m.keys else m.keys ++ [k] := by
  induction m with
  | nil => simp [hashmap.put, hashmap.keys]
  | cons e t ih =>
    obtain ⟨k0, v0⟩ := e
    simp only [hashmap.put]
    by_cases h : k0 = k
    · subst h
      simp [hashmap.keys]
    · rw [if_neg h]
      simp only [hashmap.keys, List.map_cons, List.mem_cons] at ih ⊢
      rw [ih]
      by_cases h2 : k ∈ List.map Prod.fst t
      · simp [h2]
      · simp [h2, Ne.symm h]

theorem hashmap_nodup_put (m : hashmap) (k v : Int) (h : m.keys.Nodup) :
    (m.put k v).keys.Nodup := by
  rw [hashmap_keys_put]
  by_cases h2 : k ∈ m.keys
  · rw [if_pos h2]; exact h
  · rw [if_neg h2]
    rw [List.nodup_append]
    refine ⟨h, List.nodup_singleton k, ?_⟩
    intro x hx hx2
    simp only [List.mem_singleton] at hx2
    subst hx2
    exact h2 hx

theorem putFrequency_eq (m : hashmap) (c : Int) :
    putFrequency m c = .ok (m.put c (wrapInt (countOr0 m c + 1))) := by
  unfold putFrequency countOr0
  by_cases h : m.containsKey c = true
  · rw [if_pos h]
    have hk := (hashmap_containsKey_iff m c).mp h
    obtain ⟨e, he, hek⟩ := List.mem_map.mp hk
    obtain ⟨k0, v0⟩ := e
    simp only at hek
    subst hek
    cases hg : m.get k0 with
    | ok v => rfl
    | error err =>
      exfalso
      clear h hk
      induction m with
      | nil => simp at he
      | cons e t ih =>
        obtain ⟨k1, v1⟩ := e
        simp only [hashmap.get] at hg
        by_cases h2 : k1 = k0
        · rw [if_pos h2] at hg
          cases hg
        · rw [if_neg h2] at hg
          rcases List.mem_cons.mp he with h3 | h3
          · cases h3
            exact h2 rfl
          · exact ih h3 hg
  · rw [if_neg h]
    have hk : c ∉ m.keys := fun hc => h ((hashmap_containsKey_iff m c).mpr hc)
    rw [hashmap_get_of_not_mem m c hk]
    rfl

theorem countChars_spec (data : List CChar) :
    ∀ m : hashmap, ∃ m', countChars data m = .ok m' ∧
      (∀ k, m'.get k =
        if occurrences k data = 0 then m.get k
        else .ok (wrapInt (countOr0 m k + occurrences k data))) ∧
      (m.keys.Nodup → m'.keys.Nodup) := by
  induction data with
  | nil =>
    intro m
    exact ⟨m, rfl, fun k => by simp [occurrences], fun h => h⟩
  | cons c rest ih =>
    intro m
    obtain ⟨m', h1, h2, h3⟩ :=
      ih (m.put (charToInt c) (wrapInt (countOr0 m (charToInt c) + 1)))
    refine ⟨m', ?_, ?_, fun h => h3 (hashmap_nodup_put _ _ _ h)⟩
    · simp only [countChars, putFrequency_eq, Bind.bind, Except.bind]
      exact h1
    · intro k
      rw [h2 k, hashmap_get_put]
      have hocc : occurrences k (c :: rest) =
          occurrences k rest + if charToInt c = k then 1 else 0 := by
        simp only [occurrences, List.map_cons, List.count_cons, beq_iff_eq]
      rw [hocc]
      have hc0 : countOr0 (m.put (charToInt c) (wrapInt (countOr0 m (charToInt c) + 1))) k =
          if charToInt c = k then wrapInt (countOr0 m (charToInt c) + 1)
          else countOr0 m k := by
        unfold countOr0
        rw [hashmap_get_put]
        by_cases h : charToInt c = k
        · simp [h]
        · simp [h]
      rw [hc0]
      by_cases h : charToInt c = k
      · subst h
        simp only [if_true]
        by_cases h0 : occurrences (charToInt c) rest = 0
        · simp [h0]
        · simp only [h0, if_false, Nat.add_eq_zero, one_ne_zero, and_false]
          rw [wrapInt_wrapInt_add]
          congr 2
          push_cast
          ring
      · simp only [h, if_false, Nat.add_zero]

theorem bitsOf_append (a b : string) : bitsOf (a ++ b) = bitsOf a ++ bitsOf b := by
  simp [bitsOf]

theorem writeBits_eq (str : string) :
    ∀ out : ofbitstream, (∀ x ∈ str, x = '0' ∨ x = '1') →
      writeBits str out = .ok (out ++ bitsOf str) := by
  induction str with
  | nil => intro out _; simp [writeBits, bitsOf, Pure.pure, Except.pure]
  | cons x rest ih =>
    intro out h
    have hrest := ih
    rcases h x (List.mem_cons_self _ _) with hx | hx
    · subst hx
      have e : ofbitstream.writeBit out ((('0' : Char).toNat : Int) - (('0' : Char).toNat : Int)) =
          .ok (out ++ [false]) := by
        simp [ofbitstream.writeBit]
      simp only [writeBits, e, Bind.bind, Except.bind]
      rw [ih _ (fun y hy => h y (List.mem_cons_of_mem _ hy))]
      simp [bitsOf]
    · subst hx
      have e : ofbitstream.writeBit out ((('1' : Char).toNat : Int) - (('0' : Char).toNat : Int)) =
          .ok (out ++ [true]) := by
        simp [ofbitstream.writeBit]
      simp only [writeBits, e, Bind.bind, Except.bind]
      rw [ih _ (fun y hy => h y (List.mem_cons_of_mem _ hy))]
      simp [bitsOf]

theorem nac_ne_eof : NOT_A_CHAR ≠ PSEUDO_EOF := by decide

/-- Following the code of a leaf from a node of a merged tree ends at a leaf
with that symbol, having emitted nothing. -/
theorem decodeLoop_walk (tree : HuffmanNode) {s : HuffmanNode} (h : Merged s) :
    (∀ e ∈ leaves s, e.1 ≠ NOT_A_CHAR) → ∀ e ∈ codes s, ∃ n : Int,
      ∀ (rest : List Bool) (dec out : List CChar),
        decodeLoop tree (bitsOf e.2 ++ rest) s dec out =
          decodeLoop tree rest (.node e.1 n .nullptr .nullptr) dec out := by
  induction h with
  | leaf c n =>
    intro _ e he
    rw [codes_leaf] at he
    simp only [List.mem_singleton] at he
    subst he
    exact ⟨n, fun rest dec out => rfl⟩
  | internal l r hl hr ih1 ih2 =>
    intro hc e he
    rw [leaves_internal _ _ l r hl.ne_nullptr] at hc
    rw [codes_internal _ _ l r hl.ne_nullptr] at he
    rcases List.mem_append.mp he with h | h
    · obtain ⟨a, ha, rfl⟩ := List.mem_map.mp h
      obtain ⟨n, hn⟩ := ih1 (fun e he => hc e (List.mem_append_left _ he)) a ha
      refine ⟨n, fun rest dec out => ?_⟩
      rw [← hn]
      simp [bitsOf, decodeLoop, nac_ne_eof]
    · obtain ⟨a, ha, rfl⟩ := List.mem_map.mp h
      obtain ⟨n, hn⟩ := ih2 (fun e he => hc e (List.mem_append_right _ he)) a ha
      refine ⟨n, fun rest dec out => ?_⟩
      rw [← hn]
      simp [bitsOf, decodeLoop, nac_ne_eof]

/-- At a leaf that is not the end-of-stream leaf the symbol is emitted and the
walk restarts from the root. -/
theorem decodeLoop_emit (cnt : Int) (l r : HuffmanNode) (k n : Int) (z o : HuffmanNode)
    (hk1 : k ≠ PSEUDO_EOF) (hk2 : k ≠ NOT_A_CHAR) (input : List Bool)
    (dec out : List CChar) :
    decodeLoop (.node NOT_A_CHAR cnt l r) input (.node k n z o) dec out =
      decodeLoop (.node NOT_A_CHAR cnt l r) input (.node NOT_A_CHAR cnt l r)
        (dec ++ [intToChar k]) (out ++ [intToChar k]) := by
  cases input <;> simp [decodeLoop, hk1, hk2, nac_ne_eof]

theorem decodeLoop_eof (tree : HuffmanNode) (input : List Bool) (n : Int) (z o : HuffmanNode)
    (dec out : List CChar) :
    decodeLoop tree input (.node PSEUDO_EOF n z o) dec out = .ok (dec, out) := by
  cases input <;> simp [decodeLoop]

/-- Encoding the characters appends their codes, and decoding those bits emits
the characters and is back at the root. -/
theorem encode_decode_body (cnt : Int) (l r : HuffmanNode)
    (hm : Merged (.node NOT_A_CHAR cnt l r))
    (hc : ∀ e ∈ leaves (.node NOT_A_CHAR cnt l r), e.1 ≠ NOT_A_CHAR)
    (hnd : ((leaves (.node NOT_A_CHAR cnt l r)).map Prod.fst).Nodup) :
    ∀ S : List CChar, (∀ c ∈ S, charToInt c ∈ (leaves (.node NOT_A_CHAR cnt l r)).map Prod.fst) →
      ∃ body : string,
        (∀ acc, encodeChars (putAll [] (codes (.node NOT_A_CHAR cnt l r))) S acc =
          .ok (acc ++ body)) ∧
        (∀ x ∈ body, x = '0' ∨ x = '1') ∧
        ∀ (R : List Bool) (dec out : List CChar),
          decodeLoop (.node NOT_A_CHAR cnt l r) (bitsOf body ++ R) (.node NOT_A_CHAR cnt l r)
              dec out =
            decodeLoop (.node NOT_A_CHAR cnt l r) R (.node NOT_A_CHAR cnt l r)
              (dec ++ S) (out ++ S) := by
  intro S
  induction S with
  | nil =>
    intro _
    exact ⟨[], fun acc => by simp [encodeChars, Pure.pure, Except.pure],
      fun x hx => by simp at hx, fun R dec out => by simp [bitsOf]⟩
  | cons c rest ih =>
    intro hS
    obtain ⟨body, hb1, hb2, hb3⟩ := ih (fun c hc => hS c (List.mem_cons_of_mem _ hc))
    have hck : charToInt c ∈ (codes (.node NOT_A_CHAR cnt l r)).map Prod.fst := by
      rw [codes_fst]; exact hS c (List.mem_cons_self _ _)
    obtain ⟨e, he, hek⟩ := List.mem_map.mp hck
    obtain ⟨k, p⟩ := e
    simp only at hek
    subst hek
    have hget : (putAll [] (codes (.node NOT_A_CHAR cnt l r))).get (charToInt c) = .ok p :=
      get_putAll_of_mem _ _ _ _ (by rw [codes_fst]; exact hnd) he
    obtain ⟨n, hwalk⟩ := decodeLoop_walk (.node NOT_A_CHAR cnt l r) hm hc _ he
    refine ⟨p ++ body, ?_, ?_, ?_⟩
    · intro acc
      simp only [encodeChars, hget, Bind.bind, Except.bind]
      rw [hb1, List.append_assoc]
    · intro x hx
      rcases List.mem_append.mp hx with h | h
      · exact codes_bits _ _ he x h
      · exact hb2 x h
    · intro R dec out
      rw [bitsOf_append, List.append_assoc, hwalk]
      simp only
      rw [decodeLoop_emit cnt l r (charToInt c) n .nullptr .nullptr (charToInt_ne_eof c)
        (charToInt_ne_nac c), hb3 R _ _, intToChar_charToInt]
      simp

/-- A proper prefix of a code leads to no leaf: the walk ends inside the tree
and nothing is emitted. -/
theorem decodeLoop_cut (tree : HuffmanNode) {s : HuffmanNode} (h : Merged s) :
    ∀ e ∈ codes s, ∀ (q q' : string), e.2 = q ++ q' → q' ≠ [] →
      ∀ (dec out : List CChar), decodeLoop tree (bitsOf q) s dec out = .ok (dec, out) := by
  induction h with
  | leaf c n =>
    intro e he q q' hq hq'
    rw [codes_leaf] at he
    simp only [List.mem_singleton] at he
    subst he
    simp only at hq
    exact absurd (List.append_eq_nil.mp hq.symm).2 hq'
  | internal l r hl hr ih1 ih2 =>
    intro e he q q' hq hq' dec out
    rw [codes_internal _ _ l r hl.ne_nullptr] at he
    cases q with
    | nil => simp [bitsOf, decodeLoop, nac_ne_eof]
    | cons x q0 =>
      rcases List.mem_append.mp he with h | h
      · obtain ⟨a, ha, rfl⟩ := List.mem_map.mp h
        simp only [List.cons_append, List.cons.injEq] at hq
        obtain ⟨hx, hq0⟩ := hq
        subst hx
        have := ih1 a ha q0 q' hq0 hq' dec out
        simpa [bitsOf, decodeLoop, nac_ne_eof] using this
      · obtain ⟨a, ha, rfl⟩ := List.mem_map.mp h
        simp only [List.cons_append, List.cons.injEq] at hq
        obtain ⟨hx, hq0⟩ := hq
        subst hx
        have := ih2 a ha q0 q' hq0 hq' dec out
        simpa [bitsOf, decodeLoop, nac_ne_eof] using this

/-- On a merged tree with at least two leaves, none of them `NOT_A_CHAR`,
`decode` returns a result for every bit sequence, from every node of the tree. -/
theorem decodeLoop_total (cnt : Int) (l r : HuffmanNode)
    (hl : Merged l ∧ ∀ e ∈ leaves l, e.1 ≠ NOT_A_CHAR)
    (hr : Merged r ∧ ∀ e ∈ leaves r, e.1 ≠ NOT_A_CHAR) :
    ∀ (input : List Bool) (s : HuffmanNode), Merged s → (∀ e ∈ leaves s, e.1 ≠ NOT_A_CHAR) →
      ∀ (dec out : List CChar), ∃ d,
        decodeLoop (.node NOT_A_CHAR cnt l r) input s dec out = .ok (dec ++ d, out ++ d) := by
  intro input
  induction input with
  | nil =>
    intro s hs hc dec out
    cases hs with
    | leaf c n =>
      by_cases h1 : c = PSEUDO_EOF
      · exact ⟨[], by simp [decodeLoop, h1]⟩
      · have h2 : c ≠ NOT_A_CHAR := hc (c, n) (by simp [leaves_leaf])
        exact ⟨[intToChar c], by simp [decodeLoop, h1, h2]⟩
    | internal l' r' _ _ => exact ⟨[], by simp [decodeLoop, nac_ne_eof]⟩
  | cons bit rest ih =>
    intro s hs hc dec out
    cases hs with
    | leaf c n =>
      by_cases h1 : c = PSEUDO_EOF
      · exact ⟨[], by simp [decodeLoop, h1]⟩
      · have h2 : c ≠ NOT_A_CHAR := hc (c, n) (by simp [leaves_leaf])
        cases bit with
        | false =>
          obtain ⟨d, hd⟩ := ih l hl.1 hl.2 (dec ++ [intToChar c]) (out ++ [intToChar c])
          exact ⟨intToChar c :: d, by simp [decodeLoop, h1, h2, hd]⟩
        | true =>
          obtain ⟨d, hd⟩ := ih r hr.1 hr.2 (dec ++ [intToChar c]) (out ++ [intToChar c])
          exact ⟨intToChar c :: d, by simp [decodeLoop, h1, h2, hd]⟩
    | internal l' r' hl' hr' =>
      rw [leaves_internal _ _ l' r' hl'.ne_nullptr] at hc
      cases bit with
      | false =>
        obtain ⟨d, hd⟩ := ih l' hl' (fun e he => hc e (List.mem_append_left _ he)) dec out
        exact ⟨d, by simp [decodeLoop, nac_ne_eof, hd]⟩
      | true =>
        obtain ⟨d, hd⟩ := ih r' hr' (fun e he => hc e (List.mem_append_right _ he)) dec out
        exact ⟨d, by simp [decodeLoop, nac_ne_eof, hd]⟩

theorem occurrences_eq_zero_iff (k : Int) (S : List CChar) :
    occurrences k S = 0 ↔ ∀ c ∈ S, charToInt c ≠ k := by
  unfold occurrences
  rw [List.count_eq_zero]
  simp only [List.mem_map, not_exists, not_and]

theorem occurrences_charToInt (c : CChar) (S : List CChar) :
    occurrences (charToInt c) S = S.count c := by
  unfold occurrences
  exact List.count_map_of_injective S charToInt charToInt_injective c

theorem wrapInt_one : wrapInt (0 + 1) = 1 := by
  unfold wrapInt
  norm_num

/-- The table that `buildFrequencyMap` makes from an empty map: the count of a
symbol is its number of occurrences as an `int` holds it. -/
theorem buildFrequencyMap_spec (S : List CChar) (isFile : Bool) :
    ∃ built, buildFrequencyMap S isFile [] = .ok built ∧ built.keys.Nodup ∧
      ∀ k, built.get k =
        if k = PSEUDO_EOF then .ok 1
        else if occurrences k S = 0 then .error .missingKey
        else .ok (wrapInt (occurrences k S : Int)) := by
  obtain ⟨m, h1, h2, h3⟩ := countChars_spec S []
  refine ⟨m.put PSEUDO_EOF (wrapInt (countOr0 m PSEUDO_EOF + 1)), ?_, ?_, ?_⟩
  · unfold buildFrequencyMap
    cases isFile <;> simp only [h1, Bind.bind, Except.bind, putFrequency_eq, if_true, if_false,
      Bool.false_eq_true]
  · exact hashmap_nodup_put _ _ _ (h3 (by simp [hashmap.keys]))
  · intro k
    have h0 : occurrences PSEUDO_EOF S = 0 :=
      (occurrences_eq_zero_iff _ _).mpr (fun c _ => charToInt_ne_eof c)
    have hc : countOr0 m PSEUDO_EOF = 0 := by
      unfold countOr0
      rw [h2, h0]
      rfl
    rw [hashmap_get_put, hc, h2, wrapInt_one]
    by_cases hk : PSEUDO_EOF = k
    · subst hk; simp
    · rw [if_neg hk, if_neg (Ne.symm hk)]
      by_cases ho : occurrences k S = 0
      · rw [if_pos ho, if_pos ho]; rfl
      · rw [if_neg ho, if_neg ho]
        simp [countOr0, hashmap.get]

theorem hashmap_mem_keys_iff (m : hashmap) (hnd : m.keys.Nodup) (k : Int) :
    k ∈ m.keys ↔ ∃ v, m.get k = .ok v := by
  constructor
  · intro h
    obtain ⟨e, he, rfl⟩ := List.mem_map.mp h
    exact ⟨e.2, hashmap_get_of_mem m e.1 e.2 hnd he⟩
  · rintro ⟨v, hv⟩
    exact List.mem_map.mpr ⟨(k, v), hashmap_mem_of_get m k v hv, rfl⟩

/-- Facts about any table holding the entries that `buildFrequencyMap` made. -/
theorem table_of_input (S : List CChar) (isFile : Bool) (built table : hashmap)
    (hb : buildFrequencyMap S isFile [] = .ok built) (hp : table ~ built) :
    table.keys.Nodup ∧ (∀ e ∈ table, e.1 ≠ NOT_A_CHAR) ∧
      (∀ c ∈ S, charToInt c ∈ table.keys) ∧ PSEUDO_EOF ∈ table.keys := by
  obtain ⟨b, h1, h2, h3⟩ := buildFrequencyMap_spec S isFile
  rw [hb] at h1
  cases h1
  have hk : table.keys ~ built.keys := hp.map Prod.fst
  have hmem : ∀ k, k ∈ built.keys ↔ k = PSEUDO_EOF ∨ ∃ c ∈ S, charToInt c = k := by
    intro k
    rw [hashmap_mem_keys_iff built h2, h3]
    by_cases hk : k = PSEUDO_EOF
    · simp [hk]
    · rw [if_neg hk]
      by_cases ho : occurrences k S = 0
      · rw [if_pos ho]
        have := (occurrences_eq_zero_iff k S).mp ho
        simp only [hk, false_or]
        constructor
        · rintro ⟨v, hv⟩; cases hv
        · rintro ⟨c, hc, hck⟩; exact absurd hck (this c hc)
      · rw [if_neg ho]
        have : ¬ ∀ c ∈ S, charToInt c ≠ k := fun h => ho ((occurrences_eq_zero_iff k S).mpr h)
        push_neg at this
        simp only [hk, false_or]
        exact ⟨fun _ => this, fun _ => ⟨_, rfl⟩⟩
  refine ⟨hk.nodup_iff.mpr h2, ?_, ?_, ?_⟩
  · intro e he
    have : e.1 ∈ built.keys := hk.mem_iff.mp (List.mem_map.mpr ⟨e, he, rfl⟩)
    rcases (hmem e.1).mp this with h | ⟨c, _, h⟩
    · rw [h]; decide
    · rw [← h]; exact charToInt_ne_nac c
  · intro c hc
    exact hk.mem_iff.mpr ((hmem _).mpr (Or.inr ⟨c, hc, rfl⟩))
  · exact hk.mem_iff.mpr ((hmem _).mpr (Or.inl rfl))

theorem buildEncodingMap_eq {t : HuffmanNode} (h : Merged t)
    (hc : ∀ e ∈ leaves t, e.1 ≠ NOT_A_CHAR) :
    buildEncodingMap t = .ok (putAll [] (codes t)) := by
  unfold buildEncodingMap
  rw [buildBinary_eq h hc]
  simp

/-- Core of the round trip, for any table with distinct keys that has an entry
for every input symbol and for the end-of-stream symbol. -/
theorem roundtrip_core (S : List CChar) (table : hashmap) (hnd : table.keys.Nodup)
    (hnac : ∀ e ∈ table, e.1 ≠ NOT_A_CHAR) (hS : ∀ c ∈ S, charToInt c ∈ table.keys)
    (heof : PSEUDO_EOF ∈ table.keys) :
    ∃ tree encodingMap str,
      buildEncodingTree table = .ok tree ∧
      buildEncodingMap tree = .ok encodingMap ∧
      (∀ output, encode S encodingMap output true =
        .ok (str, wrapInt (str.length : Int), output ++ bitsOf str)) ∧
      (∀ output, encode S encodingMap output false =
        .ok (str, wrapInt (str.length : Int), output)) ∧
      (∀ x ∈ str, x = '0' ∨ x = '1') ∧
      ∀ (pad : List Bool) (out0 : List CChar),
        decode (bitsOf str ++ pad) tree out0 = .ok (S, out0 ++ S) := by
  have hne : table ≠ [] := by
    intro h; rw [h] at heof; simp [hashmap.keys] at heof
  obtain ⟨tree, hbt, hm, hlv, _⟩ := buildEncodingTree_merged table hnd hne
  have hkeys : (leaves tree).map Prod.fst ~ table.keys := hlv.map Prod.fst
  have hc : ∀ e ∈ leaves tree, e.1 ≠ NOT_A_CHAR := fun e he => hnac e (hlv.mem_iff.mp he)
  have hnd' : ((leaves tree).map Prod.fst).Nodup := hkeys.nodup_iff.mpr hnd
  have hS' : ∀ c ∈ S, charToInt c ∈ (leaves tree).map Prod.fst :=
    fun c hc => hkeys.mem_iff.mpr (hS c hc)
  have heof' : PSEUDO_EOF ∈ (codes tree).map Prod.fst := by
    rw [codes_fst]; exact hkeys.mem_iff.mpr heof
  obtain ⟨e, he, hek⟩ := List.mem_map.mp heof'
  obtain ⟨k, p⟩ := e
  simp only at hek
  subst hek
  have hget : (putAll [] (codes tree)).get PSEUDO_EOF = .ok p :=
    get_putAll_of_mem _ _ _ _ (by rw [codes_fst]; exact hnd') he
  have hpb : ∀ x ∈ p, x = '0' ∨ x = '1' := codes_bits tree _ he
  cases hm with
  | leaf c n =>
    have hS0 : S = [] := by
      cases S with
      | nil => rfl
      | cons c0 rest =>
        exfalso
        have := hS' c0 (List.mem_cons_self _ _)
        rw [leaves_leaf] at this
        simp only [List.map_cons, List.map_nil, List.mem_singleton] at this
        rw [codes_leaf] at he
        simp only [List.mem_singleton, Prod.mk.injEq] at he
        rw [← he.1] at this
        exact charToInt_ne_eof c0 this
    subst hS0
    rw [codes_leaf] at he
    simp only [List.mem_singleton, Prod.mk.injEq] at he
    obtain ⟨hce, hp⟩ := he
    subst hce
    subst hp
    refine ⟨_, _, [], hbt, buildEncodingMap_eq (Merged.leaf _ n) hc, ?_, ?_, ?_, ?_⟩
    · intro output
      simp [encode, encodeChars, hget, Bind.bind, Except.bind, Pure.pure, Except.pure,
        writeBits, bitsOf]
    · intro output
      simp [encode, encodeChars, hget, Bind.bind, Except.bind, Pure.pure, Except.pure]
    · intro x hx; simp at hx
    · intro pad out0
      simp only [decode, bitsOf, List.map_nil, List.nil_append, decodeLoop_eof, List.append_nil]
  | internal l r hl hr =>
    obtain ⟨body, hb1, hb2, hb3⟩ :=
      encode_decode_body _ l r (Merged.internal l r hl hr) hc hnd' S hS'
    have hall : ∀ x ∈ body ++ p, x = '0' ∨ x = '1' := by
      intro x hx
      rcases List.mem_append.mp hx with h | h
      · exact hb2 x h
      · exact hpb x h
    refine ⟨_, _, body ++ p, hbt, buildEncodingMap_eq (Merged.internal l r hl hr) hc,
      ?_, ?_, hall, ?_⟩
    · intro output
      simp only [encode, hb1, hget, Bind.bind, Except.bind, Pure.pure, Except.pure,
        List.nil_append, if_true, writeBits_eq _ _ hall]
    · intro output
      simp only [encode, hb1, hget, Bind.bind, Except.bind, Pure.pure, Except.pure,
        List.nil_append, Bool.false_eq_true, if_false]
    · intro pad out0
      obtain ⟨n, hwalk⟩ := decodeLoop_walk _ (Merged.internal l r hl hr) hc _ he
      unfold decode
      rw [bitsOf_append, List.append_assoc, hb3 _ _ _, hwalk]
      simp only [decodeLoop_eof, List.nil_append]

theorem mem_of_get_putAll (kvs : List (Int × string)) (hnd : (kvs.map Prod.fst).Nodup)
    (k : Int) (v : string) (h : (putAll [] kvs).get k = .ok v) : (k, v) ∈ kvs := by
  by_cases hk : k ∈ kvs.map Prod.fst
  · obtain ⟨e, he, hek⟩ := List.mem_map.mp hk
    obtain ⟨k', v'⟩ := e
    simp only at hek
    subst hek
    rw [get_putAll_of_mem kvs [] k' v' hnd he] at h
    cases h
    exact he
  · rw [get_putAll_not_mem kvs [] k hk] at h
    simp [mymap.get] at h

theorem hashmap_eq_of_keys (a : hashmap) :
    ∀ b : hashmap, a.keys.Nodup → b.keys = a.keys → (∀ k, b.get k = a.get k) → b = a := by
  induction a with
  | nil =>
    intro b _ hk _
    cases b with
    | nil => rfl
    | cons e t => simp [hashmap.keys] at hk
  | cons e t ih =>
    intro b hnd hk hg
    cases b with
    | nil => simp [hashmap.keys] at hk
    | cons e' t' =>
      obtain ⟨k, v⟩ := e
      obtain ⟨k', v'⟩ := e'
      simp only [hashmap.keys, List.map_cons, List.cons.injEq] at hk
      obtain ⟨hk1, hk2⟩ := hk
      subst hk1
      simp only [hashmap.keys, List.map_cons, List.nodup_cons] at hnd
      have hv : v' = v := by
        have := hg k'
        simp only [hashmap.get, if_true] at this
        cases this
        rfl
      subst hv
      congr 1
      apply ih t' hnd.2 hk2
      intro x
      have := hg x
      simp only [hashmap.get] at this
      by_cases hx : k' = x
      · subst hx
        have h1 : k' ∉ hashmap.keys t := hnd.1
        have h2 : k' ∉ hashmap.keys t' := by
          show k' ∉ List.map Prod.fst t'
          rw [hk2]; exact hnd.1
        rw [hashmap_get_of_not_mem t k' h1, hashmap_get_of_not_mem t' k' h2]
      · rwa [if_neg hx, if_neg hx] at this

theorem Merged.internal_of_two_leaves {t : HuffmanNode} (h : Merged t)
    (h2 : 2 ≤ (leaves t).length) :
    ∃ l r, t = .node NOT_A_CHAR (wrapInt (l.count + r.count)) l r ∧ Merged l ∧ Merged r := by
  cases h with
  | leaf c n => simp [leaves_leaf] at h2
  | internal l r hl hr => exact ⟨l, r, rfl, hl, hr⟩

/-- With counts that are not negative, a tree in which some node has a single
child is never cheaper than a proper binary tree with the same leaves. -/
theorem exists_full_le (t : HuffmanNode) :
    t ≠ .nullptr → (∀ e ∈ leaves t, 0 ≤ e.2) →
      ∃ u, Full u ∧ leaves u = leaves t ∧ ∀ d, weplFrom d u ≤ weplFrom d t := by
  induction t with
  | nullptr => intro h; exact absurd rfl h
  | node c n z o ih1 ih2 =>
    intro _ hpos
    by_cases hz : z = .nullptr
    · by_cases ho : o = .nullptr
      · subst hz; subst ho
        exact ⟨_, Full.leaf c n, rfl, fun d => le_refl _⟩
      · subst hz
        have hlv : leaves (.node c n .nullptr o) = leaves o := by
          simp [leaves, ho]
        rw [hlv] at hpos
        obtain ⟨u, hu, hul, huc⟩ := ih2 ho hpos
        refine ⟨u, hu, hul.trans hlv.symm, fun d => ?_⟩
        have h1 : weplFrom d (.node c n .nullptr o) = weplFrom (d + 1) o := by
          simp [weplFrom, ho]
        rw [h1]
        have h2 := weplFrom_succ u d
        have h3 : 0 ≤ ((leaves u).map Prod.snd).sum := by
          apply List.sum_nonneg
          intro x hx
          obtain ⟨e, he, rfl⟩ := List.mem_map.mp hx
          rw [hul] at he
          exact hpos e he
        have := huc (d + 1)
        omega
    · have hlv : leaves (.node c n z o) = leaves z ++ leaves o := leaves_internal c n z o hz
      rw [hlv] at hpos
      obtain ⟨uz, huz, hulz, hucz⟩ := ih1 hz (fun e he => hpos e (List.mem_append_left _ he))
      by_cases ho : o = .nullptr
      · subst ho
        refine ⟨uz, huz, by rw [hulz, hlv]; simp [leaves], fun d => ?_⟩
        have h1 : weplFrom d (.node c n z .nullptr) = weplFrom (d + 1) z := by
          simp [weplFrom, hz]
        rw [h1]
        have h2 := weplFrom_succ uz d
        have h3 : 0 ≤ ((leaves uz).map Prod.snd).sum := by
          apply List.sum_nonneg
          intro x hx
          obtain ⟨e, he, rfl⟩ := List.mem_map.mp hx
          rw [hulz] at he
          exact hpos e (List.mem_append_left _ he)
        have := hucz (d + 1)
        omega
      · obtain ⟨uo, huo, hulo, huco⟩ :=
          ih2 ho (fun e he => hpos e (List.mem_append_right _ he))
        refine ⟨.node c n uz uo, Full.internal c n uz uo huz huo, ?_, fun d => ?_⟩
        · rw [leaves_internal c n uz uo huz.ne_null, hulz, hulo, hlv]
        · rw [weplFrom_internal d c n uz uo huz.ne_null, weplFrom_internal d c n z o hz]
          have := hucz (d + 1)
          have := huco (d + 1)
          omega

theorem encodeChars_flatten (m : mymap) :
    ∀ (S : List CChar) (cs : List string),
      List.Forall₂ (fun c p => m.get (charToInt c) = .ok p) S cs →
      ∀ acc, encodeChars m S acc = .ok (acc ++ cs.flatten) := by
  intro S cs h
  induction h with
  | nil => intro acc; simp [encodeChars, Pure.pure, Except.pure]
  | cons hd _ ih =>
    intro acc
    simp only [encodeChars, hd, Bind.bind, Except.bind, ih, List.flatten_cons, List.append_assoc]

theorem exists_codes_of_forall (m : mymap) :
    ∀ S : List CChar, (∀ c ∈ S, ∃ p, m.get (charToInt c) = .ok p) →
      ∃ cs, List.Forall₂ (fun c p => m.get (charToInt c) = .ok p) S cs := by
  intro S
  induction S with
  | nil => intro _; exact ⟨[], List.Forall₂.nil⟩
  | cons c rest ih =>
    intro h
    obtain ⟨p, hp⟩ := h c (List.mem_cons_self _ _)
    obtain ⟨cs, hcs⟩ := ih (fun c hc => h c (List.mem_cons_of_mem _ hc))
    exact ⟨p :: cs, List.Forall₂.cons hp hcs⟩

theorem forall2_codes_bits (m : mymap)
    (hbits : ∀ k p, m.get k = .ok p → ∀ x ∈ p, x = '0' ∨ x = '1') :
    ∀ (S : List CChar) (cs : List string),
      List.Forall₂ (fun c p => m.get (charToInt c) = .ok p) S cs →
      ∀ x ∈ cs.flatten, x = '0' ∨ x = '1' := by
  intro S cs h
  induction h with
  | nil => intro x hx; simp at hx
  | cons hd _ ih =>
    intro x hx
    rw [List.flatten_cons] at hx
    rcases List.mem_append.mp hx with h1 | h1
    · exact hbits _ _ hd x h1
    · exact ih x h1

theorem mymap_get_of_not_mem (m : mymap) (k : Int) (h : k ∉ m.map Prod.fst) :
    m.get k = .error .missingKey := by
  induction m with
  | nil => rfl
  | cons e t ih =>
    obtain ⟨k0, v0⟩ := e
    simp only [List.map_cons, List.mem_cons, not_or] at h
    simp only [mymap.get]
    rw [if_neg (Ne.symm h.1)]
    exact ih h.2

theorem mymap_get_error (m : mymap) (k : Int) (e : Fault) (h : m.get k = .error e) :
    e = .missingKey := by
  induction m with
  | nil => simp [mymap.get] at h; exact h.symm
  | cons x t ih =>
    obtain ⟨k0, v0⟩ := x
    simp only [mymap.get] at h
    by_cases hk : k0 = k
    · rw [if_pos hk] at h; cases h
    · rw [if_neg hk] at h; exact ih h

theorem encodeChars_missing (m : mymap) :
    ∀ (S : List CChar) (acc : string), (∃ c ∈ S, charToInt c ∉ m.map Prod.fst) →
      encodeChars m S acc = .error .missingKey := by
  intro S
  induction S with
  | nil => intro acc h; obtain ⟨c, hc, _⟩ := h; simp at hc
  | cons c rest ih =>
    intro acc h
    simp only [encodeChars, Bind.bind, Except.bind]
    cases hg : m.get (charToInt c) with
    | error e =>
      simp only
      rw [mymap_get_error m _ e hg]
    | ok p =>
      simp only
      apply ih
      obtain ⟨c', hc', hm⟩ := h
      rcases List.mem_cons.mp hc' with h1 | h1
      · subst h1
        rw [mymap_get_of_not_mem m _ hm] at hg
        cases hg
      · exact ⟨c', h1, hm⟩

/-- Every leaf is reached from the root by following its code. -/
theorem follow_codes {t : HuffmanNode} (h : Full t) :
    ∀ e ∈ leaves t, ∃ p, (e.1, p) ∈ codes t ∧ follow t p = .node e.1 e.2 .nullptr .nullptr := by
  induction h with
  | leaf c n =>
    intro e he
    rw [leaves_leaf] at he
    simp only [List.mem_singleton] at he
    subst he
    exact ⟨[], by simp [codes_leaf], rfl⟩
  | internal c n l r hl hr ih1 ih2 =>
    intro e he
    rw [leaves_internal c n l r hl.ne_null] at he
    rw [codes_internal c n l r hl.ne_null]
    rcases List.mem_append.mp he with h1 | h1
    · obtain ⟨p, hp, hf⟩ := ih1 e h1
      refine ⟨'0' :: p, List.mem_append_left _ (List.mem_map.mpr ⟨(e.1, p), hp, rfl⟩), ?_⟩
      simp [follow, hf]
    · obtain ⟨p, hp, hf⟩ := ih2 e h1
      refine ⟨'1' :: p, List.mem_append_right _ (List.mem_map.mpr ⟨(e.1, p), hp, rfl⟩), ?_⟩
      simp [follow, hf]

theorem strFindFrom_skip (d : Char) (p : string) :
    ∀ (a b : string) (i : Nat), (∀ x ∈ a, x ≠ d) →
      strFindFrom (d :: p) (a ++ b) i = strFindFrom (d :: p) b (i + a.length) := by
  intro a
  induction a with
  | nil => intro b i _; simp
  | cons c rest ih =>
    intro b i h
    have hc : c ≠ d := h c (List.mem_cons_self _ _)
    have hpre : (d :: p).isPrefixOf (c :: (rest ++ b)) = false := by
      simp [List.isPrefixOf, Ne.symm hc]
    have e : strFindFrom (d :: p) (c :: rest ++ b) i =
        strFindFrom (d :: p) (rest ++ b) (i + 1) := by
      show strFindFrom (d :: p) (c :: (rest ++ b)) i = _
      rw [strFindFrom, hpre]
      rfl
    rw [e, ih b (i + 1) (fun x hx => h x (List.mem_cons_of_mem _ hx))]
    simp only [List.length_cons]
    congr 1
    omega

theorem strFindFrom_hit (pat s : string) (i : Nat) (h : pat.isPrefixOf s = true) :
    strFindFrom pat s i = i := by
  cases s with
  | nil => simp [strFindFrom, h]
  | cons c rest => simp [strFindFrom, h]

theorem huf_not_prefix (ext : string) (he : '.' ∉ ext) (hh : ¬ ['h', 'u', 'f'] <+: ext) :
    (['h', 'u', 'f'] : string).isPrefixOf (ext ++ ['.', 'h', 'u', 'f']) = false := by
  rcases ext with _ | ⟨a, _ | ⟨b, _ | ⟨c, r⟩⟩⟩
  · decide
  · simp [List.isPrefixOf]
  · simp only [List.mem_cons, List.mem_singleton, not_or, List.not_mem_nil, or_false] at he
    simp [List.isPrefixOf]
  · have hh' : ¬ (('h' : Char) = a ∧ 'u' = b ∧ 'f' = c) := by
      intro h
      apply hh
      obtain ⟨h1, h2, h3⟩ := h
      subst h1; subst h2; subst h3
      exact ⟨r, rfl⟩
    simp only [List.cons_append, List.isPrefixOf, Bool.and_eq_false_imp, beq_iff_eq,
      Bool.and_true]
    intro h1 h2
    simp only [beq_eq_false_iff_ne, ne_eq]
    intro h3
    exact hh' ⟨h1, h2, h3⟩

theorem strFind_huf (name ext : string) (hn : '.' ∉ name) (he : '.' ∉ ext)
    (hh : ¬ ['h', 'u', 'f'] <+: ext) :
    strFind (name ++ ['.'] ++ ext ++ ['.', 'h', 'u', 'f']) ['.', 'h', 'u', 'f'] =
      name.length + 1 + ext.length := by
  unfold strFind
  have e : name ++ ['.'] ++ ext ++ ['.', 'h', 'u', 'f'] =
      name ++ ('.' :: (ext ++ ['.', 'h', 'u', 'f'])) := by simp
  rw [e, strFindFrom_skip '.' _ name _ 0 (fun x hx hxe => hn (hxe ▸ hx))]
  have hpre : (['.', 'h', 'u', 'f'] : string).isPrefixOf ('.' :: (ext ++ ['.', 'h', 'u', 'f']))
      = false := by
    have := huf_not_prefix ext he hh
    simpa [List.isPrefixOf] using this
  simp only [strFindFrom, hpre, Bool.false_eq_true, if_false]
  rw [strFindFrom_skip '.' _ ext _ _ (fun x hx hxe => he (hxe ▸ hx))]
  rw [strFindFrom_hit _ _ _ (by decide)]
  omega

theorem strFind_dot (name ext : string) (hn : '.' ∉ name) :
    strFind (name ++ ['.'] ++ ext) ['.'] = name.length := by
  unfold strFind
  have e : name ++ ['.'] ++ ext = name ++ ('.' :: ext) := by simp
  rw [e, strFindFrom_skip '.' _ name _ 0 (fun x hx hxe => hn (hxe ▸ hx))]
  rw [strFindFrom_hit _ _ _ (by simp [List.isPrefixOf])]
  omega

theorem castToInt_nonneg (n : Nat) (h : n < 2 ^ 31) : castToInt n ≥ 0 := by
  unfold castToInt
  have : n % 2 ^ 32 = n := Nat.mod_eq_of_lt (by omega)
  rw [this, if_pos h]
  omega

/-- The names that `decompress` computes from `name.ext.huf`. -/
theorem decompressFileNames_eq (name ext : string) (hn : '.' ∉ name) (he : '.' ∉ ext)
    (hh : ¬ ['h', 'u', 'f'] <+: ext) (hlen : name.length + 1 + ext.length < 2 ^ 31) :
    decompressFileNames (name ++ ['.'] ++ ext ++ ['.', 'h', 'u', 'f']) =
      .ok (name ++ ['.'] ++ ext ++ ['.', 'h', 'u', 'f'],
        name ++ ['_', 'u', 'n', 'c', '.'] ++ ext) := by
  unfold decompressFileNames
  simp only [strFind_huf name ext hn he hh, Bind.bind, Except.bind]
  rw [if_pos (castToInt_nonneg _ hlen)]
  have hs1 : substr (name ++ ['.'] ++ ext ++ ['.', 'h', 'u', 'f']) 0
      (name.length + 1 + ext.length) = .ok (name ++ ['.'] ++ ext) := by
    unfold substr
    rw [if_neg (by omega)]
    simp only [List.drop_zero]
    congr 1
    have hl : (name ++ ['.'] ++ ext).length = name.length + 1 + ext.length := by
      simp; omega
    rw [← hl, List.take_left']
    rfl
  simp only [hs1, strFind_dot name ext hn]
  have hl : (name ++ ['.'] ++ ext).length = name.length + 1 + ext.length := by
    simp; omega
  have hs2 : substr (name ++ ['.'] ++ ext) name.length
      (((name ++ ['.'] ++ ext).length + 2 ^ 64 - name.length) % 2 ^ 64) =
        .ok (['.'] ++ ext) := by
    unfold substr
    rw [if_neg (by rw [hl]; omega)]
    congr 1
    have hd : List.drop name.length (name ++ ['.'] ++ ext) = ['.'] ++ ext := by
      rw [List.append_assoc, List.drop_left']
      rfl
    rw [hd, hl]
    apply List.take_of_length_le
    have : (name.length + 1 + ext.length + 2 ^ 64 - name.length) % 2 ^ 64 = 1 + ext.length := by
      omega
    rw [this]
    simp
    omega
  have hs3 : substr (name ++ ['.'] ++ ext) 0 name.length = .ok name := by
    unfold substr
    rw [if_neg (by omega)]
    simp only [List.drop_zero]
    congr 1
    rw [List.append_assoc, List.take_left']
    rfl
  simp only [hs2, hs3, Pure.pure, Except.pure]
  simp

theorem mergeLoop_succ (fuel : Nat) (pq : priority_queue) :
    mergeLoop (fuel + 1) pq =
      if pq.length ≠ 1 then mergeStep pq >>= mergeLoop fuel else pure pq := by
  rw [mergeLoop]
  by_cases h : pq.length ≠ 1
  · rw [if_pos h, if_pos h]
    unfold mergeStep
    simp only [Bind.bind, Except.bind, Pure.pure, Except.pure]
    cases pq.top with
    | error e => rfl
    | ok a =>
      cases pq.pop with
      | error e => rfl
      | ok q1 =>
        simp only
        cases q1.top with
        | error e => rfl
        | ok b =>
          cases q1.pop with
          | error e => rfl
          | ok q2 => rfl
  · rw [if_neg h, if_neg h]

theorem pushLeaves_heap (map : hashmap) :
    ∀ (ks : List Int) (pq pq' : priority_queue), pushLeaves map ks pq = .ok pq' →
      IsHeap pq → IsHeap pq' ∧ pq'.length = pq.length + ks.length := by
  intro ks
  induction ks with
  | nil =>
    intro pq pq' h hh
    simp only [pushLeaves, Pure.pure, Except.pure] at h
    cases h
    exact ⟨hh, rfl⟩
  | cons k rest ih =>
    intro pq pq' h hh
    simp only [pushLeaves, Bind.bind, Except.bind] at h
    cases hg : map.get k with
    | error e => rw [hg] at h; cases h
    | ok v =>
      rw [hg] at h
      simp only at h
      have hp := push_spec pq (.node k v .nullptr .nullptr) hh
      obtain ⟨h1, h2⟩ := ih _ _ h hp.1
      refine ⟨h1, ?_⟩
      rw [h2, hp.2.length_eq]
      simp only [List.length_cons]
      omega

/-- One iteration of the merge loop on a heap with at least two nodes. -/
theorem mergeStep_spec (pq : priority_queue) (hh : IsHeap pq) (h2 : 2 ≤ pq.length) :
    ∃ A B q1 q2, pq.top = .ok A ∧ pq.pop = .ok q1 ∧ q1.top = .ok B ∧ q1.pop = .ok q2 ∧
      pq ~ A :: B :: q2 ∧ A.count ≤ B.count ∧ (∀ N ∈ q2, B.count ≤ N.count) ∧
      mergeStep pq = .ok (q2.push (.node NOT_A_CHAR (wrapInt (A.count + B.count)) A B)) ∧
      IsHeap (q2.push (.node NOT_A_CHAR (wrapInt (A.count + B.count)) A B)) ∧
      q2.push (.node NOT_A_CHAR (wrapInt (A.count + B.count)) A B) ~
        .node NOT_A_CHAR (wrapInt (A.count + B.count)) A B :: q2 := by
  cases pq with
  | nil => simp at h2
  | cons a rest1 =>
    obtain ⟨q1, hq1, hh1, hp1⟩ := pop_spec a rest1 hh
    cases q1 with
    | nil =>
      have := hp1.length_eq
      simp only [List.length_nil, List.length_cons] at this h2
      omega
    | cons b rest2 =>
      obtain ⟨q2, hq2, hh2, hp2⟩ := pop_spec b rest2 hh1
      have hpush := push_spec q2 (.node NOT_A_CHAR (wrapInt (a.count + b.count)) a b) hh2
      have hperm : rest1 ~ b :: q2 := hp1.symm.trans (List.Perm.cons b hp2.symm)
      refine ⟨a, b, b :: rest2, q2, rfl, hq1, rfl, hq2, List.Perm.cons a hperm, ?_, ?_, ?_,
        hpush.1, hpush.2⟩
      · exact heap_top_min a rest1 hh b (hperm.mem_iff.mpr (List.mem_cons_self _ _))
      · intro N hN
        exact heap_top_min b rest2 hh1 N (hp2.mem_iff.mp hN)
      · unfold mergeStep
        simp only [priority_queue.top, hq1, hq2, Bind.bind, Except.bind, Pure.pure, Except.pure]

theorem loopState_inv (map : hashmap) (hne : map ≠ []) (pq : priority_queue)
    (h : LoopState map pq) : IsHeap pq ∧ pq ≠ [] := by
  induction h with
  | init pq hpq =>
    obtain ⟨h1, h2⟩ := pushLeaves_heap map map.keys [] pq hpq isHeap_nil
    refine ⟨h1, ?_⟩
    intro he
    rw [he] at h2
    simp only [List.length_nil, hashmap.keys, List.length_map, Nat.zero_add] at h2
    exact hne (List.length_eq_zero.mp h2.symm)
  | step pq pq' _ hlen hstep ih =>
    have h2 : 2 ≤ pq.length := by
      have : pq.length ≠ 0 := fun h => ih.2 (List.length_eq_zero.mp h)
      omega
    obtain ⟨A, B, q1, q2, _, _, _, _, _, _, _, hs, hheap, hperm⟩ := mergeStep_spec pq ih.1 h2
    rw [hs] at hstep
    cases hstep
    refine ⟨hheap, ?_⟩
    intro he
    rw [he] at hperm
    have := hperm.length_eq
    simp at this

theorem internalCount_leaf (c n : Int) : internalCount (.node c n .nullptr .nullptr) = 0 := by
  simp [internalCount]

theorem internalCount_internal (c n : Int) (l r : HuffmanNode) (hl : l ≠ .nullptr) :
    internalCount (.node c n l r) = 1 + internalCount l + internalCount r := by
  simp [internalCount, hl]

theorem Full.internal_add_one {t : HuffmanNode} (h : Full t) :
    internalCount t + 1 = (leaves t).length := by
  induction h with
  | leaf c n => simp [internalCount_leaf, leaves_leaf]
  | internal c n l r hl hr ih1 ih2 =>
    rw [internalCount_internal c n l r hl.ne_null, leaves_internal c n l r hl.ne_null,
      List.length_append]
    omega

theorem Full.code_length_le {t : HuffmanNode} (h : Full t) :
    ∀ e ∈ codes t, e.2.length ≤ internalCount t := by
  induction h with
  | leaf c n =>
    intro e he
    rw [codes_leaf] at he
    simp only [List.mem_singleton] at he
    subst he
    simp
  | internal c n l r hl hr ih1 ih2 =>
    intro e he
    rw [codes_internal c n l r hl.ne_null] at he
    rw [internalCount_internal c n l r hl.ne_null]
    rcases List.mem_append.mp he with h1 | h1
    · obtain ⟨a, ha, rfl⟩ := List.mem_map.mp h1
      have := ih1 a ha
      simp only [List.length_cons]
      omega
    · obtain ⟨a, ha, rfl⟩ := List.mem_map.mp h1
      have := ih2 a ha
      simp only [List.length_cons]
      omega

theorem countOr0_put (m : hashmap) (k v k' : Int) :
    countOr0 (m.put k v) k' = if k = k' then v else countOr0 m k' := by
  unfold countOr0
  rw [hashmap_get_put]
  by_cases h : k = k'
  · simp [h]
  · simp [h]

theorem sum_put_frequency (f : Int → Int) (m : hashmap) (k v : Int) :
    ((m.put k v).map fun e => e.2 * f e.1).sum =
      (m.map fun e => e.2 * f e.1).sum + (v - countOr0 m k) * f k := by
  induction m with
  | nil => simp [hashmap.put, countOr0, hashmap.get]
  | cons e t ih =>
    obtain ⟨k0, v0⟩ := e
    by_cases h : k0 = k
    · subst h
      have hc : countOr0 ((k0, v0) :: t) k0 = v0 := by simp [countOr0, hashmap.get]
      simp only [hashmap.put, if_true, hc, List.map_cons, List.sum_cons]
      ring
    · have hc : countOr0 ((k0, v0) :: t) k = countOr0 t k := by
        simp [countOr0, hashmap.get, h]
      simp only [hashmap.put, if_neg h, hc, List.map_cons, List.sum_cons, ih]
      ring

theorem countChars_sum (f : Int → Int) :
    ∀ (S : List CChar) (m m' : hashmap) (B : Nat), countChars S m = .ok m' →
      (∀ k, 0 ≤ countOr0 m k ∧ countOr0 m k ≤ B) → B + S.length < 2 ^ 31 →
      (m'.map fun e => e.2 * f e.1).sum =
        (m.map fun e => e.2 * f e.1).sum + (S.map fun c => f (charToInt c)).sum := by
  intro S
  induction S with
  | nil =>
    intro m m' B h _ _
    simp only [countChars, Pure.pure, Except.pure] at h
    cases h
    simp
  | cons c rest ih =>
    intro m m' B h hB hlen
    simp only [countChars, putFrequency_eq, Bind.bind, Except.bind] at h
    simp only [List.length_cons] at hlen
    have hb := hB (charToInt c)
    have hw : wrapInt (countOr0 m (charToInt c) + 1) = countOr0 m (charToInt c) + 1 :=
      wrapInt_of_fits _ (by omega) (by omega)
    rw [hw] at h
    have hB' : ∀ k, 0 ≤ countOr0 (m.put (charToInt c) (countOr0 m (charToInt c) + 1)) k ∧
        countOr0 (m.put (charToInt c) (countOr0 m (charToInt c) + 1)) k ≤ ((B + 1 : Nat) : Int) := by
      intro k
      rw [countOr0_put]
      have hk := hB k
      by_cases hck : charToInt c = k
      · rw [if_pos hck]
        push_cast
        omega
      · rw [if_neg hck]
        push_cast
        omega
    rw [ih _ _ (B + 1) h hB' (by omega), sum_put_frequency]
    simp only [List.map_cons, List.sum_cons]
    ring

/-- Summing over the entries of the table made from an input `S` of fewer than
`2^31` characters, each weighted by its count, is summing over the characters
of `S` and the end-of-stream symbol. -/
theorem buildFrequencyMap_sum (f : Int → Int) (S : List CChar) (isFile : Bool)
    (built : hashmap) (h : buildFrequencyMap S isFile [] = .ok built)
    (hlen : S.length < 2 ^ 31) :
    (built.map fun e => e.2 * f e.1).sum =
      (S.map fun c => f (charToInt c)).sum + f PSEUDO_EOF := by
  unfold buildFrequencyMap at h
  have h' : (countChars S [] >>= fun m => putFrequency m PSEUDO_EOF) = .ok built := by
    cases isFile <;> simpa using h
  simp only [Bind.bind, Except.bind] at h'
  cases hc : countChars S [] with
  | error e => rw [hc] at h'; cases h'
  | ok m =>
    rw [hc] at h'
    simp only [putFrequency_eq] at h'
    cases h'
    have h0 : countOr0 m PSEUDO_EOF = 0 := by
      obtain ⟨m2, e1, e2, _⟩ := countChars_spec S []
      rw [hc] at e1
      cases e1
      have ho : occurrences PSEUDO_EOF S = 0 :=
        (occurrences_eq_zero_iff _ _).mpr (fun c _ => charToInt_ne_eof c)
      unfold countOr0
      rw [e2, ho]
      rfl
    rw [h0, wrapInt_one, sum_put_frequency, h0,
      countChars_sum f S [] m 0 hc (fun k => by simp [countOr0, hashmap.get]) (by omega)]
    simp

theorem flatten_length_sum (m : mymap) :
    ∀ (S : List CChar) (cs : List string),
      List.Forall₂ (fun c p => m.get (charToInt c) = .ok p) S cs →
      ((cs.flatten.length : Nat) : Int) = (S.map fun c => codeLength m (charToInt c)).sum := by
  intro S cs h
  induction h with
  | nil => simp
  | cons hd _ ih =>
    simp only [List.flatten_cons, List.length_append, List.map_cons, List.sum_cons,
      Nat.cast_add, ih]
    simp [codeLength, hd]

/-- What `encode` returns for a code table that has a code for every input
symbol and for the end-of-stream symbol. -/
theorem encode_eq (S : List CChar) (m : mymap) (cs : List string) (eofCode : string)
    (hcs : List.Forall₂ (fun c p => m.get (charToInt c) = .ok p) S cs)
    (he : m.get PSEUDO_EOF = .ok eofCode) (output : ofbitstream) :
    encode S m output false =
        .ok (cs.flatten ++ eofCode, wrapInt ((cs.flatten ++ eofCode).length : Int), output) ∧
      ((∀ x ∈ cs.flatten ++ eofCode, x = '0' ∨ x = '1') →
        encode S m output true =
          .ok (cs.flatten ++ eofCode, wrapInt ((cs.flatten ++ eofCode).length : Int),
            output ++ bitsOf (cs.flatten ++ eofCode))) := by
  have h1 := encodeChars_flatten m S cs hcs []
  constructor
  · simp only [encode, h1, he, Bind.bind, Except.bind, Pure.pure, Except.pure,
      List.nil_append, Bool.false_eq_true, if_false]
  · intro hbits
    simp only [encode, h1, he, Bind.bind, Except.bind, Pure.pure, Except.pure,
      List.nil_append, if_true, writeBits_eq _ _ hbits]

/-- The weighted path length below a node is the sum over its leaves of the
count times the depth, the depth being the length of the code. -/
theorem weplFrom_eq_code_sum {t : HuffmanNode} (h : Full t) :
    ∀ (d : Nat) (cl : Int → Int), (∀ e ∈ codes t, cl e.1 = (e.2.length : Int)) →
      weplFrom d t = ((leaves t).map fun e => e.2 * ((d : Int) + cl e.1)).sum := by
  induction h with
  | leaf c n =>
    intro d cl hcl
    have := hcl (c, []) (by simp [codes_leaf])
    simp only [List.length_nil, Nat.cast_zero] at this
    simp [weplFrom_leaf, leaves_leaf, this]
  | internal c n l r hl hr ih1 ih2 =>
    intro d cl hcl
    rw [codes_internal c n l r hl.ne_null] at hcl
    rw [weplFrom_internal d c n l r hl.ne_null, leaves_internal c n l r hl.ne_null,
      List.map_append, List.sum_append]
    have h1 := ih1 (d + 1) (fun k => cl k - 1) (by
      intro e he
      have := hcl (e.1, '0' :: e.2) (List.mem_append_left _ (List.mem_map.mpr ⟨e, he, rfl⟩))
      simp only [List.length_cons, Nat.cast_add, Nat.cast_one] at this
      show cl e.1 - 1 = (e.2.length : Int)
      omega)
    have h2 := ih2 (d + 1) (fun k => cl k - 1) (by
      intro e he
      have := hcl (e.1, '1' :: e.2) (List.mem_append_right _ (List.mem_map.mpr ⟨e, he, rfl⟩))
      simp only [List.length_cons, Nat.cast_add, Nat.cast_one] at this
      show cl e.1 - 1 = (e.2.length : Int)
      omega)
    rw [h1, h2]
    congr 1
    · apply congrArg
      apply List.map_congr_left
      intro e _
      push_cast
      ring
    · apply congrArg
      apply List.map_congr_left
      intro e _
      push_cast
      ring

theorem isNodeOf_self {t : HuffmanNode} (h : t ≠ .nullptr) : IsNodeOf t t := by
  cases t with
  | nullptr => exact absurd rfl h
  | node c n z o => exact IsNodeOf.root c n z o

theorem IsNodeOf.children {s t : HuffmanNode} (h : IsNodeOf s t) :
    ∀ (c n : Int) (z o : HuffmanNode), s = .node c n z o →
      (z ≠ .nullptr → IsNodeOf z t) ∧ (o ≠ .nullptr → IsNodeOf o t) := by
  induction h with
  | root c' n' z' o' =>
    intro c n z o hs
    cases hs
    exact ⟨fun hz => IsNodeOf.zero _ _ _ _ _ (isNodeOf_self hz),
      fun ho => IsNodeOf.one _ _ _ _ _ (isNodeOf_self ho)⟩
  | zero s c' n' z' o' _ ih =>
    intro c n z o hs
    obtain ⟨h1, h2⟩ := ih c n z o hs
    exact ⟨fun hz => IsNodeOf.zero _ _ _ _ _ (h1 hz), fun ho => IsNodeOf.zero _ _ _ _ _ (h2 ho)⟩
  | one s c' n' z' o' _ ih =>
    intro c n z o hs
    obtain ⟨h1, h2⟩ := ih c n z o hs
    exact ⟨fun hz => IsNodeOf.one _ _ _ _ _ (h1 hz), fun ho => IsNodeOf.one _ _ _ _ _ (h2 ho)⟩

/-- On a merged tree with at least two leaves, none of them `NOT_A_CHAR`, every
value of the cursor of `decode` is a node of the tree from which the loop can go
on, and the loop reads no more bits than the input holds. -/
theorem decodeCursors_on_tree (cnt : Int) (l r : HuffmanNode)
    (hl : Merged l ∧ ∀ e ∈ leaves l, e.1 ≠ NOT_A_CHAR)
    (hr : Merged r ∧ ∀ e ∈ leaves r, e.1 ≠ NOT_A_CHAR) :
    ∀ (input : List Bool) (s : HuffmanNode), Merged s → (∀ e ∈ leaves s, e.1 ≠ NOT_A_CHAR) →
      IsNodeOf s (.node NOT_A_CHAR cnt l r) →
      (∀ cur ∈ decodeCursors (.node NOT_A_CHAR cnt l r) input s,
        IsNodeOf cur (.node NOT_A_CHAR cnt l r) ∧ WellBranched cur) ∧
      decodeReads (.node NOT_A_CHAR cnt l r) input s ≤ input.length ∧
      (decodeCursors (.node NOT_A_CHAR cnt l r) input s).length ≤ input.length + 1 := by
  have hroot := IsNodeOf.root NOT_A_CHAR cnt l r
  have hlr := hroot.children NOT_A_CHAR cnt l r rfl
  have hln := hlr.1 hl.1.ne_nullptr
  have hrn := hlr.2 hr.1.ne_nullptr
  intro input
  induction input with
  | nil =>
    intro s hs hc hn
    cases hs with
    | leaf c n =>
      have h2 : c ≠ NOT_A_CHAR := hc (c, n) (by simp [leaves_leaf])
      refine ⟨?_, by simp [decodeReads], by
        simp only [decodeCursors]; split <;> simp⟩
      intro cur hcur
      have : cur = .node c n .nullptr .nullptr := by
        simp only [decodeCursors] at hcur
        split at hcur <;> simpa using hcur
      subst this
      exact ⟨hn, Or.inl ⟨h2, rfl, rfl⟩⟩
    | internal l' r' hl' hr' =>
      refine ⟨?_, by simp [decodeReads], by simp [decodeCursors, nac_ne_eof]⟩
      intro cur hcur
      have : cur = .node NOT_A_CHAR (wrapInt (l'.count + r'.count)) l' r' := by
        simpa [decodeCursors, nac_ne_eof] using hcur
      subst this
      exact ⟨hn, Or.inr ⟨rfl, hl'.ne_nullptr, hr'.ne_nullptr⟩⟩
  | cons bit rest ih =>
    intro s hs hc hn
    cases hs with
    | leaf c n =>
      have h2 : c ≠ NOT_A_CHAR := hc (c, n) (by simp [leaves_leaf])
      have hself : IsNodeOf (.node c n .nullptr .nullptr) (.node NOT_A_CHAR cnt l r) ∧
          WellBranched (.node c n .nullptr .nullptr) := ⟨hn, Or.inl ⟨h2, rfl, rfl⟩⟩
      by_cases h1 : c = PSEUDO_EOF
      · refine ⟨?_, by simp [decodeReads, h1], by simp [decodeCursors, h1]⟩
        intro cur hcur
        have : cur = .node c n .nullptr .nullptr := by
          simpa [decodeCursors, h1] using hcur
        subst this
        exact hself
      · cases bit with
        | false =>
          obtain ⟨i1, i2, i3⟩ := ih l hl.1 hl.2 hln
          refine ⟨?_, ?_, ?_⟩
          · intro cur hcur
            simp only [decodeCursors, h1, h2, if_false, ne_eq, not_false_eq_true, decide_True,
              if_true, List.mem_cons, Bool.false_eq_true] at hcur
            rcases hcur with h | h
            · subst h; exact hself
            · exact i1 cur h
          · simp only [decodeReads, h1, h2, if_false, ne_eq, not_false_eq_true, decide_True,
              if_true, List.length_cons, Bool.false_eq_true]
            omega
          · simp only [decodeCursors, h1, h2, if_false, ne_eq, not_false_eq_true, decide_True,
              if_true, List.length_cons, Bool.false_eq_true]
            omega
        | true =>
          obtain ⟨i1, i2, i3⟩ := ih r hr.1 hr.2 hrn
          refine ⟨?_, ?_, ?_⟩
          · intro cur hcur
            simp only [decodeCursors, h1, h2, if_false, ne_eq, not_false_eq_true, decide_True,
              if_true, List.mem_cons] at hcur
            rcases hcur with h | h
            · subst h; exact hself
            · exact i1 cur h
          · simp only [decodeReads, h1, h2, if_false, ne_eq, not_false_eq_true, decide_True,
              if_true, List.length_cons]
            omega
          · simp only [decodeCursors, h1, h2, if_false, ne_eq, not_false_eq_true, decide_True,
              if_true, List.length_cons]
            omega
    | internal l' r' hl' hr' =>
      rw [leaves_internal _ _ l' r' hl'.ne_nullptr] at hc
      have hself : IsNodeOf (.node NOT_A_CHAR (wrapInt (l'.count + r'.count)) l' r')
          (.node NOT_A_CHAR cnt l r) ∧
          WellBranched (.node NOT_A_CHAR (wrapInt (l'.count + r'.count)) l' r') :=
        ⟨hn, Or.inr ⟨rfl, hl'.ne_nullptr, hr'.ne_nullptr⟩⟩
      have hch := hn.children _ _ _ _ rfl
      cases bit with
      | false =>
        obtain ⟨i1, i2, i3⟩ := ih l' hl' (fun e he => hc e (List.mem_append_left _ he))
          (hch.1 hl'.ne_nullptr)
        refine ⟨?_, ?_, ?_⟩
        · intro cur hcur
          simp only [decodeCursors, nac_ne_eof, if_false, ne_eq, not_true_eq_false,
            decide_False, Bool.false_eq_true, List.mem_cons] at hcur
          rcases hcur with h | h
          · subst h; exact hself
          · exact i1 cur h
        · simp only [decodeReads, nac_ne_eof, if_false, ne_eq, not_true_eq_false,
            decide_False, Bool.false_eq_true, List.length_cons]
          omega
        · simp only [decodeCursors, nac_ne_eof, if_false, ne_eq, not_true_eq_false,
            decide_False, Bool.false_eq_true, List.length_cons]
          omega
      | true =>
        obtain ⟨i1, i2, i3⟩ := ih r' hr' (fun e he => hc e (List.mem_append_right _ he))
          (hch.2 hr'.ne_nullptr)
        refine ⟨?_, ?_, ?_⟩
        · intro cur hcur
          simp only [decodeCursors, nac_ne_eof, if_false, ne_eq, not_true_eq_false,
            decide_False, Bool.false_eq_true, List.mem_cons, if_true] at hcur
          rcases hcur with h | h
          · subst h; exact hself
          · exact i1 cur h
        · simp only [decodeReads, nac_ne_eof, if_false, ne_eq, not_true_eq_false,
            decide_False, Bool.false_eq_true, List.length_cons, if_true]
          omega
        · simp only [decodeCursors, nac_ne_eof, if_false, ne_eq, not_true_eq_false,
            decide_False, Bool.false_eq_true, List.length_cons, if_true]
          omega

theorem Full.height_le_internal {t : HuffmanNode} (h : Full t) :
    height t ≤ internalCount t := by
  induction h with
  | leaf c n => simp [height]
  | internal c n l r hl hr ih1 ih2 =>
    rw [height_internal c n l r hl.ne_null, internalCount_internal c n l r hl.ne_null]
    omega

/-- The code table built from a list of entries with distinct keys has a code
for exactly the keys of the list. -/
theorem get_putAll_iff (kvs : List (Int × string)) (hnd : (kvs.map Prod.fst).Nodup) (k : Int) :
    (∃ p, (putAll [] kvs).get k = .ok p) ↔ k ∈ kvs.map Prod.fst := by
  constructor
  · rintro ⟨p, hp⟩
    exact List.mem_map.mpr ⟨(k, p), mem_of_get_putAll kvs hnd k p hp, rfl⟩
  · intro hk
    obtain ⟨e, he, rfl⟩ := List.mem_map.mp hk
    exact ⟨e.2, get_putAll_of_mem kvs [] e.1 e.2 hnd he⟩

/-- The record of cursors agrees with the loop of `decode`: the loop has no
defined result exactly when a null cursor is recorded. -/
theorem decodeLoop_fault_iff (tree : HuffmanNode) :
    ∀ (input : List Bool) (s : HuffmanNode) (dec out : List CChar),
      (∃ e, decodeLoop tree input s dec out = .error e) ↔
        HuffmanNode.nullptr ∈ decodeCursors tree input s := by
  intro input
  induction input with
  | nil =>
    intro s dec out
    cases s with
    | nullptr => simp [decodeLoop, decodeCursors]
    | node ch cnt z o =>
      by_cases h1 : ch = PSEUDO_EOF
      · simp [decodeLoop, decodeCursors, h1]
      · simp [decodeLoop, decodeCursors, h1]
  | cons bit rest ih =>
    intro s dec out
    cases s with
    | nullptr => simp [decodeLoop, decodeCursors]
    | node ch cnt z o =>
      by_cases h1 : ch = PSEUDO_EOF
      · simp [decodeLoop, decodeCursors, h1]
      · by_cases h2 : ch = NOT_A_CHAR
        · subst h2
          simp only [decodeLoop, decodeCursors, nac_ne_eof, if_false, ne_eq, not_true_eq_false,
            decide_False, Bool.false_eq_true, List.mem_cons]
          rw [ih]
          simp
        · cases tree with
          | nullptr =>
            simp [decodeLoop, decodeCursors, h1, h2]
          | node tc tn tz t1 =>
            simp only [decodeLoop, decodeCursors, h1, h2, if_false, ne_eq, not_false_eq_true,
              decide_True, if_true, List.mem_cons]
            rw [ih]
            simp

theorem occurrences_le_length (k : Int) (S : List CChar) : occurrences k S ≤ S.length := by
  unfold occurrences
  have := List.count_le_length k (S.map charToInt)
  simpa using this

/-- The loop of `putFrequency` on `n + 1` copies of one character, from a map
holding that character alone. -/
theorem countChars_replicate (c : CChar) :
    ∀ (n : Nat) (v : Int),
      countChars (List.replicate (n + 1) c) [(charToInt c, v)] =
        .ok [(charToInt c, wrapInt (v + ((n + 1 : Nat) : Int)))] := by
  intro n
  induction n with
  | zero =>
    intro v
    simp [countChars, putFrequency, hashmap.containsKey, hashmap.get, hashmap.put, Bind.bind,
      Except.bind, Pure.pure, Except.pure]
  | succ n ih =>
    intro v
    rw [List.replicate_succ]
    have h1 : putFrequency [(charToInt c, v)] (charToInt c) =
        .ok [(charToInt c, wrapInt (v + 1))] := by
      simp [putFrequency, hashmap.containsKey, hashmap.get, hashmap.put, Bind.bind,
        Except.bind, Pure.pure, Except.pure]
    rw [countChars, h1]
    show countChars (List.replicate (n + 1) c) [(charToInt c, wrapInt (v + 1))] = _
    rw [ih, wrapInt_wrapInt_add]
    congr 4
    push_cast
    ring

/-- The table made from `n + 2` copies of one character. -/
theorem buildFrequencyMap_replicate (c : CChar) (n : Nat) (isFile : Bool) :
    buildFrequencyMap (List.replicate (n + 2) c) isFile [] =
      .ok [(charToInt c, wrapInt ((n + 2 : Nat) : Int)), (PSEUDO_EOF, 1)] := by
  have h0 : countChars (List.replicate (n + 2) c) [] =
      .ok [(charToInt c, wrapInt ((n + 2 : Nat) : Int))] := by
    rw [List.replicate_succ]
    have h1 : putFrequency [] (charToInt c) = .ok [(charToInt c, 1)] := by
      simp [putFrequency, hashmap.containsKey, hashmap.put, Pure.pure, Except.pure]
    rw [countChars, h1]
    show countChars (List.replicate (n + 1) c) [(charToInt c, 1)] = _
    rw [countChars_replicate]
    congr 4
    push_cast
    ring
  have h2 : putFrequency [(charToInt c, wrapInt ((n + 2 : Nat) : Int))] PSEUDO_EOF =
      .ok [(charToInt c, wrapInt ((n + 2 : Nat) : Int)), (PSEUDO_EOF, 1)] := by
    simp [putFrequency, hashmap.containsKey, hashmap.put, charToInt_ne_eof, Pure.pure,
      Except.pure]
  unfold buildFrequencyMap
  cases isFile
  · simp only [Bool.false_eq_true, if_false, h0]
    exact h2
  · simp only [if_true, h0]
    exact h2

/-- The first loop of `encode` on `n` copies of a character whose code is the
single character `x`. -/
theorem encodeChars_replicate (m : mymap) (c : CChar) (x : Char)
    (hc : m.get (charToInt c) = .ok [x]) :
    ∀ (n : Nat) (acc : string),
      encodeChars m (List.replicate n c) acc = .ok (acc ++ List.replicate n x) := by
  intro n
  induction n with
  | zero => intro acc; simp [encodeChars, Pure.pure, Except.pure]
  | succ n ih =>
    intro acc
    rw [List.replicate_succ, List.replicate_succ, encodeChars, hc]
    show encodeChars m (List.replicate n c) (acc ++ [x]) = _
    rw [ih, List.append_assoc]
    rfl

/-- What `encode` returns on `n` copies of a character whose code is the single
character `x`. -/
theorem encode_replicate (m : mymap) (c : CChar) (x : Char) (e : string) (n : Nat)
    (hc : m.get (charToInt c) = .ok [x]) (he : m.get PSEUDO_EOF = .ok e)
    (output : ofbitstream) :
    encode (List.replicate n c) m output false =
        .ok (List.replicate n x ++ e, wrapInt ((n + e.length : Nat) : Int), output) ∧
      ((∀ y ∈ List.replicate n x ++ e, y = '0' ∨ y = '1') →
        encode (List.replicate n c) m output true =
          .ok (List.replicate n x ++ e, wrapInt ((n + e.length : Nat) : Int),
            output ++ bitsOf (List.replicate n x ++ e))) := by
  have h1 := encodeChars_replicate m c x hc n []
  constructor
  · simp only [encode, h1, he, Bind.bind, Except.bind, Pure.pure, Except.pure,
      List.nil_append, Bool.false_eq_true, if_false, List.length_append, List.length_replicate]
  · intro hbits
    simp only [encode, h1, he, Bind.bind, Except.bind, Pure.pure, Except.pure,
      List.nil_append, if_true, writeBits_eq _ _ hbits, List.length_append,
      List.length_replicate]

theorem forall2_length_le_flatten (m : mymap)
    (hne : ∀ k p, m.get k = .ok p → p ≠ []) :
    ∀ (S : List CChar) (cs : List string),
      List.Forall₂ (fun c p => m.get (charToInt c) = .ok p) S cs →
      S.length ≤ cs.flatten.length := by
  intro S cs h
  induction h with
  | nil => simp
  | @cons c p S1 cs1 hd _ ih =>
    have := hne _ _ hd
    have hp : 1 ≤ p.length := by
      cases p with
      | nil => exact absurd rfl this
      | cons _ _ => simp
    simp only [List.length_cons, List.flatten_cons, List.length_append]
    omega

/-! ## The verified properties -/

/-- C1 (round trip). For every input `S` (empty or not) and every table that holds
the entries made by `buildFrequencyMap` from `S`, in whichever order `keys()`
lists them: the tree and the code table are built, `encode` returns a bit-string
`str` and writes its bits, and `decode` of those bits with the same tree returns
exactly `S`; the end-of-stream symbol is consumed and not emitted. -/
theorem round_trip (S : List CChar) (isFile : Bool) (built table : hashmap)
    (hb : buildFrequencyMap S isFile [] = .ok built) (hp : table ~ built) :
    ∃ tree encodingMap str size,
      buildEncodingTree table = .ok tree ∧
      buildEncodingMap tree = .ok encodingMap ∧
      encode S encodingMap [] true = .ok (str, size, bitsOf str) ∧
      decode (bitsOf str) tree [] = .ok (S, S) := by
  obtain ⟨h1, h2, h3, h4⟩ := table_of_input S isFile built table hb hp
  obtain ⟨tree, m, str, ht, hm, he, _, _, hd⟩ := roundtrip_core S table h1 h2 h3 h4
  refine ⟨tree, m, str, wrapInt str.length, ht, hm, ?_, ?_⟩
  · have := he []
    simpa using this
  · have := hd [] []
    simpa using this

/-- Witness of C1 at `S = "aaab"`, whose table is `{a:3, b:1, EOF:1}`. -/
theorem round_trip_witness :
    (buildFrequencyMap [97, 97, 97, 98] false [] = .ok [(97, 3), (98, 1), (256, 1)] ∧
      [(97, 3), (98, 1), (256, 1)] ~ [(97, 3), (98, 1), (256, 1)]) ∧
    ∃ tree encodingMap str size,
      buildEncodingTree [(97, 3), (98, 1), (256, 1)] = .ok tree ∧
      buildEncodingMap tree = .ok encodingMap ∧
      encode [97, 97, 97, 98] encodingMap [] true = .ok (str, size, bitsOf str) ∧
      decode (bitsOf str) tree [] = .ok ([97, 97, 97, 98], [97, 97, 97, 98]) :=
  ⟨⟨rfl, List.Perm.refl _⟩,
    round_trip [97, 97, 97, 98] false [(97, 3), (98, 1), (256, 1)] [(97, 3), (98, 1), (256, 1)]
      rfl (List.Perm.refl _)⟩

/-- C2, counterexample. For `S = "ab"` the table is `{a:1, b:1, EOF:1}`; the same
entries listed in the reverse order give another tree, and decoding the bits
written at compression with that tree returns the empty sequence, not `S`. -/
theorem decompress_key_order_counterexample :
    buildFrequencyMap [97, 98] true [] = .ok [(97, 1), (98, 1), (256, 1)] ∧
    [(256, 1), (98, 1), (97, 1)] ~ [(97, 1), (98, 1), (256, 1)] ∧
    ∃ tree encodingMap str size written tree',
      buildEncodingTree [(97, 1), (98, 1), (256, 1)] = .ok tree ∧
      buildEncodingMap tree = .ok encodingMap ∧
      encode [97, 98] encodingMap [] true = .ok (str, size, written) ∧
      buildEncodingTree [(256, 1), (98, 1), (97, 1)] = .ok tree' ∧
      decode written tree' [] = .ok ([], []) :=
  ⟨rfl, List.reverse_perm [(97, 1), (98, 1), (256, 1)],
    _, _, _, _, _, _, rfl, rfl, rfl, rfl, rfl⟩

/-- C2, amended. When the table read back at decompression lists the same keys
in the same order with the same counts as the table used at compression, the
tree rebuilt from it decodes the compressed bits to exactly `S`. -/
theorem decompress_same_order (S : List CChar) (isFile : Bool)
    (built tableC tableD : hashmap)
    (hb : buildFrequencyMap S isFile [] = .ok built) (hp : tableC ~ built)
    (hk : tableD.keys = tableC.keys) (hv : ∀ k, tableD.get k = tableC.get k) :
    ∃ treeC encodingMap str size treeD,
      buildEncodingTree tableC = .ok treeC ∧
      buildEncodingMap treeC = .ok encodingMap ∧
      encode S encodingMap [] true = .ok (str, size, bitsOf str) ∧
      buildEncodingTree tableD = .ok treeD ∧
      decode (bitsOf str) treeD [] = .ok (S, S) := by
  obtain ⟨h1, h2, h3, h4⟩ := table_of_input S isFile built tableC hb hp
  have heq : tableD = tableC := hashmap_eq_of_keys tableC tableD h1 hk hv
  subst heq
  obtain ⟨tree, m, str, ht, hm, he, _, _, hd⟩ := roundtrip_core S tableD h1 h2 h3 h4
  refine ⟨tree, m, str, wrapInt str.length, tree, ht, hm, ?_, ht, ?_⟩
  · have := he []
    simpa using this
  · have := hd [] []
    simpa using this

/-- Witness of the amended C2 at `S = "ab"`. -/
theorem decompress_same_order_witness :
    (buildFrequencyMap [97, 98] true [] = .ok [(97, 1), (98, 1), (256, 1)] ∧
      [(256, 1), (98, 1), (97, 1)] ~ [(97, 1), (98, 1), (256, 1)] ∧
      hashmap.keys [(256, 1), (98, 1), (97, 1)] = hashmap.keys [(256, 1), (98, 1), (97, 1)] ∧
      ∀ k, hashmap.get [(256, 1), (98, 1), (97, 1)] k =
        hashmap.get [(256, 1), (98, 1), (97, 1)] k) ∧
    ∃ treeC encodingMap str size treeD,
      buildEncodingTree [(256, 1), (98, 1), (97, 1)] = .ok treeC ∧
      buildEncodingMap treeC = .ok encodingMap ∧
      encode [97, 98] encodingMap [] true = .ok (str, size, bitsOf str) ∧
      buildEncodingTree [(256, 1), (98, 1), (97, 1)] = .ok treeD ∧
      decode (bitsOf str) treeD [] = .ok ([97, 98], [97, 98]) :=
  ⟨⟨rfl, List.reverse_perm [(97, 1), (98, 1), (256, 1)], rfl, fun _ => rfl⟩,
    decompress_same_order [97, 98] true [(97, 1), (98, 1), (256, 1)]
      [(256, 1), (98, 1), (97, 1)] [(256, 1), (98, 1), (97, 1)] rfl
      (List.reverse_perm [(97, 1), (98, 1), (256, 1)]) rfl (fun _ => rfl)⟩

/-- C3 (prefix-free). For every non-empty table with distinct keys (in particular
every table with at least two entries) the tree is built, and in every code table
that `buildEncodingMap` produces from it the codes of two distinct symbols are
never a prefix of one another; a code table is produced whenever the table has no
`NOT_A_CHAR` key. -/
theorem prefix_free (table : hashmap) (hnd : table.keys.Nodup) (hne : table ≠ []) :
    ∃ tree, buildEncodingTree table = .ok tree ∧
      (NOT_A_CHAR ∉ table.keys → ∃ encodingMap, buildEncodingMap tree = .ok encodingMap) ∧
      ∀ encodingMap, buildEncodingMap tree = .ok encodingMap →
        ∀ (s1 s2 : Int) (c1 c2 : string), s1 ≠ s2 →
          encodingMap.get s1 = .ok c1 → encodingMap.get s2 = .ok c2 →
          ¬ c1 <+: c2 ∧ ¬ c2 <+: c1 := by
  obtain ⟨tree, hbt, hm, hlv, _⟩ := buildEncodingTree_merged table hnd hne
  refine ⟨tree, hbt, ?_, ?_⟩
  · intro hnac
    refine ⟨_, buildEncodingMap_eq hm ?_⟩
    intro e he hc
    exact hnac (List.mem_map.mpr ⟨e, hlv.mem_iff.mp he, hc⟩)
  · intro m hbm s1 s2 c1 c2 hs h1 h2
    have hc := buildBinary_ok_leaves hm [] [] m hbm
    rw [buildEncodingMap_eq hm hc] at hbm
    cases hbm
    have hndc : ((codes tree).map Prod.fst).Nodup := by
      rw [codes_fst]
      exact (hlv.map Prod.fst).nodup_iff.mpr hnd
    have m1 := mem_of_get_putAll _ hndc s1 c1 h1
    have m2 := mem_of_get_putAll _ hndc s2 c2 h2
    have hsym : Symmetric (fun e1 e2 : Int × string => ¬ e1.2 <+: e2.2 ∧ ¬ e2.2 <+: e1.2) :=
      fun _ _ h => ⟨h.2, h.1⟩
    exact (codes_prefix_free hm.full).forall hsym m1 m2
      (fun h => hs (congrArg Prod.fst h))

/-- Witness of C3 at the table of `"aaab"`. -/
theorem prefix_free_witness :
    ((hashmap.keys [(97, 3), (98, 1), (256, 1)]).Nodup ∧
      ([(97, 3), (98, 1), (256, 1)] : hashmap) ≠ []) ∧
    ∃ tree, buildEncodingTree [(97, 3), (98, 1), (256, 1)] = .ok tree ∧
      (NOT_A_CHAR ∉ hashmap.keys [(97, 3), (98, 1), (256, 1)] →
        ∃ encodingMap, buildEncodingMap tree = .ok encodingMap) ∧
      ∀ encodingMap, buildEncodingMap tree = .ok encodingMap →
        ∀ (s1 s2 : Int) (c1 c2 : string), s1 ≠ s2 →
          encodingMap.get s1 = .ok c1 → encodingMap.get s2 = .ok c2 →
          ¬ c1 <+: c2 ∧ ¬ c2 <+: c1 :=
  ⟨⟨by decide, by decide⟩, prefix_free [(97, 3), (98, 1), (256, 1)] (by decide) (by decide)⟩

/-- C4 (optimality), amended. For every non-empty table with distinct keys, no
negative count and counts adding up to less than `2^31` (so that no `int` sum of
the merge loop overflows), the tree that `buildEncodingTree` returns is a proper
binary tree whose leaves are the entries of the table, and its weighted external
path length is at most that of every binary tree whose leaves are the entries of
the table (nodes with a single child allowed). -/
theorem optimality (table : hashmap) (hnd : table.keys.Nodup) (hne : table ≠ [])
    (hpos : ∀ e ∈ table, 0 ≤ e.2) (hsum : (table.map Prod.snd).sum < 2 ^ 31) :
    ∃ tree, buildEncodingTree table = .ok tree ∧ Full tree ∧ leaves tree ~ table ∧
      ∀ u, leaves u ~ table → wepl tree ≤ wepl u := by
  obtain ⟨tree, hbt, hg⟩ := buildEncodingTree_spec table hnd hne
  have hm := hg.merged (merged_leafOf table)
  have hlv : leaves tree ~ table := by
    have := hg.leaves_perm (merged_leafOf table)
    rwa [flatMap_leaves_leafOf] at this
  have hfull : ∀ u, Full u → leaves u ~ table → wepl tree ≤ wepl u := by
    intro u hu hul
    have hopt := hg.optimal (merged_leafOf table)
      (by rw [flatMap_leaves_leafOf]; exact hpos)
      (by rw [flatMap_leaves_leafOf]; exact hsum)
      (leafDepths 0 u) ⟨u, hu, List.Perm.refl _⟩
      (by
        rw [leafDepths_fst, map_count_leafOf]
        exact hul.map Prod.snd)
    have hz : ((table.map leafOf).map wepl).sum = 0 := by
      apply List.sum_eq_zero
      intro x hx
      obtain ⟨t, ht, rfl⟩ := List.mem_map.mp hx
      obtain ⟨e, _, rfl⟩ := List.mem_map.mp ht
      simp [wepl, leafOf, weplFrom_leaf]
    rw [hz, add_zero, ← weplFrom_eq_assignCost] at hopt
    exact hopt
  refine ⟨tree, hbt, hm.full, hlv, ?_⟩
  intro u hul
  have hun : u ≠ .nullptr := by
    intro h
    rw [h] at hul
    have := hul.length_eq
    simp only [leaves, List.length_nil] at this
    exact hne (List.length_eq_zero.mp this.symm)
  obtain ⟨v, hv, hvl, hvc⟩ := exists_full_le u hun
    (fun e he => hpos e (hul.mem_iff.mp he))
  exact le_trans (hfull v hv (by rw [hvl]; exact hul)) (hvc 0)

/-- Witness of C4 at the table of `"aaab"`. -/
theorem optimality_witness :
    ((hashmap.keys [(97, 3), (98, 1), (256, 1)]).Nodup ∧
      ([(97, 3), (98, 1), (256, 1)] : hashmap) ≠ [] ∧
      (∀ e ∈ ([(97, 3), (98, 1), (256, 1)] : hashmap), 0 ≤ e.2) ∧
      (([(97, 3), (98, 1), (256, 1)] : hashmap).map Prod.snd).sum < 2 ^ 31) ∧
    ∃ tree, buildEncodingTree [(97, 3), (98, 1), (256, 1)] = .ok tree ∧ Full tree ∧
      leaves tree ~ [(97, 3), (98, 1), (256, 1)] ∧
      ∀ u, leaves u ~ [(97, 3), (98, 1), (256, 1)] → wepl tree ≤ wepl u :=
  ⟨⟨by decide, by decide, by decide, by decide⟩,
    optimality [(97, 3), (98, 1), (256, 1)] (by decide) (by decide) (by decide) (by decide)⟩

/-- Counterexample to C4 as stated. On four entries of count `2^31 - 1` the
`int` sum of the first two nodes removed wraps to `-2`; that parent is removed
again at once, and the tree returned has its leaves at depths 3, 3, 2, 1, with
weighted path length `9 * (2^31 - 1)`. The balanced tree on the same four
entries has weighted path length `8 * (2^31 - 1)`. -/
theorem optimality_counterexample :
    buildEncodingTree
        [(1, 2147483647), (2, 2147483647), (3, 2147483647), (4, 2147483647)] =
      .ok (.node 257 (-4)
        (.node 257 2147483645
          (.node 257 (-2) (.node 1 2147483647 .nullptr .nullptr)
            (.node 3 2147483647 .nullptr .nullptr))
          (.node 4 2147483647 .nullptr .nullptr))
        (.node 2 2147483647 .nullptr .nullptr)) ∧
    wepl (.node 257 (-4)
        (.node 257 2147483645
          (.node 257 (-2) (.node 1 2147483647 .nullptr .nullptr)
            (.node 3 2147483647 .nullptr .nullptr))
          (.node 4 2147483647 .nullptr .nullptr))
        (.node 2 2147483647 .nullptr .nullptr)) = 19327352823 ∧
    leaves (.node 257 (-4)
        (.node 257 (-2) (.node 1 2147483647 .nullptr .nullptr)
          (.node 2 2147483647 .nullptr .nullptr))
        (.node 257 (-2) (.node 3 2147483647 .nullptr .nullptr)
          (.node 4 2147483647 .nullptr .nullptr))) =
      [(1, 2147483647), (2, 2147483647), (3, 2147483647), (4, 2147483647)] ∧
    wepl (.node 257 (-4)
        (.node 257 (-2) (.node 1 2147483647 .nullptr .nullptr)
          (.node 2 2147483647 .nullptr .nullptr))
        (.node 257 (-2) (.node 3 2147483647 .nullptr .nullptr)
          (.node 4 2147483647 .nullptr .nullptr))) = 17179869176 :=
  ⟨rfl, by decide, by decide, by decide⟩

/-- C5 (weight invariant), amended. For every non-empty table with distinct
keys, no negative count and counts adding up to less than `2^31`, in the tree
that `buildEncodingTree` returns every node is a leaf or has two children whose
counts add up to its own count, and the count of the root is the sum of all
counts of the table. -/
theorem weight_invariant (table : hashmap) (hnd : table.keys.Nodup) (hne : table ≠ [])
    (hpos : ∀ e ∈ table, 0 ≤ e.2) (hsum : (table.map Prod.snd).sum < 2 ^ 31) :
    ∃ tree, buildEncodingTree table = .ok tree ∧ WeightInvariant tree ∧
      tree.count = (table.map Prod.snd).sum := by
  obtain ⟨tree, hbt, hm, hlv, hc⟩ := buildEncodingTree_merged table hnd hne
  refine ⟨tree, hbt, ?_, hc hpos hsum⟩
  apply hm.weightInvariant (fun x hx => hpos x (hlv.mem_iff.mp hx))
  rw [(hlv.map Prod.snd).sum_eq]
  exact hsum

/-- Witness of C5 at the table of `"aaab"`: the root counts 5 occurrences. -/
theorem weight_invariant_witness :
    ((hashmap.keys [(97, 3), (98, 1), (256, 1)]).Nodup ∧
      ([(97, 3), (98, 1), (256, 1)] : hashmap) ≠ [] ∧
      (∀ e ∈ ([(97, 3), (98, 1), (256, 1)] : hashmap), 0 ≤ e.2) ∧
      (([(97, 3), (98, 1), (256, 1)] : hashmap).map Prod.snd).sum < 2 ^ 31) ∧
    ∃ tree, buildEncodingTree [(97, 3), (98, 1), (256, 1)] = .ok tree ∧ WeightInvariant tree ∧
      tree.count = (([(97, 3), (98, 1), (256, 1)] : hashmap).map Prod.snd).sum :=
  ⟨⟨by decide, by decide, by decide, by decide⟩,
    weight_invariant [(97, 3), (98, 1), (256, 1)] (by decide) (by decide) (by decide)
      (by decide)⟩

/-- Counterexample to C5 as stated. On the table `{97: 2^31 - 1, 256: 1}` the
`int` sum of the two counts wraps: the root that `buildEncodingTree` returns has
count `-2^31`, while its children's counts, which are all the counts of the
table, add up to `2^31`. -/
theorem weight_invariant_counterexample :
    buildEncodingTree [(97, 2147483647), (256, 1)] =
      .ok (.node 257 (-2147483648) (.node 256 1 .nullptr .nullptr)
        (.node 97 2147483647 .nullptr .nullptr)) ∧
    (([(97, 2147483647), (256, 1)] : hashmap).map Prod.snd).sum = 2147483648 ∧
    ¬ WeightInvariant (.node 257 (-2147483648) (.node 256 1 .nullptr .nullptr)
        (.node 97 2147483647 .nullptr .nullptr)) := by
  refine ⟨rfl, by decide, ?_⟩
  intro h
  rcases h.1 with ⟨h1, _⟩ | ⟨_, _, h1⟩
  · cases h1
  · exact absurd h1 (by decide)

/-- C6 (single-symbol alphabet). For every table that holds one real symbol, with
any count, and the end-of-stream symbol, the tree and the code table are built and
the two symbols get two distinct, non-empty codes. -/
theorem single_symbol_alphabet (real : CChar) (n e : Int) (table : hashmap)
    (hp : table ~ [(charToInt real, n), (PSEUDO_EOF, e)]) :
    ∃ tree encodingMap c1 c2,
      buildEncodingTree table = .ok tree ∧ buildEncodingMap tree = .ok encodingMap ∧
      encodingMap.get (charToInt real) = .ok c1 ∧ encodingMap.get PSEUDO_EOF = .ok c2 ∧
      c1 ≠ c2 ∧ c1 ≠ [] ∧ c2 ≠ [] := by
  have hk : table.keys ~ [charToInt real, PSEUDO_EOF] := hp.map Prod.fst
  have hnd : table.keys.Nodup := by
    rw [hk.nodup_iff]
    simp [charToInt_ne_eof real]
  have hne : table ≠ [] := by
    intro h; rw [h] at hp; simpa using hp.length_eq
  obtain ⟨tree, hbt, hm, hlv, _⟩ := buildEncodingTree_merged table hnd hne
  have hc : ∀ x ∈ leaves tree, x.1 ≠ NOT_A_CHAR := by
    intro x hx
    have : x ∈ [(charToInt real, n), (PSEUDO_EOF, e)] := (hlv.trans hp).mem_iff.mp hx
    simp only [List.mem_cons, List.mem_singleton, List.not_mem_nil, or_false] at this
    rcases this with h | h
    · rw [h]; exact charToInt_ne_nac real
    · rw [h]; exact nac_ne_eof.symm
  have hl2 : 2 ≤ (leaves tree).length := by
    rw [(hlv.trans hp).length_eq]; simp
  obtain ⟨l, r, rfl, hl, hr⟩ := hm.internal_of_two_leaves hl2
  have hndc : ((codes (.node NOT_A_CHAR (wrapInt (l.count + r.count)) l r)).map Prod.fst).Nodup := by
    rw [codes_fst]
    exact (hlv.map Prod.fst).nodup_iff.mpr hnd
  have hmem : ∀ k ∈ [charToInt real, PSEUDO_EOF],
      ∃ c, (k, c) ∈ codes (.node NOT_A_CHAR (wrapInt (l.count + r.count)) l r) := by
    intro k hk'
    have : k ∈ (codes (.node NOT_A_CHAR (wrapInt (l.count + r.count)) l r)).map Prod.fst := by
      rw [codes_fst]
      exact ((hlv.map Prod.fst).trans hk).mem_iff.mpr hk'
    obtain ⟨x, hx, rfl⟩ := List.mem_map.mp this
    exact ⟨x.2, hx⟩
  obtain ⟨c1, h1⟩ := hmem (charToInt real) (by simp)
  obtain ⟨c2, h2⟩ := hmem PSEUDO_EOF (by simp)
  refine ⟨_, _, c1, c2, hbt, buildEncodingMap_eq hm hc,
    get_putAll_of_mem _ _ _ _ hndc h1, get_putAll_of_mem _ _ _ _ hndc h2, ?_,
    codes_nonempty_of_internal _ _ l r hl.ne_nullptr _ h1,
    codes_nonempty_of_internal _ _ l r hl.ne_nullptr _ h2⟩
  intro heq
  have hsym : Symmetric (fun e1 e2 : Int × string => ¬ e1.2 <+: e2.2 ∧ ¬ e2.2 <+: e1.2) :=
    fun _ _ h => ⟨h.2, h.1⟩
  have := (codes_prefix_free hm.full).forall hsym h1 h2
    (fun h => charToInt_ne_eof real (congrArg Prod.fst h))
  exact this.1 (by simp [heq])

/-- Witness of C6 at the table `{a:3, EOF:1}`. -/
theorem single_symbol_alphabet_witness :
    ([(97, 3), (256, 1)] : hashmap) ~ [(charToInt 97, 3), (PSEUDO_EOF, 1)] ∧
    ∃ tree encodingMap c1 c2,
      buildEncodingTree [(97, 3), (256, 1)] = .ok tree ∧
      buildEncodingMap tree = .ok encodingMap ∧
      encodingMap.get (charToInt 97) = .ok c1 ∧ encodingMap.get PSEUDO_EOF = .ok c2 ∧
      c1 ≠ c2 ∧ c1 ≠ [] ∧ c2 ≠ [] :=
  ⟨List.Perm.refl _, single_symbol_alphabet 97 3 1 [(97, 3), (256, 1)] (List.Perm.refl _)⟩

/-- C7, counterexample. The table built from an empty input holds only the
end-of-stream symbol; `buildEncodingTree` returns the lone leaf as root, without
children, and the code table gives the symbol the empty code. -/
theorem one_leaf_counterexample :
    buildFrequencyMap [] true [] = .ok [(PSEUDO_EOF, 1)] ∧
    buildEncodingTree [(PSEUDO_EOF, 1)] = .ok (.node PSEUDO_EOF 1 .nullptr .nullptr) ∧
    buildEncodingMap (.node PSEUDO_EOF 1 .nullptr .nullptr) = .ok [(PSEUDO_EOF, [])] :=
  ⟨rfl, rfl, rfl⟩

/-- C7, amended. For a table with exactly one entry `buildEncodingTree` returns
the leaf of that entry as root, without children, and (the symbol not being
`NOT_A_CHAR`) the code table gives the symbol the empty code. -/
theorem one_leaf_is_root (k n : Int) (hk : k ≠ NOT_A_CHAR) :
    buildEncodingTree [(k, n)] = .ok (.node k n .nullptr .nullptr) ∧
    buildEncodingMap (.node k n .nullptr .nullptr) = .ok [(k, [])] := by
  constructor
  · simp [buildEncodingTree, hashmap.keys, pushLeaves, hashmap.get, priority_queue.push,
      push_heap, pushHeapAux, pushHeapLoop, mergeLoop, priority_queue.top, priority_queue.pop,
      Bind.bind, Except.bind, Pure.pure, Except.pure]
  · simp [buildEncodingMap, buildBinary, hk, mymap.put, Pure.pure, Except.pure]

/-- Witness of the amended C7 at the table `{EOF:1}`. -/
theorem one_leaf_is_root_witness :
    PSEUDO_EOF ≠ NOT_A_CHAR ∧
    buildEncodingTree [(PSEUDO_EOF, 1)] = .ok (.node PSEUDO_EOF 1 .nullptr .nullptr) ∧
    buildEncodingMap (.node PSEUDO_EOF 1 .nullptr .nullptr) = .ok [(PSEUDO_EOF, [])] :=
  ⟨by decide, one_leaf_is_root PSEUDO_EOF 1 (by decide)⟩

/-- C8, counterexample. With the tree of `"aaab"` the end-of-stream code is `01`
and `encode` writes `1110001`; on these bits without the final `01`, `decode`
returns `"aaab"` as its result and signals nothing. -/
theorem truncation_counterexample :
    ∃ tree encodingMap,
      buildEncodingTree [(97, 3), (98, 1), (256, 1)] = .ok tree ∧
      buildEncodingMap tree = .ok encodingMap ∧
      encodingMap.get PSEUDO_EOF = .ok ['0', '1'] ∧
      encode [97, 97, 97, 98] encodingMap [] true =
        .ok (['1', '1', '1', '0', '0', '0', '1'], 7,
          [true, true, true, false, false] ++ [false, true]) ∧
      decode [true, true, true, false, false] tree [] =
        .ok ([97, 97, 97, 98], [97, 97, 97, 98]) :=
  ⟨_, _, rfl, rfl, rfl, rfl, rfl⟩

/-- C8, amended. For every table with distinct keys, at least two entries and no
`NOT_A_CHAR` key, `decode` with the tree built from it returns a result on every
bit sequence: when the input is exhausted before the end-of-stream leaf is
reached, the symbols decoded so far. In particular, on the bits of `encode(S)`
whose end-of-stream code is cut short or missing it returns `S`. -/
theorem truncated_stream_result (table : hashmap) (hnd : table.keys.Nodup)
    (h2 : 2 ≤ table.length) (hnac : NOT_A_CHAR ∉ table.keys) :
    ∃ tree encodingMap,
      buildEncodingTree table = .ok tree ∧ buildEncodingMap tree = .ok encodingMap ∧
      (∀ (input : ifbitstream) (out0 : List CChar),
        ∃ decoded, decode input tree out0 = .ok (decoded, out0 ++ decoded)) ∧
      ∀ (S : List CChar) (eofCode : string), (∀ c ∈ S, charToInt c ∈ table.keys) →
        encodingMap.get PSEUDO_EOF = .ok eofCode →
        eofCode ≠ [] ∧
        ∃ (str : string) (size : Int) (payload : List Bool),
          encode S encodingMap [] true = .ok (str, size, payload ++ bitsOf eofCode) ∧
          ∀ q q' : string, eofCode = q ++ q' → q' ≠ [] →
            decode (payload ++ bitsOf q) tree [] = .ok (S, S) := by
  have hne : table ≠ [] := by
    intro h; rw [h] at h2; simp at h2
  obtain ⟨tree, hbt, hm, hlv, _⟩ := buildEncodingTree_merged table hnd hne
  have hc : ∀ x ∈ leaves tree, x.1 ≠ NOT_A_CHAR := by
    intro x hx hx2
    exact hnac (List.mem_map.mpr ⟨x, hlv.mem_iff.mp hx, hx2⟩)
  have hl2 : 2 ≤ (leaves tree).length := by rw [hlv.length_eq]; exact h2
  obtain ⟨l, r, rfl, hl, hr⟩ := hm.internal_of_two_leaves hl2
  have hkeys := hlv.map Prod.fst
  have hndl : ((leaves (.node NOT_A_CHAR (wrapInt (l.count + r.count)) l r)).map Prod.fst).Nodup :=
    hkeys.nodup_iff.mpr hnd
  have hndc : ((codes (.node NOT_A_CHAR (wrapInt (l.count + r.count)) l r)).map Prod.fst).Nodup := by
    rw [codes_fst]; exact hndl
  have hcl : ∀ x ∈ leaves l, x.1 ≠ NOT_A_CHAR := fun x hx =>
    hc x (by rw [leaves_internal _ _ l r hl.ne_nullptr]; exact List.mem_append_left _ hx)
  have hcr : ∀ x ∈ leaves r, x.1 ≠ NOT_A_CHAR := fun x hx =>
    hc x (by rw [leaves_internal _ _ l r hl.ne_nullptr]; exact List.mem_append_right _ hx)
  refine ⟨_, _, hbt, buildEncodingMap_eq hm hc, ?_, ?_⟩
  · intro input out0
    obtain ⟨d, hd⟩ := decodeLoop_total (wrapInt (l.count + r.count)) l r ⟨hl, hcl⟩ ⟨hr, hcr⟩ input _ hm hc
      [] out0
    exact ⟨d, by simpa [decode] using hd⟩
  · intro S eofCode hS hget
    have he := mem_of_get_putAll _ hndc _ _ hget
    obtain ⟨body, hb1, hb2, hb3⟩ := encode_decode_body _ l r hm hc hndl S
      (fun c hc' => hkeys.mem_iff.mpr (hS c hc'))
    have hall : ∀ x ∈ body ++ eofCode, x = '0' ∨ x = '1' := by
      intro x hx
      rcases List.mem_append.mp hx with h | h
      · exact hb2 x h
      · exact codes_bits _ _ he x h
    refine ⟨codes_nonempty_of_internal _ _ l r hl.ne_nullptr _ he,
      body ++ eofCode, wrapInt ((body ++ eofCode).length : Int), bitsOf body, ?_, ?_⟩
    · simp only [encode, hb1, hget, Bind.bind, Except.bind, Pure.pure, Except.pure,
        List.nil_append, if_true, writeBits_eq _ _ hall, bitsOf_append]
    · intro q q' hq hq'
      unfold decode
      rw [hb3, decodeLoop_cut _ hm _ he q q' hq hq']
      simp

/-- Witness of the amended C8 at the table of `"aaab"`. -/
theorem truncated_stream_result_witness :
    ((hashmap.keys [(97, 3), (98, 1), (256, 1)]).Nodup ∧
      2 ≤ ([(97, 3), (98, 1), (256, 1)] : hashmap).length ∧
      NOT_A_CHAR ∉ hashmap.keys [(97, 3), (98, 1), (256, 1)]) ∧
    ∃ tree encodingMap,
      buildEncodingTree [(97, 3), (98, 1), (256, 1)] = .ok tree ∧
      buildEncodingMap tree = .ok encodingMap ∧
      (∀ (input : ifbitstream) (out0 : List CChar),
        ∃ decoded, decode input tree out0 = .ok (decoded, out0 ++ decoded)) ∧
      ∀ (S : List CChar) (eofCode : string),
        (∀ c ∈ S, charToInt c ∈ hashmap.keys [(97, 3), (98, 1), (256, 1)]) →
        encodingMap.get PSEUDO_EOF = .ok eofCode →
        eofCode ≠ [] ∧
        ∃ (str : string) (size : Int) (payload : List Bool),
          encode S encodingMap [] true = .ok (str, size, payload ++ bitsOf eofCode) ∧
          ∀ q q' : string, eofCode = q ++ q' → q' ≠ [] →
            decode (payload ++ bitsOf q) tree [] = .ok (S, S) :=
  ⟨⟨by decide, by decide, by decide⟩,
    truncated_stream_result [(97, 3), (98, 1), (256, 1)] (by decide) (by decide)
      (by decide)⟩

/-- C9, counterexample. On the empty table `buildEncodingTree` does not reject
the input: its merge loop reads the top of the empty queue. -/
theorem empty_table_counterexample :
    buildEncodingTree [] = .error .emptyQueue :=
  rfl

/-- C9, amended. For every non-empty table with distinct keys `buildEncodingTree`
returns a tree, which is not the null pointer. -/
theorem buildEncodingTree_returns (table : hashmap) (hnd : table.keys.Nodup)
    (hne : table ≠ []) :
    ∃ tree, buildEncodingTree table = .ok tree ∧ tree ≠ .nullptr := by
  obtain ⟨tree, hbt, hm, _, _⟩ := buildEncodingTree_merged table hnd hne
  exact ⟨tree, hbt, hm.ne_nullptr⟩

/-- Witness of the amended C9 at the table of `"aaab"`. -/
theorem buildEncodingTree_returns_witness :
    ((hashmap.keys [(97, 3), (98, 1), (256, 1)]).Nodup ∧
      ([(97, 3), (98, 1), (256, 1)] : hashmap) ≠ []) ∧
    ∃ tree, buildEncodingTree [(97, 3), (98, 1), (256, 1)] = .ok tree ∧ tree ≠ .nullptr :=
  ⟨⟨by decide, by decide⟩,
    buildEncodingTree_returns [(97, 3), (98, 1), (256, 1)] (by decide) (by decide)⟩

/-- C10 (frequency counting), amended. For every input `S` of fewer than `2^31`
characters, from a file or from a string, `buildFrequencyMap` started on an
empty map returns a table with distinct keys that maps each symbol occurring in
`S` to its number of occurrences, maps the end-of-stream symbol to 1 and has no
other key; hence every count is at least 1. -/
theorem frequency_counting (S : List CChar) (isFile : Bool) (hlen : S.length < 2 ^ 31) :
    ∃ table, buildFrequencyMap S isFile [] = .ok table ∧ table.keys.Nodup ∧
      (∀ c ∈ S, table.get (charToInt c) = .ok (S.count c : Int)) ∧
      table.get PSEUDO_EOF = .ok 1 ∧
      (∀ k, table.containsKey k = true → k = PSEUDO_EOF ∨ ∃ c ∈ S, k = charToInt c) ∧
      (∀ k v, table.get k = .ok v → 1 ≤ v) := by
  obtain ⟨table, h1, h2, h3⟩ := buildFrequencyMap_spec S isFile
  have hfit : ∀ k, wrapInt (occurrences k S : Int) = (occurrences k S : Int) := by
    intro k
    have := occurrences_le_length k S
    exact wrapInt_of_fits _ (by omega) (by omega)
  refine ⟨table, h1, h2, ?_, ?_, ?_, ?_⟩
  · intro c hc
    rw [h3, if_neg (charToInt_ne_eof c), hfit, occurrences_charToInt]
    have : S.count c ≠ 0 := by
      intro h
      exact (List.count_eq_zero.mp h) hc
    rw [if_neg this]
  · rw [h3, if_pos rfl]
  · intro k hk
    have hmem := (hashmap_containsKey_iff table k).mp hk
    obtain ⟨v, hv⟩ := (hashmap_mem_keys_iff table h2 k).mp hmem
    rw [h3] at hv
    by_cases hke : k = PSEUDO_EOF
    · exact Or.inl hke
    · rw [if_neg hke] at hv
      by_cases ho : occurrences k S = 0
      · rw [if_pos ho] at hv; cases hv
      · right
        have : ¬ ∀ c ∈ S, charToInt c ≠ k := fun h => ho ((occurrences_eq_zero_iff k S).mpr h)
        push_neg at this
        obtain ⟨c, hc, hck⟩ := this
        exact ⟨c, hc, hck.symm⟩
  · intro k v hv
    rw [h3] at hv
    by_cases hke : k = PSEUDO_EOF
    · rw [if_pos hke] at hv; cases hv; exact le_refl _
    · rw [if_neg hke] at hv
      by_cases ho : occurrences k S = 0
      · rw [if_pos ho] at hv; cases hv
      · rw [if_neg ho, hfit] at hv
        cases hv
        omega

/-- Witness of the amended C10 at `S = "aaab"`, which gives `{a:3, b:1, EOF:1}`. -/
theorem frequency_counting_witness :
    (([97, 97, 97, 98] : List CChar).length < 2 ^ 31 ∧
      buildFrequencyMap [97, 97, 97, 98] false [] = .ok [(97, 3), (98, 1), (256, 1)]) ∧
    ∃ table, buildFrequencyMap [97, 97, 97, 98] false [] = .ok table ∧ table.keys.Nodup ∧
      (∀ c ∈ ([97, 97, 97, 98] : List CChar),
        table.get (charToInt c) = .ok (([97, 97, 97, 98] : List CChar).count c : Int)) ∧
      table.get PSEUDO_EOF = .ok 1 ∧
      (∀ k, table.containsKey k = true →
        k = PSEUDO_EOF ∨ ∃ c ∈ ([97, 97, 97, 98] : List CChar), k = charToInt c) ∧
      (∀ k v, table.get k = .ok v → 1 ≤ v) :=
  ⟨⟨by decide, rfl⟩, frequency_counting [97, 97, 97, 98] false (by decide)⟩

/-- Counterexample to C10 as stated. On an input of `2^31` characters `a` the
`int` count of `a` wraps at the last increment: the table maps `a` to `-2^31`,
which is neither the number of occurrences of `a` nor at least 1. -/
theorem frequency_counting_counterexample :
    buildFrequencyMap (List.replicate 2147483648 (97 : CChar)) false [] =
      .ok [(97, -2147483648), (256, 1)] ∧
    (List.replicate 2147483648 (97 : CChar)).count 97 = 2147483648 := by
  refine ⟨?_, List.count_replicate_self _ _⟩
  have h := buildFrequencyMap_replicate 97 2147483646 false
  have e1 : wrapInt ((2147483646 + 2 : Nat) : Int) = -2147483648 := by decide
  have e2 : charToInt 97 = 97 := by decide
  rw [e1, e2] at h
  exact h

/-- C11 (encode output), amended. For every input `S` and every code table
holding a code for every symbol of `S` and for the end-of-stream symbol,
`encode` returns the concatenation, in input order, of the codes of the symbols
of `S` followed by the end-of-stream code; the bit count it reports is the
length of that string converted to `int`, which is the length itself when the
string is shorter than `2^31` characters. Without a destination the output
stream is left as it was; with a destination, the codes being strings of `'0'`
and `'1'`, the bits of that string are appended to it in the same order. -/
theorem encode_output (S : List CChar) (encodingMap : mymap) (output : ofbitstream)
    (eofCode : string)
    (hS : ∀ c ∈ S, ∃ p, encodingMap.get (charToInt c) = .ok p)
    (he : encodingMap.get PSEUDO_EOF = .ok eofCode) :
    ∃ (cs : List string) (size : Int),
      List.Forall₂ (fun c p => encodingMap.get (charToInt c) = .ok p) S cs ∧
      encode S encodingMap output false = .ok (cs.flatten ++ eofCode, size, output) ∧
      size = wrapInt ((cs.flatten ++ eofCode).length : Int) ∧
      ((cs.flatten ++ eofCode).length < 2 ^ 31 →
        size = ((cs.flatten ++ eofCode).length : Int)) ∧
      ((∀ k p, encodingMap.get k = .ok p → ∀ x ∈ p, x = '0' ∨ x = '1') →
        encode S encodingMap output true =
          .ok (cs.flatten ++ eofCode, size, output ++ bitsOf (cs.flatten ++ eofCode))) := by
  obtain ⟨cs, hcs⟩ := exists_codes_of_forall encodingMap S hS
  obtain ⟨h1, h2⟩ := encode_eq S encodingMap cs eofCode hcs he output
  refine ⟨cs, _, hcs, h1, rfl, ?_, fun hbits => h2 ?_⟩
  · intro hlen
    exact wrapInt_of_fits _ (by omega) (by omega)
  · intro x hx
    rcases List.mem_append.mp hx with h | h
    · exact forall2_codes_bits encodingMap hbits S cs hcs x h
    · exact hbits _ _ he x h

/-- Witness of the amended C11 at `S = "aaab"` with the codes `a:1`, `b:00`,
`EOF:01`. -/
theorem encode_output_witness :
    ((∀ c ∈ ([97, 97, 97, 98] : List CChar),
        ∃ p, mymap.get [(98, ['0', '0']), (256, ['0', '1']), (97, ['1'])] (charToInt c) = .ok p) ∧
      mymap.get [(98, ['0', '0']), (256, ['0', '1']), (97, ['1'])] PSEUDO_EOF =
        .ok ['0', '1']) ∧
    ∃ (cs : List string) (size : Int),
      List.Forall₂
        (fun c p =>
          mymap.get [(98, ['0', '0']), (256, ['0', '1']), (97, ['1'])] (charToInt c) = .ok p)
        [97, 97, 97, 98] cs ∧
      encode [97, 97, 97, 98] [(98, ['0', '0']), (256, ['0', '1']), (97, ['1'])] [] false =
        .ok (cs.flatten ++ ['0', '1'], size, []) ∧
      size = wrapInt ((cs.flatten ++ ['0', '1']).length : Int) ∧
      ((cs.flatten ++ ['0', '1']).length < 2 ^ 31 →
        size = ((cs.flatten ++ ['0', '1']).length : Int)) ∧
      ((∀ k p, mymap.get [(98, ['0', '0']), (256, ['0', '1']), (97, ['1'])] k = .ok p →
          ∀ x ∈ p, x = '0' ∨ x = '1') →
        encode [97, 97, 97, 98] [(98, ['0', '0']), (256, ['0', '1']), (97, ['1'])] [] true =
          .ok (cs.flatten ++ ['0', '1'], size, [] ++ bitsOf (cs.flatten ++ ['0', '1']))) :=
  ⟨⟨by
      intro c hc
      simp only [List.mem_cons, List.mem_singleton, List.not_mem_nil, or_false] at hc
      rcases hc with h | h | h | h <;> subst h
      · exact ⟨['1'], rfl⟩
      · exact ⟨['1'], rfl⟩
      · exact ⟨['1'], rfl⟩
      · exact ⟨['0', '0'], rfl⟩, rfl⟩,
    encode_output [97, 97, 97, 98] [(98, ['0', '0']), (256, ['0', '1']), (97, ['1'])] []
      ['0', '1']
      (by
        intro c hc
        simp only [List.mem_cons, List.mem_singleton, List.not_mem_nil, or_false] at hc
        rcases hc with h | h | h | h <;> subst h
        · exact ⟨['1'], rfl⟩
        · exact ⟨['1'], rfl⟩
        · exact ⟨['1'], rfl⟩
        · exact ⟨['0', '0'], rfl⟩)
      rfl⟩

/-- Counterexample to C11 as stated. On `2^31 - 1` characters `a`, with the
codes `a:1` and `EOF:0`, `encode` returns a string of `2^31` characters and
reports the bit count `-2^31`: the conversion of the length to `int` wraps. -/
theorem encode_output_counterexample :
    encode (List.replicate 2147483647 (97 : CChar)) [(256, ['0']), (97, ['1'])] [] false =
      .ok (List.replicate 2147483647 '1' ++ ['0'], -2147483648, []) ∧
    (List.replicate 2147483647 '1' ++ ['0']).length = 2147483648 := by
  refine ⟨?_, by rw [List.length_append, List.length_replicate]; rfl⟩
  have h := (encode_replicate [(256, ['0']), (97, ['1'])] 97 '1' ['0'] 2147483647 rfl rfl []).1
  have e1 : wrapInt ((2147483647 + (['0'] : string).length : Nat) : Int) = -2147483648 := by
    decide
  rw [e1] at h
  exact h

/-- C12 (decode stops at end-of-stream). For every input `S`, encoded as in the
round trip, and every bit sequence `P` that follows the encoded bits, `decode`
returns exactly `S`: the bits after the end-of-stream code are not looked at. -/
theorem decode_stops_at_eof (S : List CChar) (isFile : Bool) (built table : hashmap)
    (hb : buildFrequencyMap S isFile [] = .ok built) (hp : table ~ built) :
    ∃ tree encodingMap str size,
      buildEncodingTree table = .ok tree ∧
      buildEncodingMap tree = .ok encodingMap ∧
      encode S encodingMap [] true = .ok (str, size, bitsOf str) ∧
      ∀ P : List Bool, decode (bitsOf str ++ P) tree [] = .ok (S, S) := by
  obtain ⟨h1, h2, h3, h4⟩ := table_of_input S isFile built table hb hp
  obtain ⟨tree, m, str, ht, hm, he, _, _, hd⟩ := roundtrip_core S table h1 h2 h3 h4
  refine ⟨tree, m, str, wrapInt str.length, ht, hm, ?_, ?_⟩
  · have := he []
    simpa using this
  · intro P
    have := hd P []
    simpa using this

/-- Witness of C12 at `S = "aaab"`. -/
theorem decode_stops_at_eof_witness :
    (buildFrequencyMap [97, 97, 97, 98] true [] = .ok [(97, 3), (98, 1), (256, 1)] ∧
      [(97, 3), (98, 1), (256, 1)] ~ [(97, 3), (98, 1), (256, 1)]) ∧
    ∃ tree encodingMap str size,
      buildEncodingTree [(97, 3), (98, 1), (256, 1)] = .ok tree ∧
      buildEncodingMap tree = .ok encodingMap ∧
      encode [97, 97, 97, 98] encodingMap [] true = .ok (str, size, bitsOf str) ∧
      ∀ P : List Bool,
        decode (bitsOf str ++ P) tree [] = .ok ([97, 97, 97, 98], [97, 97, 97, 98]) :=
  ⟨⟨rfl, List.Perm.refl _⟩,
    decode_stops_at_eof [97, 97, 97, 98] true [(97, 3), (98, 1), (256, 1)]
      [(97, 3), (98, 1), (256, 1)] rfl (List.Perm.refl _)⟩

/-- C13 (the code is the root-to-leaf path). For every non-empty table with
distinct keys (in particular with at least two entries) the leaves of the tree
built are the entries of the table, and in every code table that
`buildEncodingMap` produces from the tree each leaf's symbol is mapped to a
string of `'0'` and `'1'` that, followed from the root (`'0'` to `zero`, `'1'` to
`one`), ends exactly at that leaf; a code table is produced whenever the table
has no `NOT_A_CHAR` key. -/
theorem code_is_root_to_leaf_path (table : hashmap) (hnd : table.keys.Nodup)
    (hne : table ≠ []) :
    ∃ tree, buildEncodingTree table = .ok tree ∧ leaves tree ~ table ∧
      (NOT_A_CHAR ∉ table.keys → ∃ encodingMap, buildEncodingMap tree = .ok encodingMap) ∧
      ∀ encodingMap, buildEncodingMap tree = .ok encodingMap →
        ∀ e ∈ leaves tree, ∃ p, encodingMap.get e.1 = .ok p ∧
          (∀ x ∈ p, x = '0' ∨ x = '1') ∧
          follow tree p = .node e.1 e.2 .nullptr .nullptr := by
  obtain ⟨tree, hbt, hm, hlv, _⟩ := buildEncodingTree_merged table hnd hne
  refine ⟨tree, hbt, hlv, ?_, ?_⟩
  · intro hnac
    refine ⟨_, buildEncodingMap_eq hm ?_⟩
    intro e he hc
    exact hnac (List.mem_map.mpr ⟨e, hlv.mem_iff.mp he, hc⟩)
  · intro m hbm e he
    have hc := buildBinary_ok_leaves hm [] [] m hbm
    rw [buildEncodingMap_eq hm hc] at hbm
    cases hbm
    have hndc : ((codes tree).map Prod.fst).Nodup := by
      rw [codes_fst]
      exact (hlv.map Prod.fst).nodup_iff.mpr hnd
    obtain ⟨p, hp, hf⟩ := follow_codes hm.full e he
    exact ⟨p, get_putAll_of_mem _ _ _ _ hndc hp, codes_bits tree _ hp, hf⟩

/-- Witness of C13 at the table of `"aaab"`. -/
theorem code_is_root_to_leaf_path_witness :
    ((hashmap.keys [(97, 3), (98, 1), (256, 1)]).Nodup ∧
      ([(97, 3), (98, 1), (256, 1)] : hashmap) ≠ []) ∧
    ∃ tree, buildEncodingTree [(97, 3), (98, 1), (256, 1)] = .ok tree ∧
      leaves tree ~ [(97, 3), (98, 1), (256, 1)] ∧
      (NOT_A_CHAR ∉ hashmap.keys [(97, 3), (98, 1), (256, 1)] →
        ∃ encodingMap, buildEncodingMap tree = .ok encodingMap) ∧
      ∀ encodingMap, buildEncodingMap tree = .ok encodingMap →
        ∀ e ∈ leaves tree, ∃ p, encodingMap.get e.1 = .ok p ∧
          (∀ x ∈ p, x = '0' ∨ x = '1') ∧
          follow tree p = .node e.1 e.2 .nullptr .nullptr :=
  ⟨⟨by decide, by decide⟩,
    code_is_root_to_leaf_path [(97, 3), (98, 1), (256, 1)] (by decide) (by decide)⟩

/-- C14 (missing code). For every input and code table such that some input
symbol has no entry in the table, `encode` fails for want of a key, with or
without a destination, and returns no bit-string. -/
theorem encode_missing_code (S : List CChar) (encodingMap : mymap) (output : ofbitstream)
    (makeFile : Bool) (c : CChar) (hc : c ∈ S)
    (hmiss : charToInt c ∉ encodingMap.map Prod.fst) :
    encode S encodingMap output makeFile = .error .missingKey := by
  unfold encode
  rw [encodeChars_missing encodingMap S [] ⟨c, hc, hmiss⟩]
  rfl

/-- Witness of C14: `"ab"` with a table that has no code for `b`. -/
theorem encode_missing_code_witness :
    ((98 : CChar) ∈ ([97, 98] : List CChar) ∧
      charToInt 98 ∉ ([(97, ['0']), (256, ['1'])] : mymap).map Prod.fst) ∧
    encode [97, 98] [(97, ['0']), (256, ['1'])] [] true = .error .missingKey :=
  ⟨⟨by decide, by decide⟩,
    encode_missing_code [97, 98] [(97, ['0']), (256, ['1'])] [] true 98 (by decide)
      (by decide)⟩

/-- C15, counterexample. For the name `a.b` and the extension `txt`,
`decompress` reads `a.b.txt.huf` but names its output `a_unc.b.txt`, not
`a.b_unc.txt`; for the name `a` and the extension `huf` it computes no name at
all: `substr` is called with `npos`. -/
theorem file_naming_counterexample :
    decompressFileNames ['a', '.', 'b', '.', 't', 'x', 't', '.', 'h', 'u', 'f'] =
      .ok (['a', '.', 'b', '.', 't', 'x', 't', '.', 'h', 'u', 'f'],
        ['a', '_', 'u', 'n', 'c', '.', 'b', '.', 't', 'x', 't']) ∧
    decompressFileNames ['a', '.', 'h', 'u', 'f', '.', 'h', 'u', 'f'] = .error .outOfRange :=
  ⟨rfl, rfl⟩

/-- C15, amended. For every name without `'.'` and every extension without `'.'`
that does not begin with `huf` (the whole file name being shorter than `2^31`
characters), `decompress` called with `name.ext.huf` reads that same file and
names its output `name_unc.ext`; `compress` called with `f` names its output
`f.huf`. -/
theorem file_naming (name ext f : string) (hn : '.' ∉ name) (he : '.' ∉ ext)
    (hh : ¬ ['h', 'u', 'f'] <+: ext) (hlen : name.length + 1 + ext.length < 2 ^ 31) :
    decompressFileNames (name ++ ['.'] ++ ext ++ ['.', 'h', 'u', 'f']) =
      .ok (name ++ ['.'] ++ ext ++ ['.', 'h', 'u', 'f'],
        name ++ ['_', 'u', 'n', 'c', '.'] ++ ext) ∧
    compressFileName f = f ++ ['.', 'h', 'u', 'f'] :=
  ⟨decompressFileNames_eq name ext hn he hh hlen, rfl⟩

/-- Witness of the amended C15: `example.txt.huf` gives `example_unc.txt`, and
`example.txt` is compressed to `example.txt.huf`. -/
theorem file_naming_witness :
    (('.' : Char) ∉ (['e', 'x', 'a', 'm', 'p', 'l', 'e'] : string) ∧
      ('.' : Char) ∉ (['t', 'x', 't'] : string) ∧
      ¬ (['h', 'u', 'f'] : string) <+: ['t', 'x', 't'] ∧
      (['e', 'x', 'a', 'm', 'p', 'l', 'e'] : string).length + 1 +
        (['t', 'x', 't'] : string).length < 2 ^ 31) ∧
    decompressFileNames
        (['e', 'x', 'a', 'm', 'p', 'l', 'e'] ++ ['.'] ++ ['t', 'x', 't'] ++
          ['.', 'h', 'u', 'f']) =
      .ok (['e', 'x', 'a', 'm', 'p', 'l', 'e'] ++ ['.'] ++ ['t', 'x', 't'] ++
          ['.', 'h', 'u', 'f'],
        ['e', 'x', 'a', 'm', 'p', 'l', 'e'] ++ ['_', 'u', 'n', 'c', '.'] ++ ['t', 'x', 't']) ∧
    compressFileName ['e', 'x', 'a', 'm', 'p', 'l', 'e', '.', 't', 'x', 't'] =
      ['e', 'x', 'a', 'm', 'p', 'l', 'e', '.', 't', 'x', 't'] ++ ['.', 'h', 'u', 'f'] :=
  ⟨⟨by decide, by decide, by decide, by decide⟩,
    file_naming ['e', 'x', 'a', 'm', 'p', 'l', 'e'] ['t', 'x', 't']
      ['e', 'x', 'a', 'm', 'p', 'l', 'e', '.', 't', 'x', 't'] (by decide) (by decide)
      (by decide) (by decide)⟩

/-- C16 (greedy merge step), amended. For every non-empty table, at the head of
every iteration of the merge loop of `buildEncodingTree` that is run (the queue
not holding exactly one node), the two nodes `A` then `B` removed from the queue
satisfy `count A <= count B <= count N` for every node `N` left in the queue, and
the iteration inserts the node with symbol `NOT_A_CHAR`, zero-branch `A`,
one-branch `B` and, as count, the `int` sum of `count A` and `count B`, which is
`count A + count B` whenever that sum lies in the range of `int`, before the
loop goes on. -/
theorem greedy_merge_step (map : hashmap) (hne : map ≠ []) (pq : priority_queue)
    (hs : LoopState map pq) (hl : pq.length ≠ 1) :
    ∃ A B q1 rest count,
      pq.top = .ok A ∧ pq.pop = .ok q1 ∧ q1.top = .ok B ∧ q1.pop = .ok rest ∧
      pq ~ A :: B :: rest ∧
      A.count ≤ B.count ∧ (∀ N ∈ rest, B.count ≤ N.count) ∧
      mergeStep pq = .ok (rest.push (.node NOT_A_CHAR count A B)) ∧
      count = wrapInt (A.count + B.count) ∧
      (-2 ^ 31 ≤ A.count + B.count → A.count + B.count < 2 ^ 31 →
        count = A.count + B.count) ∧
      rest.push (.node NOT_A_CHAR count A B) ~ .node NOT_A_CHAR count A B :: rest ∧
      ∀ fuel, mergeLoop (fuel + 1) pq =
        mergeLoop fuel (rest.push (.node NOT_A_CHAR count A B)) := by
  obtain ⟨hheap, hnil⟩ := loopState_inv map hne pq hs
  have h2 : 2 ≤ pq.length := by
    have : pq.length ≠ 0 := fun h => hnil (List.length_eq_zero.mp h)
    omega
  obtain ⟨A, B, q1, q2, e1, e2, e3, e4, hperm, hab, hbn, hstep, _, hpush⟩ :=
    mergeStep_spec pq hheap h2
  refine ⟨A, B, q1, q2, _, e1, e2, e3, e4, hperm, hab, hbn, hstep, rfl,
    fun h1 h2 => wrapInt_of_fits _ h1 h2, hpush, ?_⟩
  intro fuel
  rw [mergeLoop_succ, if_pos hl, hstep]
  rfl

/-- Witness of the amended C16 at the table of `"aaab"`, in the first iteration:
the queue holds the leaves of `b`, `a` and the end-of-stream symbol. -/
theorem greedy_merge_step_witness :
    (([(97, 3), (98, 1), (256, 1)] : hashmap) ≠ [] ∧
      LoopState [(97, 3), (98, 1), (256, 1)]
        [.node 98 1 .nullptr .nullptr, .node 97 3 .nullptr .nullptr,
          .node 256 1 .nullptr .nullptr] ∧
      ([.node 98 1 .nullptr .nullptr, .node 97 3 .nullptr .nullptr,
          .node 256 1 .nullptr .nullptr] : priority_queue).length ≠ 1) ∧
    ∃ A B q1 rest count,
      priority_queue.top [.node 98 1 .nullptr .nullptr, .node 97 3 .nullptr .nullptr,
          .node 256 1 .nullptr .nullptr] = .ok A ∧
      priority_queue.pop [.node 98 1 .nullptr .nullptr, .node 97 3 .nullptr .nullptr,
          .node 256 1 .nullptr .nullptr] = .ok q1 ∧
      q1.top = .ok B ∧ q1.pop = .ok rest ∧
      [.node 98 1 .nullptr .nullptr, .node 97 3 .nullptr .nullptr,
          .node 256 1 .nullptr .nullptr] ~ A :: B :: rest ∧
      A.count ≤ B.count ∧ (∀ N ∈ rest, B.count ≤ N.count) ∧
      mergeStep [.node 98 1 .nullptr .nullptr, .node 97 3 .nullptr .nullptr,
          .node 256 1 .nullptr .nullptr] =
        .ok (rest.push (.node NOT_A_CHAR count A B)) ∧
      count = wrapInt (A.count + B.count) ∧
      (-2 ^ 31 ≤ A.count + B.count → A.count + B.count < 2 ^ 31 →
        count = A.count + B.count) ∧
      rest.push (.node NOT_A_CHAR count A B) ~ .node NOT_A_CHAR count A B :: rest ∧
      ∀ fuel, mergeLoop (fuel + 1) [.node 98 1 .nullptr .nullptr,
          .node 97 3 .nullptr .nullptr, .node 256 1 .nullptr .nullptr] =
        mergeLoop fuel (rest.push (.node NOT_A_CHAR count A B)) :=
  ⟨⟨by decide, LoopState.init _ rfl, by decide⟩,
    greedy_merge_step [(97, 3), (98, 1), (256, 1)] (by decide) _ (LoopState.init _ rfl)
      (by decide)⟩

/-- Counterexample to C16 as stated. On the table `{97: 2^31 - 1, 256: 1}` the
queue at the head of the only iteration holds the leaf of the end-of-stream
symbol (count 1) and the leaf of `a` (count `2^31 - 1`); they are removed in
that order and the node inserted has count `-2^31`, while the two counts add
up to `2^31`. -/
theorem greedy_merge_step_counterexample :
    LoopState [(97, 2147483647), (256, 1)]
      [.node 256 1 .nullptr .nullptr, .node 97 2147483647 .nullptr .nullptr] ∧
    priority_queue.top
        [.node 256 1 .nullptr .nullptr, .node 97 2147483647 .nullptr .nullptr] =
      .ok (.node 256 1 .nullptr .nullptr) ∧
    priority_queue.pop
        [.node 256 1 .nullptr .nullptr, .node 97 2147483647 .nullptr .nullptr] =
      .ok [.node 97 2147483647 .nullptr .nullptr] ∧
    mergeStep [.node 256 1 .nullptr .nullptr, .node 97 2147483647 .nullptr .nullptr] =
      .ok [.node NOT_A_CHAR (-2147483648) (.node 256 1 .nullptr .nullptr)
        (.node 97 2147483647 .nullptr .nullptr)] ∧
    HuffmanNode.count (.node 256 1 .nullptr .nullptr) +
        HuffmanNode.count (.node 97 2147483647 .nullptr .nullptr) = 2147483648 :=
  ⟨LoopState.init _ rfl, rfl, rfl, rfl, by decide⟩

/-- C17 (leaves match the table). For every non-empty table with distinct keys
and no `NOT_A_CHAR` key (in particular with at least two entries) the leaves of
the tree built are exactly the entries of the table, symbol and count, and the
code table built from the tree has a code for exactly the keys of the table.
Hence, when the table holds the entries made from an input `S`, every symbol of
`S` and the end-of-stream symbol has a code. -/
theorem leaves_match_table (table : hashmap) (hnd : table.keys.Nodup) (hne : table ≠ [])
    (hnac : NOT_A_CHAR ∉ table.keys) :
    ∃ tree encodingMap,
      buildEncodingTree table = .ok tree ∧ buildEncodingMap tree = .ok encodingMap ∧
      leaves tree ~ table ∧
      (∀ k, (∃ p, encodingMap.get k = .ok p) ↔ k ∈ table.keys) ∧
      ∀ (S : List CChar) (isFile : Bool) (built : hashmap),
        buildFrequencyMap S isFile [] = .ok built → table ~ built →
        (∀ c ∈ S, ∃ p, encodingMap.get (charToInt c) = .ok p) ∧
          ∃ p, encodingMap.get PSEUDO_EOF = .ok p := by
  obtain ⟨tree, hbt, hm, hlv, _⟩ := buildEncodingTree_merged table hnd hne
  have hc : ∀ e ∈ leaves tree, e.1 ≠ NOT_A_CHAR := by
    intro e he hce
    exact hnac (List.mem_map.mpr ⟨e, hlv.mem_iff.mp he, hce⟩)
  have hkeys : (codes tree).map Prod.fst ~ table.keys := by
    rw [codes_fst]; exact hlv.map Prod.fst
  have hndc : ((codes tree).map Prod.fst).Nodup := hkeys.nodup_iff.mpr hnd
  have hiff : ∀ k, (∃ p, (putAll [] (codes tree)).get k = .ok p) ↔ k ∈ table.keys := by
    intro k
    rw [get_putAll_iff _ hndc k]
    exact hkeys.mem_iff
  refine ⟨tree, _, hbt, buildEncodingMap_eq hm hc, hlv, hiff, ?_⟩
  intro S isFile built hb hp
  obtain ⟨_, _, h3, h4⟩ := table_of_input S isFile built table hb hp
  exact ⟨fun c hcS => (hiff _).mpr (h3 c hcS), (hiff _).mpr h4⟩

/-- Witness of C17 at the table of `"aaab"`. -/
theorem leaves_match_table_witness :
    ((hashmap.keys [(97, 3), (98, 1), (256, 1)]).Nodup ∧
      ([(97, 3), (98, 1), (256, 1)] : hashmap) ≠ [] ∧
      NOT_A_CHAR ∉ hashmap.keys [(97, 3), (98, 1), (256, 1)]) ∧
    ∃ tree encodingMap,
      buildEncodingTree [(97, 3), (98, 1), (256, 1)] = .ok tree ∧
      buildEncodingMap tree = .ok encodingMap ∧
      leaves tree ~ [(97, 3), (98, 1), (256, 1)] ∧
      (∀ k, (∃ p, encodingMap.get k = .ok p) ↔ k ∈ hashmap.keys [(97, 3), (98, 1), (256, 1)]) ∧
      ∀ (S : List CChar) (isFile : Bool) (built : hashmap),
        buildFrequencyMap S isFile [] = .ok built → [(97, 3), (98, 1), (256, 1)] ~ built →
        (∀ c ∈ S, ∃ p, encodingMap.get (charToInt c) = .ok p) ∧
          ∃ p, encodingMap.get PSEUDO_EOF = .ok p :=
  ⟨⟨by decide, by decide, by decide⟩,
    leaves_match_table [(97, 3), (98, 1), (256, 1)] (by decide) (by decide) (by decide)⟩

/-- C18 (depth bound). For every table with `n >= 1` entries and distinct keys
the tree built has exactly `n - 1` internal nodes and height at most `n - 1`, and
every code of every code table that `buildEncodingMap` produces from it has
length at most `n - 1` (a code table is produced whenever the table has no
`NOT_A_CHAR` key); so `buildBinary` recurses to a depth bounded by the size of
the alphabet. -/
theorem depth_bound (table : hashmap) (hnd : table.keys.Nodup) (hne : table ≠ []) :
    ∃ tree, buildEncodingTree table = .ok tree ∧
      internalCount tree = table.length - 1 ∧ height tree ≤ table.length - 1 ∧
      (NOT_A_CHAR ∉ table.keys → ∃ encodingMap, buildEncodingMap tree = .ok encodingMap) ∧
      ∀ encodingMap, buildEncodingMap tree = .ok encodingMap →
        ∀ (k : Int) (p : string), encodingMap.get k = .ok p → p.length ≤ table.length - 1 := by
  obtain ⟨tree, hbt, hm, hlv, _⟩ := buildEncodingTree_merged table hnd hne
  have hic : internalCount tree = table.length - 1 := by
    have := hm.full.internal_add_one
    rw [hlv.length_eq] at this
    omega
  refine ⟨tree, hbt, hic, ?_, ?_, ?_⟩
  · rw [← hic]; exact hm.full.height_le_internal
  · intro hnac
    refine ⟨_, buildEncodingMap_eq hm ?_⟩
    intro e he hc
    exact hnac (List.mem_map.mpr ⟨e, hlv.mem_iff.mp he, hc⟩)
  · intro m hbm k p hget
    have hc := buildBinary_ok_leaves hm [] [] m hbm
    rw [buildEncodingMap_eq hm hc] at hbm
    cases hbm
    have hndc : ((codes tree).map Prod.fst).Nodup := by
      rw [codes_fst]
      exact (hlv.map Prod.fst).nodup_iff.mpr hnd
    have := hm.full.code_length_le _ (mem_of_get_putAll _ hndc k p hget)
    rw [← hic]
    exact this

/-- Witness of C18 at the table of `"aaab"`, with `n = 3`. -/
theorem depth_bound_witness :
    ((hashmap.keys [(97, 3), (98, 1), (256, 1)]).Nodup ∧
      ([(97, 3), (98, 1), (256, 1)] : hashmap) ≠ []) ∧
    ∃ tree, buildEncodingTree [(97, 3), (98, 1), (256, 1)] = .ok tree ∧
      internalCount tree = ([(97, 3), (98, 1), (256, 1)] : hashmap).length - 1 ∧
      height tree ≤ ([(97, 3), (98, 1), (256, 1)] : hashmap).length - 1 ∧
      (NOT_A_CHAR ∉ hashmap.keys [(97, 3), (98, 1), (256, 1)] →
        ∃ encodingMap, buildEncodingMap tree = .ok encodingMap) ∧
      ∀ encodingMap, buildEncodingMap tree = .ok encodingMap →
        ∀ (k : Int) (p : string), encodingMap.get k = .ok p →
          p.length ≤ ([(97, 3), (98, 1), (256, 1)] : hashmap).length - 1 :=
  ⟨⟨by decide, by decide⟩, depth_bound [(97, 3), (98, 1), (256, 1)] (by decide) (by decide)⟩

/-- C19 (encoded size), amended. For every input `S` and every table holding
the entries made from `S`, with the tree and the code table built from it,
`encode` returns a bit-string and a bit count; when the bit-string is shorter
than `2^31` bits, the bit count is the sum over the entries of the table of the
count times the length of the symbol's code (the end-of-stream symbol counting
once), which is the weighted external path length of the tree. -/
theorem encoded_size (S : List CChar) (isFile : Bool) (built table : hashmap)
    (hb : buildFrequencyMap S isFile [] = .ok built) (hp : table ~ built) :
    ∃ tree encodingMap str size,
      buildEncodingTree table = .ok tree ∧
      buildEncodingMap tree = .ok encodingMap ∧
      encode S encodingMap [] true = .ok (str, size, bitsOf str) ∧
      (str.length < 2 ^ 31 →
        size = (table.map fun e => e.2 * codeLength encodingMap e.1).sum ∧
        size = wepl tree) := by
  obtain ⟨hnd, hnac, hS, heof⟩ := table_of_input S isFile built table hb hp
  have hne : table ≠ [] := by
    intro h; rw [h] at heof; simp [hashmap.keys] at heof
  obtain ⟨tree, hbt, hm, hlv, _⟩ := buildEncodingTree_merged table hnd hne
  have hc : ∀ e ∈ leaves tree, e.1 ≠ NOT_A_CHAR := fun e he => hnac e (hlv.mem_iff.mp he)
  have hkeys : (codes tree).map Prod.fst ~ table.keys := by
    rw [codes_fst]; exact hlv.map Prod.fst
  have hndc : ((codes tree).map Prod.fst).Nodup := hkeys.nodup_iff.mpr hnd
  have hiff := get_putAll_iff (codes tree) hndc
  obtain ⟨cs, hcs⟩ := exists_codes_of_forall (putAll [] (codes tree)) S
    (fun c hcS => (hiff _).mpr (hkeys.mem_iff.mpr (hS c hcS)))
  obtain ⟨eofCode, he⟩ := (hiff PSEUDO_EOF).mpr (hkeys.mem_iff.mpr heof)
  have hbits : ∀ x ∈ cs.flatten ++ eofCode, x = '0' ∨ x = '1' := by
    have hb' : ∀ k p, (putAll [] (codes tree)).get k = .ok p → ∀ x ∈ p, x = '0' ∨ x = '1' :=
      fun k p hg => codes_bits tree _ (mem_of_get_putAll _ hndc k p hg)
    intro x hx
    rcases List.mem_append.mp hx with h | h
    · exact forall2_codes_bits _ hb' S cs hcs x h
    · exact hb' _ _ he x h
  have henc := (encode_eq S _ cs eofCode hcs he []).2 hbits
  have hSlen : S.length ≤ (cs.flatten ++ eofCode).length := by
    cases S with
    | nil => simp
    | cons c0 rest =>
      have hk1 : charToInt c0 ∈ table.keys := hS c0 (List.mem_cons_self _ _)
      have hl2 : 2 ≤ (leaves tree).length := by
        rw [hlv.length_eq]
        have hsub : [charToInt c0, PSEUDO_EOF] ⊆ table.keys := by
          intro x hx
          simp only [List.mem_cons, List.mem_singleton, List.not_mem_nil, or_false] at hx
          rcases hx with h | h
          · rw [h]; exact hk1
          · rw [h]; exact heof
        have hnd2 : [charToInt c0, PSEUDO_EOF].Nodup := by
          simp [charToInt_ne_eof c0]
        have := (List.subperm_of_subset hnd2 hsub).length_le
        simpa [hashmap.keys] using this
      obtain ⟨l, r, rfl, hl, hr⟩ := hm.internal_of_two_leaves hl2
      have hne' : ∀ k p, (putAll [] (codes (.node NOT_A_CHAR (wrapInt (l.count + r.count))
          l r))).get k = .ok p → p ≠ [] :=
        fun k p hg => codes_nonempty_of_internal _ _ l r hl.ne_nullptr _
          (mem_of_get_putAll _ hndc k p hg)
      have := forall2_length_le_flatten _ hne' _ cs hcs
      rw [List.length_append]
      omega
  refine ⟨tree, _, cs.flatten ++ eofCode, wrapInt (((cs.flatten ++ eofCode).length : Nat) : Int),
    hbt, buildEncodingMap_eq hm hc, by rw [henc]; rfl, ?_⟩
  intro hlen
  have hw : wrapInt (((cs.flatten ++ eofCode).length : Nat) : Int) =
      (((cs.flatten ++ eofCode).length : Nat) : Int) :=
    wrapInt_of_fits _ (by omega) (by omega)
  have hsize : (((cs.flatten ++ eofCode).length : Nat) : Int) =
      (table.map fun e => e.2 * codeLength (putAll [] (codes tree)) e.1).sum := by
    rw [(hp.map _).sum_eq, buildFrequencyMap_sum _ S isFile built hb (by omega),
      List.length_append, Nat.cast_add, flatten_length_sum _ S cs hcs]
    simp [codeLength, he]
  rw [hw]
  refine ⟨hsize, ?_⟩
  rw [hsize, ← (hlv.map _).sum_eq]
  unfold wepl
  rw [weplFrom_eq_code_sum hm.full 0 (codeLength (putAll [] (codes tree))) (by
    intro e he'
    simp [codeLength, get_putAll_of_mem _ [] e.1 e.2 hndc he'])]
  simp

/-- Witness of the amended C19 at `S = "aaab"`. -/
theorem encoded_size_witness :
    (buildFrequencyMap [97, 97, 97, 98] true [] = .ok [(97, 3), (98, 1), (256, 1)] ∧
      [(97, 3), (98, 1), (256, 1)] ~ [(97, 3), (98, 1), (256, 1)]) ∧
    ∃ tree encodingMap str size,
      buildEncodingTree [(97, 3), (98, 1), (256, 1)] = .ok tree ∧
      buildEncodingMap tree = .ok encodingMap ∧
      encode [97, 97, 97, 98] encodingMap [] true = .ok (str, size, bitsOf str) ∧
      (str.length < 2 ^ 31 →
        size = (([(97, 3), (98, 1), (256, 1)] : hashmap).map fun e =>
          e.2 * codeLength encodingMap e.1).sum ∧
        size = wepl tree) :=
  ⟨⟨rfl, List.Perm.refl _⟩,
    encoded_size [97, 97, 97, 98] true [(97, 3), (98, 1), (256, 1)]
      [(97, 3), (98, 1), (256, 1)] rfl (List.Perm.refl _)⟩

/-- Counterexample to C19 as stated. The input of `2^31 - 1` characters `a` has
the table `{97: 2^31 - 1, 256: 1}`; the tree built from it gives both symbols a
code of one bit, `encode` returns a string of `2^31` bits and reports the bit
count `-2^31`, while the counts times the code lengths add up to `2^31`. -/
theorem encoded_size_counterexample :
    buildFrequencyMap (List.replicate 2147483647 (97 : CChar)) false [] =
      .ok [(97, 2147483647), (256, 1)] ∧
    buildEncodingTree [(97, 2147483647), (256, 1)] =
      .ok (.node 257 (-2147483648) (.node 256 1 .nullptr .nullptr)
        (.node 97 2147483647 .nullptr .nullptr)) ∧
    buildEncodingMap (.node 257 (-2147483648) (.node 256 1 .nullptr .nullptr)
        (.node 97 2147483647 .nullptr .nullptr)) = .ok [(256, ['0']), (97, ['1'])] ∧
    encode (List.replicate 2147483647 (97 : CChar)) [(256, ['0']), (97, ['1'])] [] true =
      .ok (List.replicate 2147483647 '1' ++ ['0'], -2147483648,
        bitsOf (List.replicate 2147483647 '1' ++ ['0'])) ∧
    (([(97, 2147483647), (256, 1)] : hashmap).map fun e =>
      e.2 * codeLength [(256, ['0']), (97, ['1'])] e.1).sum = 2147483648 := by
  refine ⟨?_, rfl, rfl, ?_, by decide⟩
  · have h := buildFrequencyMap_replicate 97 2147483645 false
    have e1 : wrapInt ((2147483645 + 2 : Nat) : Int) = 2147483647 := by decide
    have e2 : charToInt 97 = 97 := by decide
    rw [e1, e2] at h
    exact h
  · have h := (encode_replicate [(256, ['0']), (97, ['1'])] 97 '1' ['0'] 2147483647 rfl rfl
      []).2 (by
        intro y hy
        rcases List.mem_append.mp hy with h1 | h1
        · exact Or.inr (List.eq_of_mem_replicate h1)
        · exact Or.inl (List.mem_singleton.mp h1))
    have e1 : wrapInt ((2147483647 + (['0'] : string).length : Nat) : Int) = -2147483648 := by
      decide
    rw [e1] at h
    exact h

/-- C20 (decode never steps off the tree). For every table with distinct keys,
at least two entries and no `NOT_A_CHAR` key, the root of the tree built has both
children, and for every bit sequence whatsoever every value that the cursor of
`decode` takes is a node of the tree, a leaf carrying a symbol or a node with
both children, so that no null child is ever followed; `decode` reads no more
bits than the input holds, runs at most one iteration more than that, and
returns a result. -/
theorem decode_stays_on_tree (table : hashmap) (hnd : table.keys.Nodup)
    (h2 : 2 ≤ table.length) (hnac : NOT_A_CHAR ∉ table.keys) :
    ∃ tree, buildEncodingTree table = .ok tree ∧
      (∃ cnt l r, tree = .node NOT_A_CHAR cnt l r ∧ l ≠ .nullptr ∧ r ≠ .nullptr) ∧
      ∀ (input : ifbitstream) (out0 : List CChar),
        (∀ cur ∈ decodeCursors tree input tree, IsNodeOf cur tree ∧ WellBranched cur) ∧
        decodeReads tree input tree ≤ input.length ∧
        (decodeCursors tree input tree).length ≤ input.length + 1 ∧
        ∃ decoded, decode input tree out0 = .ok (decoded, out0 ++ decoded) := by
  have hne : table ≠ [] := by
    intro h; rw [h] at h2; simp at h2
  obtain ⟨tree, hbt, hm, hlv, _⟩ := buildEncodingTree_merged table hnd hne
  have hc : ∀ x ∈ leaves tree, x.1 ≠ NOT_A_CHAR := by
    intro x hx hx2
    exact hnac (List.mem_map.mpr ⟨x, hlv.mem_iff.mp hx, hx2⟩)
  have hl2 : 2 ≤ (leaves tree).length := by rw [hlv.length_eq]; exact h2
  obtain ⟨l, r, rfl, hl, hr⟩ := hm.internal_of_two_leaves hl2
  have hcl : ∀ x ∈ leaves l, x.1 ≠ NOT_A_CHAR := fun x hx =>
    hc x (by rw [leaves_internal _ _ l r hl.ne_nullptr]; exact List.mem_append_left _ hx)
  have hcr : ∀ x ∈ leaves r, x.1 ≠ NOT_A_CHAR := fun x hx =>
    hc x (by rw [leaves_internal _ _ l r hl.ne_nullptr]; exact List.mem_append_right _ hx)
  refine ⟨_, hbt, ⟨_, l, r, rfl, hl.ne_nullptr, hr.ne_nullptr⟩, ?_⟩
  intro input out0
  obtain ⟨i1, i2, i3⟩ := decodeCursors_on_tree (wrapInt (l.count + r.count)) l r ⟨hl, hcl⟩ ⟨hr, hcr⟩
    input _ hm hc (IsNodeOf.root _ _ _ _)
  obtain ⟨d, hd⟩ := decodeLoop_total (wrapInt (l.count + r.count)) l r ⟨hl, hcl⟩ ⟨hr, hcr⟩ input _ hm hc
    [] out0
  exact ⟨i1, i2, i3, d, by simpa [decode] using hd⟩

/-- Witness of C20 at the table of `"aaab"`. -/
theorem decode_stays_on_tree_witness :
    ((hashmap.keys [(97, 3), (98, 1), (256, 1)]).Nodup ∧
      2 ≤ ([(97, 3), (98, 1), (256, 1)] : hashmap).length ∧
      NOT_A_CHAR ∉ hashmap.keys [(97, 3), (98, 1), (256, 1)]) ∧
    ∃ tree, buildEncodingTree [(97, 3), (98, 1), (256, 1)] = .ok tree ∧
      (∃ cnt l r, tree = .node NOT_A_CHAR cnt l r ∧ l ≠ .nullptr ∧ r ≠ .nullptr) ∧
      ∀ (input : ifbitstream) (out0 : List CChar),
        (∀ cur ∈ decodeCursors tree input tree, IsNodeOf cur tree ∧ WellBranched cur) ∧
        decodeReads tree input tree ≤ input.length ∧
        (decodeCursors tree input tree).length ≤ input.length + 1 ∧
        ∃ decoded, decode input tree out0 = .ok (decoded, out0 ++ decoded) :=
  ⟨⟨by decide, by decide, by decide⟩,
    decode_stays_on_tree [(97, 3), (98, 1), (256, 1)] (by decide) (by decide) (by decide)⟩

end Huffman
